import Mathlib

/-!
The miniature module bundler of `tutorials/04-modules/02-build-tools.js`.

A shallow embedding of `SimpleBundler` (registry, dependency resolver, bundle
emitter) and of the runtime loader that `bundle` emits, followed by the
properties established about them.

JavaScript values that matter are modelled explicitly:

* a `Map` with string keys is an association list in insertion order;
* a `Set` of strings is a duplicate-free list in insertion order;
* a thrown `Error` is a value carrying its message;
* recursion is bounded by an explicit fuel and running out of it is a
  separate outcome, never confused with a result or an error.
-/

set_option autoImplicit false

/-! ## JavaScript collections -/

/-- A JavaScript `Map` keyed by strings: the entries in insertion order. -/
abbrev JsMap (α : Type) := List (String × α)

namespace JsMap

variable {α : Type}

/-- The `Map.prototype.has` operation. -/
def has (m : JsMap α) (k : String) : Bool :=
  m.any (fun e => e.1 == k)

/-- The `Map.prototype.get` operation: `none` stands for `undefined`. -/
def get : JsMap α → String → Option α
  | [], _ => none
  | (k', v) :: rest, k => if k' = k then some v else get rest k

/-- The `Map.prototype.set` operation: an existing key keeps its position and
gets the new value, a new key is appended. -/
def set : JsMap α → String → α → JsMap α
  | [], k, v => [(k, v)]
  | (k', v') :: rest, k, v =>
    if k' = k then (k, v) :: rest else (k', v') :: set rest k v

/-- The removal of a key: `Map.prototype.delete`, and `delete o[k]` on the
own properties of a plain object. -/
def delete (m : JsMap α) (k : String) : JsMap α :=
  m.filter (fun e => e.1 != k)

/-- The `Map.prototype.keys` operation, as the list it iterates over. -/
def keys (m : JsMap α) : List String :=
  m.map (fun e => e.1)

end JsMap

/-- A JavaScript `Set` of strings: its elements in insertion order. -/
abbrev JsSet := List String

namespace JsSet

/-- The `Set.prototype.has` operation. -/
def has (s : JsSet) (x : String) : Bool := s.contains x

/-- The `Set.prototype.add` operation. -/
def add (s : JsSet) (x : String) : JsSet :=
  if s.contains x then s else s ++ [x]

/-- The `Set.prototype.delete` operation. -/
def delete (s : JsSet) (x : String) : JsSet :=
  s.filter (fun y => y != x)

end JsSet

/-! ## Errors and outcomes -/

/-- A thrown `new Error(message)`. -/
structure JsError where
  message : String
deriving DecidableEq

/-- How a bounded run of a JavaScript function ends. -/
inductive Run (α : Type) where
  | ok (value : α)
  | thrown (error : JsError)
  | outOfFuel
deriving DecidableEq

/-! ## `SimpleBundler` -/

/-- The fields of a `SimpleBundler` instance. -/
structure SimpleBundler where
  modules : JsMap String
  dependencies : JsMap (List String)
  output : String
deriving DecidableEq

namespace SimpleBundler

/-- The constructor: two empty maps and the empty output. -/
def new : SimpleBundler :=
  { modules := [], dependencies := [], output := "" }

/-- The method `addModule(name, code, deps)`. -/
def addModule (b : SimpleBundler) (name code : String) (deps : List String) :
    SimpleBundler :=
  { b with
    modules := JsMap.set b.modules name code
    dependencies := JsMap.set b.dependencies name deps }

/-- The local variables `visited`, `visiting` and `sorted` of
`resolveDependencies`. -/
structure ResolveState where
  visited : JsSet
  visiting : JsSet
  sorted : List String
deriving DecidableEq

/-- The error thrown when a module is met again while in progress. -/
def circularError (name : String) : JsError :=
  ⟨"循环依赖检测: " ++ name⟩

/-- The error thrown when a dependency is not a registered module. -/
def missingError (dep : String) : JsError :=
  ⟨"找不到依赖模块: " ++ dep⟩

/-- The expression `this.dependencies.get(name) || []` of `visit`: the declared
dependency list of a module. -/
def depsOf (b : SimpleBundler) (name : String) : List String :=
  (JsMap.get b.dependencies name).getD []

/-- The `deps.forEach(dep => ...)` loop of `visit`, over the recursive call
`visitRec`. -/
def visitDeps (b : SimpleBundler) (visitRec : String → ResolveState → Run ResolveState) :
    List String → ResolveState → Run ResolveState
  | [], st => .ok st
  | dep :: rest, st =>
    if !JsMap.has b.modules dep then .thrown (missingError dep)
    else
      match visitRec dep st with
      | .ok st1 => visitDeps b visitRec rest st1
      | .thrown e => .thrown e
      | .outOfFuel => .outOfFuel

/-- The closure `visit` of `resolveDependencies`; `fuel` bounds the depth of
the recursion. -/
def visit (b : SimpleBundler) : Nat → String → ResolveState → Run ResolveState
  | 0, _, _ => .outOfFuel
  | fuel + 1, name, st =>
    if JsSet.has st.visiting name then .thrown (circularError name)
    else if JsSet.has st.visited name then .ok st
    else
      match visitDeps b (visit b fuel) (depsOf b name)
          { st with visiting := JsSet.add st.visiting name } with
      | .ok st1 =>
        .ok { visited := JsSet.add st1.visited name
              visiting := JsSet.delete st1.visiting name
              sorted := st1.sorted ++ [name] }
      | .thrown e => .thrown e
      | .outOfFuel => .outOfFuel

/-- The loop `for (const name of this.modules.keys()) visit(name)`. -/
def visitAll (b : SimpleBundler) (fuel : Nat) :
    List String → ResolveState → Run ResolveState
  | [], st => .ok st
  | name :: rest, st =>
    match visit b fuel name st with
    | .ok st1 => visitAll b fuel rest st1
    | .thrown e => .thrown e
    | .outOfFuel => .outOfFuel

/-- The method `resolveDependencies()` on a call stack that is deep enough:
more nested activations of `visit` are allowed than there are registered
modules, and the recursion never goes deeper (`resolveDependencies_fuel`).
The method on a call stack of a given depth is `resolveDependenciesOnStack`. -/
def resolveDependencies (b : SimpleBundler) : Run (List String) :=
  match visitAll b (b.modules.length + 1) (JsMap.keys b.modules)
      { visited := [], visiting := [], sorted := [] } with
  | .ok st => .ok st.sorted
  | .thrown e => .thrown e
  | .outOfFuel => .outOfFuel

/-- The `RangeError` that the engine raises when a call finds the call stack
exhausted. -/
def stackOverflowError : JsError :=
  ⟨"Maximum call stack size exceeded"⟩

/-- The method `resolveDependencies()` on a call stack that affords `depth`
nested activations of `visit`. The closure calls itself through
`deps.forEach`, so each dependency edge followed is a nested activation; the
call that finds the stack exhausted raises `RangeError`, which nothing in the
method catches. -/
def resolveDependenciesOnStack (depth : Nat) (b : SimpleBundler) : Run (List String) :=
  match visitAll b depth (JsMap.keys b.modules)
      { visited := [], visiting := [], sorted := [] } with
  | .ok st => .ok st.sorted
  | .thrown e => .thrown e
  | .outOfFuel => .thrown stackOverflowError

/-- Every module of `sorted`, at whatever index it stands, has each of its
declared dependencies at a strictly smaller index. -/
def DepsBefore (b : SimpleBundler) (sorted : List String) : Prop :=
  ∀ (j : Nat) (m : String), sorted[j]? = some m →
    ∀ d ∈ depsOf b m, ∃ i : Nat, i < j ∧ sorted[i]? = some d

/-- The invariant of the traversal. -/
structure ResolveInv (b : SimpleBundler) (st : ResolveState) : Prop where
  visited_iff : ∀ x, x ∈ st.visited ↔ x ∈ st.sorted
  nodup : st.sorted.Nodup
  before : DepsBefore b st.sorted
  disjoint : ∀ x, x ∈ st.visiting → x ∉ st.visited

/-- What a successful `visit` guarantees about the state it leaves. -/
structure VisitPost (b : SimpleBundler) (st st1 : ResolveState) : Prop where
  inv : ResolveInv b st1
  visiting_iff : ∀ x, x ∈ st1.visiting ↔ x ∈ st.visiting
  grows : ∃ added, st1.sorted = st.sorted ++ added

/-- The in-progress set holds distinct registered names and the fuel left
covers the registered names not yet in progress. -/
structure FuelOk (b : SimpleBundler) (fuel : Nat) (st : ResolveState) : Prop where
  nodup : st.visiting.Nodup
  registered : ∀ x ∈ st.visiting, x ∈ JsMap.keys b.modules
  enough : b.modules.length + 1 ≤ fuel + st.visiting.length

/-- Every name in `sorted` is a registered module. -/
def AllRegistered (b : SimpleBundler) (st : ResolveState) : Prop :=
  ∀ x ∈ st.sorted, x ∈ JsMap.keys b.modules

end SimpleBundler

/-! ## `transform`, `bundle` and `getOutput` -/

/-- The error names the id: the id occurs in its message. -/
def JsError.mentions (e : JsError) (id : String) : Prop :=
  id.toList <:+: e.message.toList

instance (e : JsError) (id : String) : Decidable (e.mentions id) := by
  unfold JsError.mentions; infer_instance

namespace SimpleBundler

/-- The `TypeError` raised by `code.replace` when `code` is `undefined`. -/
def undefinedReplaceError : JsError :=
  ⟨"Cannot read properties of undefined (reading \x27replace\x27)"⟩

/-- The method `transform(code, name)`: four chained calls of
`String.prototype.replace` with a global regular expression. The
regular-expression engine is the parameter `replace pattern replacement
subject`; `code` is `none` when the argument is `undefined`. -/
def transform (replace : String → String → String → String)
    (code : Option String) (_name : String) : Except JsError String :=
  match code with
  | none => .error undefinedReplaceError
  | some text =>
    .ok (replace "=>\\s*([^\x7b])" "function() \x7b return $1; \x7d"
      (replace "=>\\s*\x7b" "function() \x7b"
        (replace "let\\s+" "var "
          (replace "const\\s+" "var " text))))

/-- The state of the loop `sortedModules.forEach(...)` of `bundle`: the text
built so far, and two records kept for the analysis, the arguments of every
call of `transform` and the `(id, transformed body)` pairs of the module
definitions written into the text. -/
structure EmitState where
  bundled : String
  transformCalls : List (Option String × String)
  emitted : List (String × String)
deriving DecidableEq

/-- The three lines appended to the text for one module. -/
def moduleDefinition (name transformed : String) : String :=
  "  modules[\x27" ++ name ++ "\x27] = function() \x7b\n" ++
  ("    " ++ transformed ++ "\n") ++
  "  \x7d;\n\n"

/-- The loop `sortedModules.forEach(name => ...)` of `bundle`. The second
component is the error that ended the loop, if one was thrown. -/
def emitModules (replace : String → String → String → String) (b : SimpleBundler) :
    List String → EmitState → EmitState × Option JsError
  | [], es => (es, none)
  | name :: rest, es =>
    let code := JsMap.get b.modules name
    let called := es.transformCalls ++ [(code, name)]
    match transform replace code name with
    | .error e => ({ es with transformCalls := called }, some e)
    | .ok transformed =>
      emitModules replace b rest
        { bundled := es.bundled ++ moduleDefinition name transformed
          transformCalls := called
          emitted := es.emitted ++ [(name, transformed)] }

/-- The first three lines of the emitted text. -/
def bundleHeader : String :=
  "(function() \x7b\n" ++ "  var modules = \x7b\x7d;\n" ++ "  var cache = \x7b\x7d;\n\n"

/-- The fixed end of the emitted text: the loader `require` and the start of
the entry module `main`. -/
def loaderText : String :=
  "  function require(name) \x7b\n" ++
  "    if (cache[name]) return cache[name];\n" ++
  "    var module = \x7b exports: \x7b\x7d \x7d;\n" ++
  "    cache[name] = module.exports;\n" ++
  "    modules[name].call(module.exports, module, module.exports, require);\n" ++
  "    return cache[name];\n" ++
  "  \x7d\n" ++
  "  \n" ++
  "  // 启动入口模块\n" ++
  "  require(\x27main\x27);\n" ++
  "\x7d)();"

/-- The declaration of the function `require` in the emitted text. -/
def loaderFunctionText : String :=
  "  function require(name) \x7b\n" ++
  "    if (cache[name]) return cache[name];\n" ++
  "    var module = \x7b exports: \x7b\x7d \x7d;\n" ++
  "    cache[name] = module.exports;\n" ++
  "    modules[name].call(module.exports, module, module.exports, require);\n" ++
  "    return cache[name];\n" ++
  "  \x7d\n"

/-- The last lines of the emitted text: the one top-level call of `require`,
on the id `entry`, and the end of the enclosing function. -/
def entryCallText (entry : String) : String :=
  "  \n" ++
  "  // 启动入口模块\n" ++
  "  require(\x27" ++ entry ++ "\x27);\n" ++
  "\x7d)();"

/-- The module definitions of the emitted text, one after the other. -/
def concatDefinitions : List (String × String) → String
  | [] => ""
  | p :: rest => moduleDefinition p.1 p.2 ++ concatDefinitions rest

/-- What one call of `bundle` leaves: the value returned (`none` is `null`),
the bundler afterwards, and the two analysis records of the emit loop. -/
structure BundleResult where
  returned : Option String
  bundler : SimpleBundler
  transformCalls : List (Option String × String)
  emitted : List (String × String)
deriving DecidableEq

/-- The method `bundle()`. The `try` block resolves the order, emits the
module definitions, appends the loader, stores the text in `this.output` and
returns it; the `catch` block returns `null`. The result is `none` only if
the resolver ran out of fuel. -/
def bundle (replace : String → String → String → String) (b : SimpleBundler) :
    Option BundleResult :=
  match resolveDependencies b with
  | .outOfFuel => none
  | .thrown _ =>
    some { returned := none, bundler := b, transformCalls := [], emitted := [] }
  | .ok sortedModules =>
    match emitModules replace b sortedModules
        { bundled := bundleHeader, transformCalls := [], emitted := [] } with
    | (es, some _) =>
      some { returned := none, bundler := b
             transformCalls := es.transformCalls, emitted := es.emitted }
    | (es, none) =>
      let bundled := es.bundled ++ loaderText
      some { returned := some bundled, bundler := { b with output := bundled }
             transformCalls := es.transformCalls, emitted := es.emitted }

/-- The method `getOutput()`. -/
def getOutput (b : SimpleBundler) : String := b.output

/-- The entry module named in the emitted text. -/
def entryName : String := "main"

/-- The edge relation of the declared dependency graph: `m` lists `d`. -/
def DependsOn (b : SimpleBundler) (m d : String) : Prop :=
  d ∈ depsOf b m

/-- The module `n` is the entry or is reached from it through declared
dependency edges. -/
def Reachable (b : SimpleBundler) (entry n : String) : Prop :=
  Relation.ReflTransGen (DependsOn b) entry n

/-- Every name in the dependency list of a registered module is registered. -/
def Closed (b : SimpleBundler) : Prop :=
  ∀ m, JsMap.has b.modules m = true → ∀ d ∈ depsOf b m, JsMap.has b.modules d = true

/-- No registered module reaches itself through one or more declared
dependency edges; a module that lists itself does. -/
def Acyclic (b : SimpleBundler) : Prop :=
  ∀ m, JsMap.has b.modules m = true → ¬ Relation.TransGen (DependsOn b) m m

/-- The list `deps` without the ids that are in `seen` or that occurred
earlier in `deps`. -/
def removeRepeatsFrom : List String → List String → List String
  | _, [] => []
  | seen, d :: rest =>
    if d ∈ seen then removeRepeatsFrom seen rest
    else d :: removeRepeatsFrom (d :: seen) rest

/-- The list `deps` with the repeats removed, the first occurrence of each id
kept. -/
def removeRepeats (deps : List String) : List String :=
  removeRepeatsFrom [] deps

/-- The registry `b` with the dependency list of the module `m` replaced by
the same list without repeats. -/
def collapseRepeats (b : SimpleBundler) (m : String) : SimpleBundler :=
  { b with dependencies := JsMap.set b.dependencies m (removeRepeats (depsOf b m)) }

/-- A dependency that `visit` has finished with: it is registered, visited
and not in progress. -/
def Done (b : SimpleBundler) (st : ResolveState) (d : String) : Prop :=
  JsMap.has b.modules d = true ∧ d ∈ st.visited ∧ d ∉ st.visiting

/-- The module `main` lists `utils` three times and `math` twice. -/
def repeatedBundler : SimpleBundler :=
  addModule (addModule (addModule new "utils" "U" []) "math" "M" ["utils", "utils"])
    "main" "X" ["utils", "math", "utils", "math", "utils"]

/-- The id of the module at position `i` of a chain: `m`, `mx`, `mxx`, ... -/
def chainName (i : Nat) : String :=
  String.mk ('m' :: List.replicate i 'x')

/-- The dependency list of the module at position `i` of the chain that ends
at position `n`: the next module, and nothing for the last one. -/
def chainDeps (n i : Nat) : List String :=
  if i < n then [chainName (i + 1)] else []

/-- The registry after `addModule` was called for the first `k` modules of the
chain that ends at position `n`, from position 0 on. -/
def chainUpTo (n : Nat) : Nat → SimpleBundler
  | 0 => new
  | k + 1 => addModule (chainUpTo n k) (chainName k) "" (chainDeps n k)

/-- A chain of `n + 1` modules, registered from its head on: each module but
the last depends on the next one. -/
def chainBundler (n : Nat) : SimpleBundler :=
  chainUpTo n (n + 1)

/-- A registry whose one module `a` has code that closes the function it is
written into and goes on at the top level of the text. -/
def splicedBundler : SimpleBundler :=
  addModule new "a" "\x7d; require(\x27a\x27); modules[\x27main\x27] = function() \x7b" []

/-- A registry with one module and no module named `main`. -/
def noMainBundler : SimpleBundler :=
  addModule new "app" "start()" []

/-- The registry of the demonstration: `utils`, `math` and `main`; only the
dependency lists matter to the resolver. -/
def demoBundler : SimpleBundler :=
  addModule (addModule (addModule new "utils" "U" []) "math" "M" ["utils"])
    "main" "X" ["math"]

/-- Two modules that depend on each other, `A` registered first. -/
def cycleBundler : SimpleBundler :=
  addModule (addModule new "A" "a" ["B"]) "B" "b" ["A"]

/-- The module `A` depends on `B`, which is not registered. -/
def danglingBundler : SimpleBundler :=
  addModule new "A" "a" ["B"]

/-- An entry `main` without dependencies and a module nobody refers to. -/
def orphanBundler : SimpleBundler :=
  addModule (addModule new "main" "m" []) "orphan" "o" []

/-- Two modules, `left` and `right`, depend on the same module `shared`. -/
def diamondBundler : SimpleBundler :=
  addModule (addModule (addModule (addModule new "shared" "s" [])
    "left" "l" ["shared"]) "right" "r" ["shared"]) "main" "m" ["left", "right"]

end SimpleBundler

/-! ## The loader emitted by `bundle`

The emitted text declares `var modules = {}` and `var cache = {}`, stores one
function per module in `modules`, and ends with

```
function require(name) {
  if (cache[name]) return cache[name];
  var module = { exports: {} };
  cache[name] = module.exports;
  modules[name].call(module.exports, module, module.exports, require);
  return cache[name];
}
```

Objects live on a heap and are referred to by their address, so that "the
same record" is equality of addresses.

The text of a module is written between `modules[id] = function() {` and
`};`, inside the function that declares `modules`, `cache` and `require`.
The wrapper declares no parameters. A body therefore reaches the exports
record that `require` made as `this`, and the `module` object of `require`
only as `arguments[0]`; the names `require` and `cache` are in its scope; and
the name `module` is not bound by the emitted text at all: it refers to
whatever the scope around the text binds it to, if anything. A module body
is modelled as a sequence of such actions. Of what the loader keeps, a body
of the model can write to `cache`; writes to `modules`, to `require` and to
`Object.prototype`, which JavaScript also allows there, are outside the
model.
-/

/-- The property names that every plain object, such as `cache` and
`modules`, inherits from `Object.prototype`. -/
def objectPrototypeKeys : List String :=
  ["constructor", "__defineGetter__", "__defineSetter__", "hasOwnProperty",
   "__lookupGetter__", "__lookupSetter__", "isPrototypeOf", "propertyIsEnumerable",
   "toString", "valueOf", "__proto__", "toLocaleString"]

/-- The JavaScript values of the model. -/
inductive JsValue where
  | undefined
  | number (n : Int)
  | text (s : String)
  | record (address : Nat)
  | closure (source : String)
  | inherited (key : String)
  | memberOfInherited (key member : String)
deriving DecidableEq

namespace JsValue

/-- The conversion to a boolean made by `if (...)`. The members inherited from
`Object.prototype` are functions or objects, hence truthy; a member of such a
built-in is never tested. -/
def truthy : JsValue → Bool
  | .undefined => false
  | .number n => n != 0
  | .text s => s != ""
  | .record _ => true
  | .closure _ => true
  | .inherited _ => true
  | .memberOfInherited _ _ => true

end JsValue

/-- The own properties of a plain object. -/
abbrev JsObject := JsMap JsValue

/-- The property read `o[key]` on a plain object: an own property, else the
member inherited from `Object.prototype`, else `undefined`. -/
def JsObject.read (o : JsObject) (key : String) : JsValue :=
  match JsMap.get o key with
  | some v => v
  | none => if key ∈ objectPrototypeKeys then .inherited key else .undefined

/-- One action of a module body.

* `setExport key value` is `this.key = value`, on the exports record that
  `require` passes as `this`;
* `assignModuleExports fields` is `module.exports = { ...fields }`, with
  `module` the free identifier of the emitted text;
* `assignArgumentExports fields` is `arguments[0].exports = { ...fields }`,
  on the `module` object that `require` passes as first argument;
* `requireAs x name` is `var x = require(name)`;
* `readMember x key` reads `x.key` and records the value read;
* `throwNew message` is `throw new Error(message)`;
* `assignCache name fields` makes the own property `name` of `cache` a new
  record: `cache[name] = { ...fields }` (for the one name `__proto__`, which
  an assignment treats as the prototype, `Object.defineProperty`);
* `deleteCache name` is `delete cache[name]`. -/
inductive Instr where
  | setExport (key : String) (value : JsValue)
  | assignModuleExports (fields : JsObject)
  | assignArgumentExports (fields : JsObject)
  | requireAs (x : String) (name : String)
  | readMember (x : String) (key : String)
  | throwNew (message : String)
  | assignCache (name : String) (fields : JsObject)
  | deleteCache (name : String)
deriving DecidableEq

/-- The action is a write to `cache`. -/
def Instr.writesCache : Instr → Bool
  | .assignCache _ _ => true
  | .deleteCache _ => true
  | _ => false

/-- The state of a running bundle: the heap of records, the own properties of
`cache` (each an address of a record), the binding of the name `module` in
the scope around the emitted text (`none` when there is none, else the value
of its property `exports`), and three records kept for the analysis: the ids
whose body was started, the values read by `readMember`, and the `require`
calls that returned, with the value returned. -/
structure Loader where
  heap : List JsObject
  cache : JsMap Nat
  outerModule : Option JsValue
  executed : List String
  observed : List JsValue
  returned : List (String × JsValue)
deriving DecidableEq

/-- What a body holds while it runs: the record bound to `this`, the record
currently stored in the property `exports` of the `module` object of
`require`, and its `var`s. -/
structure Frame where
  exportsRecord : Nat
  moduleExports : Nat
  locals : JsMap JsValue
deriving DecidableEq

/-- How a bounded run of loader code ends; the state reached is kept when an
error is thrown, since the cache outlives the error. -/
inductive LoadRun (α : Type) where
  | ok (value : α) (state : Loader)
  | thrown (error : JsError) (state : Loader)
  | outOfFuel
deriving DecidableEq

namespace Loader

/-- The state when the emitted text starts, in a scope that does not bind the
name `module`: nothing allocated, empty cache. -/
def init : Loader :=
  { heap := [], cache := [], outerModule := none, executed := [], observed := [],
    returned := [] }

/-- The state when the emitted text starts in a scope where the name `module`
is bound as `outer` says: `some v` for an object whose property `exports`
holds `v`, as in the text of a CommonJS file, `none` for no binding. -/
def initIn (outer : Option JsValue) : Loader :=
  { init with outerModule := outer }

/-- The expression `cache[name]`. -/
def cacheRead (s : Loader) (name : String) : JsValue :=
  match JsMap.get s.cache name with
  | some a => .record a
  | none => if name ∈ objectPrototypeKeys then .inherited name else .undefined

/-- The assignment `record.key = value` on the record at `address`. -/
def writeField (heap : List JsObject) (address : Nat) (key : String) (value : JsValue) :
    List JsObject :=
  match heap[address]? with
  | some fields => heap.set address (JsMap.set fields key value)
  | none => heap

/-- The error of calling `modules[name].call` when `modules[name]` is
`undefined`. -/
def undefinedModuleError : JsError :=
  ⟨"Cannot read properties of undefined (reading \x27call\x27)"⟩

/-- The `ReferenceError` of a body that names `module` where the scope around
the emitted text does not bind it. -/
def moduleNotDefinedError : JsError :=
  ⟨"module is not defined"⟩

/-- The error of reading a member of `undefined`. -/
def undefinedMemberError (key : String) : JsError :=
  ⟨"Cannot read properties of undefined (reading \x27" ++ key ++ "\x27)"⟩

/-- The body of a module run action by action, over the function `require`
of the emitted text. -/
def runBody (requireRec : String → Loader → LoadRun JsValue) :
    List Instr → Frame → Loader → LoadRun Unit
  | [], _, s => .ok () s
  | .setExport key value :: rest, f, s =>
    runBody requireRec rest f
      { s with heap := writeField s.heap f.exportsRecord key value }
  | .assignModuleExports fields :: rest, f, s =>
    match s.outerModule with
    | none => .thrown moduleNotDefinedError s
    | some _ =>
      runBody requireRec rest f
        { s with heap := s.heap ++ [fields], outerModule := some (.record s.heap.length) }
  | .assignArgumentExports fields :: rest, f, s =>
    runBody requireRec rest { f with moduleExports := s.heap.length }
      { s with heap := s.heap ++ [fields] }
  | .requireAs x name :: rest, f, s =>
    match requireRec name s with
    | .ok v s1 => runBody requireRec rest { f with locals := JsMap.set f.locals x v } s1
    | .thrown e s1 => .thrown e s1
    | .outOfFuel => .outOfFuel
  | .readMember x key :: rest, f, s =>
    match JsMap.get f.locals x with
    | some (.record a) =>
      runBody requireRec rest f
        { s with observed := s.observed ++ [JsObject.read (s.heap[a]?.getD []) key] }
    | some (.inherited k) =>
      runBody requireRec rest f
        { s with observed := s.observed ++ [.memberOfInherited k key] }
    | _ => .thrown (undefinedMemberError key) s
  | .throwNew message :: _, _, s => .thrown ⟨message⟩ s
  | .assignCache name fields :: rest, f, s =>
    runBody requireRec rest f
      { s with heap := s.heap ++ [fields], cache := JsMap.set s.cache name s.heap.length }
  | .deleteCache name :: rest, f, s =>
    runBody requireRec rest f { s with cache := JsMap.delete s.cache name }

/-- The state in which the body of `name` starts: `module.exports` is a fresh
empty record and `cache[name]` holds it. -/
def enter (s : Loader) (name : String) : Loader :=
  { s with
    heap := s.heap ++ [[]]
    cache := JsMap.set s.cache name s.heap.length
    executed := s.executed ++ [name] }

/-- The frame in which the body of a module starts, in the state `s` of the
call. -/
def entryFrame (s : Loader) : Frame :=
  { exportsRecord := s.heap.length, moduleExports := s.heap.length, locals := [] }

/-- The last line of `require`, after the body: `return cache[name]`. An
error thrown by the body passes through. -/
def finish (name : String) : LoadRun Unit → LoadRun JsValue
  | .ok _ s1 =>
    .ok (cacheRead s1 name) { s1 with returned := s1.returned ++ [(name, cacheRead s1 name)] }
  | .thrown e s1 => .thrown e s1
  | .outOfFuel => .outOfFuel

/-- The emitted function `require(name)` over the table `modules`; `fuel`
bounds the depth of nested calls. When the first line does not return,
`name` is not a key of `Object.prototype`, so `modules[name]` is an own
property of `modules` or `undefined`. -/
def require (modules : JsMap (List Instr)) : Nat → String → Loader → LoadRun JsValue
  | 0, _, _ => .outOfFuel
  | fuel + 1, name, s =>
    if (cacheRead s name).truthy then
      .ok (cacheRead s name)
        { s with returned := s.returned ++ [(name, cacheRead s name)] }
    else
      match JsMap.get modules name with
      | none =>
        .thrown undefinedModuleError
          { s with heap := s.heap ++ [[]], cache := JsMap.set s.cache name s.heap.length }
      | some body =>
        finish name (runBody (require modules fuel) body (entryFrame s) (enter s name))

/-- The state after a run, whatever its end; `none` when the fuel ran out. -/
def stateAfter {α : Type} : LoadRun α → Option Loader
  | .ok _ s => some s
  | .thrown _ s => some s
  | .outOfFuel => none

/-- The call `require(name)` made `n` times in a row by a caller that goes on
after an error. -/
def requireTimes (modules : JsMap (List Instr)) (fuel : Nat) (name : String) :
    Nat → Loader → Option Loader
  | 0, s => some s
  | n + 1, s =>
    match stateAfter (require modules fuel name s) with
    | some s1 => requireTimes modules fuel name n s1
    | none => none

/-- The calls `require(name)` for the names of the list, one after the
other, by a caller that goes on after an error. -/
def requireAll (modules : JsMap (List Instr)) (fuel : Nat) :
    List String → Loader → Option Loader
  | [], s => some s
  | name :: rest, s =>
    match stateAfter (require modules fuel name s) with
    | some s1 => requireAll modules fuel rest s1
    | none => none

/-- A module whose body assigns a field and then throws, and a module `main`
that requires a module without a body. -/
def failingModules : JsMap (List Instr) :=
  [("bad", [.setExport "ready" (.number 1), .throwNew "boom"]),
   ("main", [.requireAs "m" "missing"])]

/-- The state in which the call `require("bad")` on `failingModules` ends:
the record of `bad` holds the field assigned before the error. -/
def failedState : Loader :=
  { enter init "bad" with heap := [[("ready", .number 1)]] }

/-- The modules of the cyclic pair in which `A` assigns `val` before it
requires `B`. -/
def cycleAssignFirst : JsMap (List Instr) :=
  [("A", [.setExport "val" (.number 1), .requireAs "b" "B"]),
   ("B", [.requireAs "a" "A", .readMember "a" "val"])]

/-- The modules of the cyclic pair in which `A` requires `B` before it
assigns `val`. -/
def cycleRequireFirst : JsMap (List Instr) :=
  [("A", [.requireAs "b" "B", .setExport "val" (.number 1)]),
   ("B", [.requireAs "a" "A", .readMember "a" "val"])]

/-- Two modules shaped like `utils` and `main` of the demonstration, in text
that `transform` leaves as it is: `utils` is
`module.exports = { add: function(a, b) { return a + b; } };` and `main` is
`var utils = require('utils'); utils.add;`. -/
def exportingModules : JsMap (List Instr) :=
  [("utils", [.assignModuleExports
      [("add", .closure "function(a, b) \x7b return a + b; \x7d")]]),
   ("main", [.requireAs "utils" "utils", .readMember "utils" "add"])]

/-- The same two modules with `utils` reaching the `module` object of
`require` through its arguments:
`arguments[0].exports = { add: function(a, b) { return a + b; } };`. -/
def exportingByArgument : JsMap (List Instr) :=
  [("utils", [.assignArgumentExports
      [("add", .closure "function(a, b) \x7b return a + b; \x7d")]]),
   ("main", [.requireAs "utils" "utils", .readMember "utils" "add"])]

/-- A module whose body replaces its own cache entry:
`this.a = 1; cache['main'] = { b: 2 };`. -/
def replacingModules : JsMap (List Instr) :=
  [("main", [.setExport "a" (.number 1), .assignCache "main" [("b", .number 2)]])]

/-- A module whose body removes its own cache entry before it throws:
`this.ready = 1; delete cache['bad']; throw new Error('boom');`. -/
def deletingModules : JsMap (List Instr) :=
  [("bad", [.setExport "ready" (.number 1), .deleteCache "bad", .throwNew "boom"])]

/-- A module registered under the id `constructor`, required by `main`. -/
def constructorModules : JsMap (List Instr) :=
  [("constructor", [.setExport "answer" (.number 42)]),
   ("main", [.requireAs "c" "constructor", .readMember "c" "answer"])]

end Loader

namespace Loader

/-- The invariant of a running bundle: the keys of `cache` are distinct, no
body was started twice, every started id has a truthy `cache[id]`, and every
value returned by `require(id)` is the truthy `cache[id]`. -/
structure Wf (s : Loader) : Prop where
  keys_nodup : (JsMap.keys s.cache).Nodup
  executed_nodup : s.executed.Nodup
  executed_cached : ∀ x ∈ s.executed, (cacheRead s x).truthy = true
  returned_cached : ∀ p ∈ s.returned, cacheRead s p.1 = p.2 ∧ p.2.truthy = true

/-- The state `s1` comes after `s`: a truthy `cache[k]` is still the same
value, and the keys of `cache`, the started ids and the returned calls were
only added to. -/
structure Ext (s s1 : Loader) : Prop where
  stable : ∀ k, (cacheRead s k).truthy = true → cacheRead s1 k = cacheRead s k
  keys_grow : ∃ added, JsMap.keys s1.cache = JsMap.keys s.cache ++ added
  executed_grow : ∃ added, s1.executed = s.executed ++ added
  returned_grow : ∃ added, s1.returned = s.returned ++ added

/-- No body of the table writes to `cache`. -/
def LeavesCache (modules : JsMap (List Instr)) : Prop :=
  ∀ p ∈ modules, ∀ i ∈ p.2, Instr.writesCache i = false

instance (modules : JsMap (List Instr)) : Decidable (LeavesCache modules) := by
  unfold LeavesCache; infer_instance

/-- Between `s` and `s1` no truthy `cache[k]` changed. -/
def Stable (s s1 : Loader) : Prop :=
  ∀ k, (cacheRead s k).truthy = true → cacheRead s1 k = cacheRead s k

/-- The number of cache keys that are modules of the table. -/
def cachedModules (modules : JsMap (List Instr)) (s : Loader) : Nat :=
  ((JsMap.keys s.cache).filter (fun k => decide (k ∈ JsMap.keys modules))).length

/-- The fuel covers the modules that have no cache entry yet. -/
def FuelCovers (modules : JsMap (List Instr)) (fuel : Nat) (s : Loader) : Prop :=
  modules.length + 1 ≤ fuel + cachedModules modules s

end Loader

/-! ## `TreeShaker` -/

/-- The value `{ exports, code }` stored for a module. -/
structure ModuleInfo where
  exports : List String
  code : String
deriving DecidableEq

/-- The fields of a `TreeShaker` instance. -/
structure TreeShaker where
  usedExports : JsSet
  modules : JsMap ModuleInfo
deriving DecidableEq

namespace TreeShaker

/-- The constructor: an empty set and an empty map. -/
def new : TreeShaker :=
  { usedExports := [], modules := [] }

/-- The method `addModule(name, exports, code)`. -/
def addModule (t : TreeShaker) (name : String) (exports : List String) (code : String) :
    TreeShaker :=
  { t with modules := JsMap.set t.modules name { exports := exports, code := code } }

/-- The key built by the template `moduleName.exportName`. -/
def exportKey (moduleName exportName : String) : String :=
  moduleName ++ "." ++ exportName

/-- The method `markUsed(moduleName, exportName)`. -/
def markUsed (t : TreeShaker) (moduleName exportName : String) : TreeShaker :=
  { t with usedExports := JsSet.add t.usedExports (exportKey moduleName exportName) }

/-- The method `generateOptimizedCode(originalCode, usedExports)`: one line
per used export, joined by newlines. -/
def generateOptimizedCode (_originalCode : String) (usedExports : List String) : String :=
  "\n".intercalate
    (usedExports.map
      (fun exp => "function " ++ exp ++ "() \x7b /* 优化后的" ++ exp ++ "代码 */ \x7d"))

/-- The expression `moduleInfo.exports.filter(...)` of `shake`: the declared
exports of the module whose key is in `usedExports`. -/
def usedExportsInModule (t : TreeShaker) (moduleName : String) (info : ModuleInfo) :
    List String :=
  info.exports.filter (fun exp => JsSet.has t.usedExports (exportKey moduleName exp))

/-- The loop `for (const [moduleName, moduleInfo] of this.modules)` of
`shake`, over the entries left, with the `result` map built so far. -/
def shakeLoop (t : TreeShaker) : List (String × ModuleInfo) → JsMap ModuleInfo →
    JsMap ModuleInfo
  | [], result => result
  | (moduleName, moduleInfo) :: rest, result =>
    if (usedExportsInModule t moduleName moduleInfo).length > 0 then
      shakeLoop t rest
        (JsMap.set result moduleName
          { exports := usedExportsInModule t moduleName moduleInfo
            code := generateOptimizedCode moduleInfo.code
              (usedExportsInModule t moduleName moduleInfo) })
    else
      shakeLoop t rest result

/-- The method `shake()`. -/
def shake (t : TreeShaker) : JsMap ModuleInfo :=
  shakeLoop t t.modules []

/-- What `shake` stores in `result` for one entry of `this.modules`: `none`
when the module is dropped. -/
def retain (t : TreeShaker) (p : String × ModuleInfo) : Option (String × ModuleInfo) :=
  if (usedExportsInModule t p.1 p.2).length > 0 then
    some (p.1,
      { exports := usedExportsInModule t p.1 p.2
        code := generateOptimizedCode p.2.code (usedExportsInModule t p.1 p.2) })
  else none

/-- The map `this.modules` after the `addModule` calls `adds` on an empty
map. -/
def modulesOf (adds : List (String × ModuleInfo)) : JsMap ModuleInfo :=
  adds.foldl (fun m p => JsMap.set m p.1 p.2) []

/-- One call on a shaker. -/
inductive Call where
  | addModule (name : String) (exports : List String) (code : String)
  | markUsed (moduleName exportName : String)
deriving DecidableEq

/-- The shaker after one call. -/
def step (t : TreeShaker) : Call → TreeShaker
  | .addModule name exports code => addModule t name exports code
  | .markUsed moduleName exportName => markUsed t moduleName exportName

/-- The shaker after a sequence of calls on a new shaker. -/
def run (calls : List Call) : TreeShaker :=
  calls.foldl step new

/-- The `addModule` calls of a sequence, in order. -/
def addsOf (calls : List Call) : List (String × ModuleInfo) :=
  calls.filterMap (fun c =>
    match c with
    | .addModule name exports code => some (name, { exports := exports, code := code })
    | .markUsed _ _ => none)

/-- The `(module, export)` pairs of the `markUsed` calls of a sequence. -/
def marksOf (calls : List Call) : List (String × String) :=
  calls.filterMap (fun c =>
    match c with
    | .addModule _ _ _ => none
    | .markUsed moduleName exportName => some (moduleName, exportName))

/-- The calls of the demonstration: `lodash` and `utils`, with `map`,
`filter` and `debounce` marked used. -/
def demoCalls : List Call :=
  [.addModule "lodash" ["map", "filter", "reduce", "find", "forEach"] "lodash完整代码...",
   .addModule "utils" ["debounce", "throttle", "deepClone"] "utils完整代码...",
   .markUsed "lodash" "map", .markUsed "lodash" "filter", .markUsed "utils" "debounce"]

/-- The scenario `entry`, `used`, `unused`: only the export `helper` of `used`
is marked used. -/
def entryCalls : List Call :=
  [.addModule "entry" ["start"] "import helper", .addModule "used" ["helper"] "helper code",
   .addModule "unused" ["extra"] "extra code", .markUsed "used" "helper"]

/-- A module whose code has a top-level side effect and none of whose exports
is marked used, next to a module with a used export. -/
def sideEffectCalls : List Call :=
  [.addModule "polyfill" ["install"] "globalThis.ready = true;",
   .addModule "used" ["helper"] "helper code", .markUsed "used" "helper"]

/-- The module `lodash.fp` is registered and never named by `markUsed`; the
call marks the export `fp.map` of the module `lodash`. -/
def collidingCalls : List Call :=
  [.addModule "lodash.fp" ["map"] "fp code", .markUsed "lodash" "fp.map"]

/-- The calls of the demonstration with the `markUsed` calls in another order
and one of them repeated. -/
def demoCallsReordered : List Call :=
  [.addModule "lodash" ["map", "filter", "reduce", "find", "forEach"] "lodash完整代码...",
   .markUsed "utils" "debounce", .markUsed "lodash" "filter",
   .addModule "utils" ["debounce", "throttle", "deepClone"] "utils完整代码...",
   .markUsed "lodash" "map", .markUsed "utils" "debounce"]

/-! ### The shaker as objects on a heap

The methods above describe a shaker by the contents of its two collections.
To say what a call leaves untouched, the objects themselves are needed: the
`Set`, the `Map`, the `{ exports, code }` records and the arrays live on a
heap, and refer to one another by address. -/

/-- An object that a shaker or a call of `shake` holds. -/
inductive ShakerObject where
  | array (items : List String)
  | moduleInfo (exports : Nat) (code : String)
  | map (entries : JsMap Nat)
  | set (elements : JsSet)
deriving DecidableEq

/-- The heap: the object at each address. -/
abbrev ShakerHeap := List ShakerObject

/-- A `TreeShaker` instance: the addresses held by its two fields. -/
structure Instance where
  usedExports : Nat
  modules : Nat
deriving DecidableEq

/-- The loop of `shake` on the heap, over the entries of `this.modules` left,
with `result` the address of the local map. For each entry,
`moduleInfo.exports.filter(...)` makes a new array, its callback asks
`this.usedExports.has(key)`; when the array is not empty, the object literal
is made and `result.set` stores its address in the map at `result`. The
outcome is `none` when an address does not hold the kind of object that the
method expects there. -/
def shakeLoopOnHeap (this : Instance) (result : Nat) :
    List (String × Nat) → ShakerHeap → Option ShakerHeap
  | [], heap => some heap
  | (moduleName, moduleInfo) :: rest, heap =>
    match heap[moduleInfo]? with
    | some (.moduleInfo exports code) =>
      match heap[exports]?, heap[this.usedExports]? with
      | some (.array items), some (.set used) =>
        let usedExportsInModule :=
          items.filter (fun exp => JsSet.has used (exportKey moduleName exp))
        let heap1 : ShakerHeap := heap ++ [.array usedExportsInModule]
        if usedExportsInModule.length > 0 then
          let heap2 : ShakerHeap := heap1 ++
            [.moduleInfo heap.length (generateOptimizedCode code usedExportsInModule)]
          match heap2[result]? with
          | some (.map entries) =>
            shakeLoopOnHeap this result rest
              (heap2.set result (.map (JsMap.set entries moduleName heap1.length)))
          | _ => none
        else shakeLoopOnHeap this result rest heap1
      | _, _ => none
    | _ => none

/-- The method `shake()` on the heap: `result` is a new map, the loop runs
over the entries of `this.modules`, and the address of `result` is returned
together with the heap that the call leaves. The entries are read when the
loop starts; the iterator of a `Map` follows later writes to the map, and
the loop makes none (`shakeLoopOnHeap_frame`). -/
def shakeOnHeap (this : Instance) (heap : ShakerHeap) : Option (Nat × ShakerHeap) :=
  match heap[this.modules]? with
  | some (.map entries) =>
    (shakeLoopOnHeap this heap.length entries (heap ++ [.map []])).map
      (fun heap1 => (heap.length, heap1))
  | _ => none

/-- The `{ exports, code }` record at an address, with the items of its
array. -/
def readInfo (heap : ShakerHeap) (address : Nat) : Option ModuleInfo :=
  match heap[address]? with
  | some (.moduleInfo exports code) =>
    match heap[exports]? with
    | some (.array items) => some { exports := items, code := code }
    | _ => none
  | _ => none

/-- The entries of a map of module records, each with the record it refers
to. -/
def readEntries (heap : ShakerHeap) : JsMap Nat → Option (JsMap ModuleInfo)
  | [] => some []
  | (name, address) :: rest =>
    match readInfo heap address, readEntries heap rest with
    | some info, some others => some ((name, info) :: others)
    | _, _ => none

/-- The contents of the map of module records at an address. -/
def readMap (heap : ShakerHeap) (address : Nat) : Option (JsMap ModuleInfo) :=
  match heap[address]? with
  | some (.map entries) => readEntries heap entries
  | _ => none

/-- The contents of a shaker: the elements of its set and the contents of
its map. -/
def readShaker (heap : ShakerHeap) (this : Instance) : Option TreeShaker :=
  match heap[this.usedExports]?, readMap heap this.modules with
  | some (.set used), some modules => some { usedExports := used, modules := modules }
  | _, _ => none

/-- The heap after the calls of the demonstration: the set and the map made
by the constructor, then for each `addModule` call the array of exports and
the record stored in the map. -/
def demoHeap : ShakerHeap :=
  [.set ["lodash.map", "lodash.filter", "utils.debounce"],
   .map [("lodash", 3), ("utils", 5)],
   .array ["map", "filter", "reduce", "find", "forEach"],
   .moduleInfo 2 "lodash完整代码...",
   .array ["debounce", "throttle", "deepClone"],
   .moduleInfo 4 "utils完整代码..."]

/-- The shaker of the demonstration on `demoHeap`. -/
def demoInstance : Instance :=
  { usedExports := 0, modules := 1 }

end TreeShaker

/-! ## The CommonJS-style counter of `tutorials/04-modules/01-module-systems.js` -/

/-- What `createCommonJSCounter()` builds: the variable `count` of the closure
and the field `count` of the object `exports`. -/
structure CommonJSCounter where
  count : Int
  exportsCount : Int
deriving DecidableEq

namespace CommonJSCounter

/-- The function `createCommonJSCounter()`: `let count = 0` and the field
`count: count` of `exports`. -/
def createCommonJSCounter : CommonJSCounter :=
  { count := 0, exportsCount := 0 }

/-- The method `increment()` called on the exports object, so that `this` is
that object: `count++; this.count = count; return count`. -/
def increment (c : CommonJSCounter) : Int × CommonJSCounter :=
  (c.count + 1, { count := c.count + 1, exportsCount := c.count + 1 })

/-- The method `getCount()`. -/
def getCount (c : CommonJSCounter) : Int := c.count

end CommonJSCounter

/-! ## `memoize` of `tutorials/02-advanced/02-closures-advanced.js` -/

/-- The argument and result values of the model of `memoize`; the numbers are
the integers. -/
inductive JsArg where
  | null
  | undefined
  | number (n : Int)
  | boolean (b : Bool)
deriving DecidableEq

namespace Memo

/-- What `JSON.stringify` writes for an element of an array: `undefined`
is written as `null`. -/
def jsonElement : JsArg → String
  | .null => "null"
  | .undefined => "null"
  | .number n => toString n
  | .boolean true => "true"
  | .boolean false => "false"

/-- The key `JSON.stringify(args)` of an argument list. -/
def jsonStringify (args : List JsArg) : String :=
  "[" ++ ",".intercalate (args.map jsonElement) ++ "]"

/-- A call of a function on an argument list under a cache: the value
returned with the cache afterwards, or `none` when the call returns no value
(the fuel ran out). -/
abbrev Call := List JsArg → JsMap JsArg → Option (JsArg × JsMap JsArg)

/-- The function returned by `memoize(fn)`, over the key function
`stringify`. The cache is the `Map` of the closure; `fn` is given the function
it reaches under the memoized name, for the case of a recursive `fn`. A key in
the cache returns the cached value; otherwise `fn` runs, its result is stored
under the key and returned. -/
def memoizeWith (stringify : List JsArg → String) (fn : Call → Call) : Nat → Call
  | 0, _, _ => none
  | fuel + 1, args, cache =>
    if JsMap.has cache (stringify args) then
      (JsMap.get cache (stringify args)).map (fun v => (v, cache))
    else
      match fn (memoizeWith stringify fn fuel) args cache with
      | some (result, cache1) => some (result, JsMap.set cache1 (stringify args) result)
      | none => none

/-- The function `memoize(fn)` of the source, keyed by `JSON.stringify`. -/
def memoize (fn : Call → Call) : Nat → Call :=
  memoizeWith jsonStringify fn

/-- A function whose result depends only on its arguments, as `memoize`
calls it. -/
def pureFn (f : List JsArg → JsArg) : Call → Call :=
  fun _ args cache => some (f args, cache)

/-- The calls of the memoized function on the argument lists of `calls`, one
after the other: the values returned and the cache afterwards. -/
def callAll (memoized : Call) : List (List JsArg) → JsMap JsArg →
    Option (List JsArg × JsMap JsArg)
  | [], cache => some ([], cache)
  | args :: rest, cache =>
    match memoized args cache with
    | some (v, cache1) =>
      match callAll memoized rest cache1 with
      | some (vs, cache2) => some (v :: vs, cache2)
      | none => none
    | none => none

/-- The function `x => x === null`. -/
def isNull (args : List JsArg) : JsArg :=
  match args.head? with
  | some .null => .boolean true
  | _ => .boolean false

/-- The function passed to `memoize` in the demonstration, on a numeric
argument: `if (n <= 1) return n; return fibonacci(n - 1) + fibonacci(n - 2)`,
where `fibonacci` is the memoized function. Other arguments, and recursive
calls that return no number, are outside the model and give no result. -/
def fibonacciBody (self : Call) : Call :=
  fun args cache =>
    match args.head? with
    | some (.number n) =>
      if n ≤ 1 then some (.number n, cache)
      else
        match self [.number (n - 1)] cache with
        | some (.number a, cache1) =>
          match self [.number (n - 2)] cache1 with
          | some (.number b, cache2) => some (.number (a + b), cache2)
          | _ => none
        | _ => none
    | _ => none

/-- The memoized function `fibonacci` of the demonstration. -/
def fibonacci : Nat → Call :=
  memoize fibonacciBody

/-- Every value in the cache is the value of `f` on an argument list with
that key. -/
def Coherent (stringify : List JsArg → String) (f : List JsArg → JsArg)
    (cache : JsMap JsArg) : Prop :=
  ∀ key v, JsMap.get cache key = some v → ∃ args, stringify args = key ∧ f args = v

end Memo

/-! ## `BankAccount` of `tutorials/02-advanced/01-prototypes-classes.js` -/

/-- The JavaScript numbers of the model of `BankAccount`: the doubles whose
value is an integer, the two infinities and `NaN`. Every integer up to
`2 ^ 53` in absolute value is a double; a sum beyond that is rounded to the
nearest double (`roundInteger`). -/
inductive JsNumber where
  | finite (n : Int)
  | posInf
  | negInf
  | nan
deriving DecidableEq

namespace JsNumber

/-- The spacing of the doubles around the natural number `m`: the least power
of two `unit`, from the one given on, with `m / unit < 2 ^ 53`. Past the
exponent range the search stops, and the rounded value is then an
infinity. -/
def spacingFrom : Nat → Nat → Nat → Nat
  | 0, _, unit => unit
  | fuel + 1, m, unit =>
    if m / unit < 2 ^ 53 then unit else spacingFrom fuel m (2 * unit)

/-- The double nearest to the integer `n`, a tie going to the even
significand: `n` itself up to `2 ^ 53` in absolute value, beyond it a
multiple of the spacing of the doubles of that size, and an infinity from
`2 ^ 1024` on. -/
def roundInteger (n : Int) : JsNumber :=
  if n.natAbs ≤ 2 ^ 53 then .finite n
  else
    let unit := spacingFrom 1024 n.natAbs 1
    let q := n.natAbs / unit
    let r := n.natAbs % unit
    let up := decide (unit < 2 * r) || (decide (2 * r = unit) && decide (q % 2 = 1))
    let v := (if up then q + 1 else q) * unit
    if 2 ^ 1024 ≤ v then (if 0 < n then .posInf else .negInf)
    else .finite (if 0 < n then (v : Int) else -(v : Int))

/-- The sum `x + y`: the exact sum rounded to the nearest double. -/
def add : JsNumber → JsNumber → JsNumber
  | .finite a, .finite b => roundInteger (a + b)
  | .nan, _ => .nan
  | _, .nan => .nan
  | .posInf, .negInf => .nan
  | .negInf, .posInf => .nan
  | .posInf, _ => .posInf
  | _, .posInf => .posInf
  | .negInf, _ => .negInf
  | _, .negInf => .negInf

/-- The opposite `-x`. -/
def neg : JsNumber → JsNumber
  | .finite a => .finite (-a)
  | .posInf => .negInf
  | .negInf => .posInf
  | .nan => .nan

/-- The difference `x - y`. -/
def sub (x y : JsNumber) : JsNumber := add x (neg y)

/-- The comparison `x <= y`. -/
def le : JsNumber → JsNumber → Bool
  | .nan, _ => false
  | _, .nan => false
  | .finite a, .finite b => decide (a ≤ b)
  | .negInf, _ => true
  | _, .posInf => true
  | .posInf, _ => false
  | _, .negInf => false

/-- The comparison `x > 0`. -/
def isPositive : JsNumber → Bool
  | .finite a => decide (0 < a)
  | .posInf => true
  | .negInf => false
  | .nan => false

/-- The text of a number in a template literal; for an integer, its decimal
digits, which is the text that JavaScript gives below `10 ^ 21`. -/
def render : JsNumber → String
  | .finite a => toString a
  | .posInf => "Infinity"
  | .negInf => "-Infinity"
  | .nan => "NaN"

end JsNumber

/-- An argument of `deposit` or `withdraw`: a number, or a value of another
type, for which `typeof amount === 'number'` is false. -/
inductive BankArg where
  | number (x : JsNumber)
  | other (text : String)
deriving DecidableEq

/-- The private fields of a `BankAccount`. -/
structure BankAccount where
  balance : JsNumber
  accountNumber : String
deriving DecidableEq

namespace BankAccount

/-- The constructor `new BankAccount(accountNumber, initialBalance)`. -/
def new (accountNumber : String) (initialBalance : JsNumber) : BankAccount :=
  { balance := initialBalance, accountNumber := accountNumber }

/-- The private method `#validateAmount(amount)`:
`amount > 0 && typeof amount === 'number'`. -/
def validateAmount : BankArg → Bool
  | .number x => x.isPositive
  | .other _ => false

/-- The text of an argument in a template literal. -/
def renderArg : BankArg → String
  | .number x => x.render
  | .other text => text

/-- The method `deposit(amount)`: the text returned and the account
afterwards. -/
def deposit (acc : BankAccount) (amount : BankArg) : String × BankAccount :=
  match amount with
  | .number x =>
    if validateAmount (.number x) then
      ("Deposited " ++ renderArg amount ++ ". New balance: "
          ++ (JsNumber.add acc.balance x).render,
        { acc with balance := JsNumber.add acc.balance x })
    else ("Invalid amount", acc)
  | .other _ => ("Invalid amount", acc)

/-- The method `withdraw(amount)`: the text returned and the account
afterwards. -/
def withdraw (acc : BankAccount) (amount : BankArg) : String × BankAccount :=
  match amount with
  | .number x =>
    if validateAmount (.number x) && JsNumber.le x acc.balance then
      ("Withdrew " ++ renderArg amount ++ ". New balance: "
          ++ (JsNumber.sub acc.balance x).render,
        { acc with balance := JsNumber.sub acc.balance x })
    else ("Invalid amount or insufficient funds", acc)
  | .other _ => ("Invalid amount or insufficient funds", acc)

/-- One call on an account. -/
inductive Op where
  | deposit (amount : BankArg)
  | withdraw (amount : BankArg)
deriving DecidableEq

/-- The account after one call. -/
def step (acc : BankAccount) : Op → BankAccount
  | .deposit amount => (deposit acc amount).2
  | .withdraw amount => (withdraw acc amount).2

/-- The account after a sequence of calls. -/
def runOps (acc : BankAccount) (ops : List Op) : BankAccount :=
  ops.foldl step acc

/-- The balance is not negative: `balance >= 0`. -/
def nonNegative (acc : BankAccount) : Bool :=
  JsNumber.le (.finite 0) acc.balance

/-- The amount of the call is an integer. -/
def Op.isInteger : Op → Prop
  | .deposit (.number (.finite _)) => True
  | .withdraw (.number (.finite _)) => True
  | .deposit (.other _) => True
  | .withdraw (.other _) => True
  | _ => False

/-- The sum of the deposits of positive integers in a sequence of calls. -/
def depositTotal : List Op → Int
  | [] => 0
  | .deposit (.number (.finite n)) :: rest =>
    (if 0 < n then n else 0) + depositTotal rest
  | _ :: rest => depositTotal rest

end BankAccount
/-! ## Properties of the resolver -/

namespace JsSet

theorem has_iff (s : JsSet) (x : String) : has s x = true ↔ x ∈ s := by
  simp [has]

theorem mem_add (s : JsSet) (x y : String) : y ∈ add s x ↔ y ∈ s ∨ y = x := by
  unfold add
  split
  · rename_i h
    have hx : x ∈ s := by simpa using h
    constructor
    · intro hy; exact Or.inl hy
    · rintro (hy | rfl)
      · exact hy
      · exact hx
  · simp

theorem mem_delete (s : JsSet) (x y : String) : y ∈ delete s x ↔ y ∈ s ∧ y ≠ x := by
  simp [delete]

end JsSet

namespace JsMap

variable {α : Type}

theorem has_iff_mem_keys (m : JsMap α) (k : String) : has m k = true ↔ k ∈ keys m := by
  simp [has, keys]

end JsMap

namespace SimpleBundler

theorem VisitPost.chain {b : SimpleBundler} {s0 s1 s2 : ResolveState}
    (h1 : VisitPost b s0 s1) (h2 : VisitPost b s1 s2) : VisitPost b s0 s2 := by
  refine ⟨h2.inv, fun x => (h2.visiting_iff x).trans (h1.visiting_iff x), ?_⟩
  obtain ⟨a1, e1⟩ := h1.grows
  obtain ⟨a2, e2⟩ := h2.grows
  exact ⟨a1 ++ a2, by rw [e2, e1, List.append_assoc]⟩

theorem VisitPost.mem_mono {b : SimpleBundler} {s0 s1 : ResolveState}
    (h : VisitPost b s0 s1) {x : String} (hx : x ∈ s0.sorted) : x ∈ s1.sorted := by
  obtain ⟨a, e⟩ := h.grows
  rw [e]; exact List.mem_append_left _ hx

theorem depsBefore_push (b : SimpleBundler) (sorted : List String) (name : String)
    (h : DepsBefore b sorted) (hd : ∀ d ∈ depsOf b name, d ∈ sorted) :
    DepsBefore b (sorted ++ [name]) := by
  intro j m hj d hdm
  by_cases hlt : j < sorted.length
  · rw [List.getElem?_append_left hlt] at hj
    obtain ⟨i, hij, hi⟩ := h j m hj d hdm
    refine ⟨i, hij, ?_⟩
    rw [List.getElem?_append_left (by omega)]
    exact hi
  · have hge : sorted.length ≤ j := by omega
    rw [List.getElem?_append_right hge] at hj
    have hm : m = name := by
      rcases hjj : j - sorted.length with _ | k
      · rw [hjj] at hj; simpa using hj.symm
      · rw [hjj] at hj; simp at hj
    subst hm
    obtain ⟨i, hi, hget⟩ := List.getElem_of_mem (hd d hdm)
    refine ⟨i, by omega, ?_⟩
    rw [List.getElem?_append_left hi, List.getElem?_eq_getElem hi, hget]

theorem VisitPost.same {b : SimpleBundler} {st : ResolveState}
    (h : ResolveInv b st) : VisitPost b st st :=
  ⟨h, fun _ => Iff.rfl, ⟨[], by simp⟩⟩

/-- The `forEach` loop over the dependencies keeps the invariant and leaves
every dependency in `sorted`, provided the recursive call does. -/
theorem visitDeps_post (b : SimpleBundler)
    (visitRec : String → ResolveState → Run ResolveState)
    (hrec : ∀ name st st1, visitRec name st = .ok st1 → ResolveInv b st →
      VisitPost b st st1 ∧ name ∈ st1.sorted) :
    ∀ (deps : List String) (st st1 : ResolveState),
      visitDeps b visitRec deps st = .ok st1 → ResolveInv b st →
      VisitPost b st st1 ∧ ∀ d ∈ deps, d ∈ st1.sorted := by
  intro deps
  induction deps with
  | nil =>
    intro st st1 h hinv
    simp only [visitDeps, Run.ok.injEq] at h
    subst h
    exact ⟨VisitPost.same hinv, by simp⟩
  | cons dep rest ih =>
    intro st st1 h hinv
    simp only [visitDeps] at h
    split at h
    · exact absurd h (by simp)
    · split at h
      · rename_i st2 hst2
        obtain ⟨p1, hdep⟩ := hrec dep st st2 hst2 hinv
        obtain ⟨p2, hrest⟩ := ih st2 st1 h p1.inv
        refine ⟨p1.chain p2, ?_⟩
        intro d hd
        rcases List.mem_cons.mp hd with rfl | hd
        · exact p2.mem_mono hdep
        · exact hrest d hd
      · exact absurd h (by simp)
      · exact absurd h (by simp)

/-- A successful `visit` keeps the invariant and leaves the visited module in
`sorted`. -/
theorem visit_post (b : SimpleBundler) :
    ∀ (fuel : Nat) (name : String) (st st1 : ResolveState),
      visit b fuel name st = .ok st1 → ResolveInv b st →
      VisitPost b st st1 ∧ name ∈ st1.sorted := by
  intro fuel
  induction fuel with
  | zero => intro name st st1 h; simp [visit] at h
  | succ fuel ih =>
    intro name st st1 h hinv
    simp only [visit] at h
    split at h
    · exact absurd h (by simp)
    · rename_i hnotvisiting
      split at h
      · rename_i hvisited
        simp only [Run.ok.injEq] at h
        subst h
        exact ⟨VisitPost.same hinv,
          (hinv.visited_iff name).mp ((JsSet.has_iff _ _).mp hvisited)⟩
      · rename_i hnotvisited
        have hnv : name ∉ st.visiting := fun hm =>
          hnotvisiting ((JsSet.has_iff _ _).mpr hm)
        have hnd : name ∉ st.visited := fun hm =>
          hnotvisited ((JsSet.has_iff _ _).mpr hm)
        have hinv0 : ResolveInv b { st with visiting := JsSet.add st.visiting name } := by
          refine ⟨hinv.visited_iff, hinv.nodup, hinv.before, ?_⟩
          intro x hx
          rcases (JsSet.mem_add _ _ _).mp hx with hx | rfl
          · exact hinv.disjoint x hx
          · exact hnd
        split at h
        · rename_i st2 hst2
          simp only [Run.ok.injEq] at h
          subst h
          obtain ⟨p, hdeps⟩ := visitDeps_post b (visit b fuel) ih _ _ _ hst2 hinv0
          have hname2 : name ∈ st2.visiting :=
            (p.visiting_iff name).mpr ((JsSet.mem_add _ _ _).mpr (Or.inr rfl))
          have hnot2 : name ∉ st2.sorted := fun hm =>
            p.inv.disjoint name hname2 ((p.inv.visited_iff name).mpr hm)
          refine ⟨⟨⟨?_, ?_, ?_, ?_⟩, ?_, ?_⟩, by simp⟩
          · intro x
            simp only [JsSet.mem_add, List.mem_append, List.mem_singleton]
            rw [p.inv.visited_iff x]
          · exact List.Nodup.append p.inv.nodup (List.nodup_singleton _)
              (by simpa using hnot2)
          · exact depsBefore_push b st2.sorted name p.inv.before hdeps
          · intro x hx
            obtain ⟨hx2, hne⟩ := (JsSet.mem_delete _ _ _).mp hx
            intro hvis
            rcases (JsSet.mem_add _ _ _).mp hvis with hvis | rfl
            · exact p.inv.disjoint x hx2 hvis
            · exact hne rfl
          · intro x
            simp only [JsSet.mem_delete]
            rw [p.visiting_iff x, JsSet.mem_add]
            constructor
            · rintro ⟨h1 | h1, h2⟩
              · exact h1
              · exact absurd h1 h2
            · intro hx
              exact ⟨Or.inl hx, fun e => hnv (e ▸ hx)⟩
          · obtain ⟨added, e⟩ := p.grows
            exact ⟨added ++ [name], by simp [e]⟩
        · exact absurd h (by simp)
        · exact absurd h (by simp)

/-- The loop over all registered names keeps the invariant and leaves each
of them in `sorted`. -/
theorem visitAll_post (b : SimpleBundler) (fuel : Nat) :
    ∀ (names : List String) (st st1 : ResolveState),
      visitAll b fuel names st = .ok st1 → ResolveInv b st →
      VisitPost b st st1 ∧ ∀ n ∈ names, n ∈ st1.sorted := by
  intro names
  induction names with
  | nil =>
    intro st st1 h hinv
    simp only [visitAll, Run.ok.injEq] at h
    subst h
    exact ⟨VisitPost.same hinv, by simp⟩
  | cons name rest ih =>
    intro st st1 h hinv
    simp only [visitAll] at h
    split at h
    · rename_i st2 hst2
      obtain ⟨p1, hname⟩ := visit_post b fuel name st st2 hst2 hinv
      obtain ⟨p2, hrest⟩ := ih st2 st1 h p1.inv
      refine ⟨p1.chain p2, ?_⟩
      intro d hd
      rcases List.mem_cons.mp hd with rfl | hd
      · exact p2.mem_mono hname
      · exact hrest d hd
    · exact absurd h (by simp)
    · exact absurd h (by simp)

theorem resolveInv_init (b : SimpleBundler) :
    ResolveInv b { visited := [], visiting := [], sorted := [] } :=
  ⟨fun _ => Iff.rfl, List.nodup_nil, fun j m h => by simp at h, fun _ h => by simp at h⟩

/-- What a normal return of `resolveDependencies` guarantees. -/
theorem resolveDependencies_post (b : SimpleBundler) (sorted : List String)
    (h : resolveDependencies b = .ok sorted) :
    sorted.Nodup ∧ DepsBefore b sorted ∧ ∀ n ∈ JsMap.keys b.modules, n ∈ sorted := by
  unfold resolveDependencies at h
  split at h
  · rename_i st hst
    simp only [Run.ok.injEq] at h
    subst h
    obtain ⟨p, hall⟩ := visitAll_post b _ _ _ _ hst (resolveInv_init b)
    exact ⟨p.inv.nodup, p.inv.before, hall⟩
  · exact absurd h (by simp)
  · exact absurd h (by simp)

/-! ### The fuel of `resolveDependencies` is enough -/

theorem visitDeps_visiting (b : SimpleBundler)
    (visitRec : String → ResolveState → Run ResolveState)
    (hrec : ∀ name st st1, visitRec name st = .ok st1 → st1.visiting = st.visiting) :
    ∀ (deps : List String) (st st1 : ResolveState),
      visitDeps b visitRec deps st = .ok st1 → st1.visiting = st.visiting := by
  intro deps
  induction deps with
  | nil =>
    intro st st1 h
    simp only [visitDeps, Run.ok.injEq] at h
    subst h; rfl
  | cons dep rest ih =>
    intro st st1 h
    simp only [visitDeps] at h
    split at h
    · exact absurd h (by simp)
    · split at h
      · rename_i st2 hst2
        rw [ih st2 st1 h, hrec dep st st2 hst2]
      · exact absurd h (by simp)
      · exact absurd h (by simp)

theorem JsSet.delete_add (s : JsSet) (x : String) (hx : x ∉ s) :
    JsSet.delete (JsSet.add s x) x = s := by
  have hc : s.contains x = false := by simpa using hx
  simp only [JsSet.add, JsSet.delete, hc, Bool.false_eq_true, if_false, List.filter_append]
  have : List.filter (fun y => y != x) s = s := by
    rw [List.filter_eq_self]
    intro a ha
    have hne : a ≠ x := fun e => hx (e ▸ ha)
    simpa using hne
  simp [this]

/-- A successful `visit` leaves the in-progress set as it found it. -/
theorem visit_visiting (b : SimpleBundler) :
    ∀ (fuel : Nat) (name : String) (st st1 : ResolveState),
      visit b fuel name st = .ok st1 → st1.visiting = st.visiting := by
  intro fuel
  induction fuel with
  | zero => intro name st st1 h; simp [visit] at h
  | succ fuel ih =>
    intro name st st1 h
    simp only [visit] at h
    split at h
    · exact absurd h (by simp)
    · rename_i hnotvisiting
      split at h
      · simp only [Run.ok.injEq] at h
        subst h; rfl
      · split at h
        · rename_i st2 hst2
          simp only [Run.ok.injEq] at h
          subst h
          have h2 := visitDeps_visiting b (visit b fuel) ih _ _ _ hst2
          simp only at h2 ⊢
          rw [h2]
          exact JsSet.delete_add _ _ (fun hm => hnotvisiting ((JsSet.has_iff _ _).mpr hm))
        · exact absurd h (by simp)
        · exact absurd h (by simp)

theorem FuelOk.length_le {b : SimpleBundler} {fuel : Nat} {st : ResolveState}
    (h : FuelOk b fuel st) : st.visiting.length ≤ b.modules.length := by
  have hsub : st.visiting ⊆ JsMap.keys b.modules := fun x hx => h.registered x hx
  have := (List.subperm_of_subset h.nodup hsub).length_le
  simpa [JsMap.keys] using this

theorem visitDeps_fuel (b : SimpleBundler) (fuel : Nat)
    (visitRec : String → ResolveState → Run ResolveState)
    (hv : ∀ name st st1, visitRec name st = .ok st1 → st1.visiting = st.visiting)
    (hrec : ∀ name st, name ∈ JsMap.keys b.modules → FuelOk b fuel st →
      visitRec name st ≠ .outOfFuel) :
    ∀ (deps : List String) (st : ResolveState), FuelOk b fuel st →
      visitDeps b visitRec deps st ≠ .outOfFuel := by
  intro deps
  induction deps with
  | nil => intro st _; simp [visitDeps]
  | cons dep rest ih =>
    intro st hst
    simp only [visitDeps]
    split
    · simp
    · rename_i hhas
      have hreg : dep ∈ JsMap.keys b.modules :=
        (JsMap.has_iff_mem_keys _ _).mp (by simpa using hhas)
      split
      · rename_i st2 hst2
        have hvis := hv dep st st2 hst2
        exact ih st2 ⟨hvis ▸ hst.nodup, hvis ▸ hst.registered, hvis ▸ hst.enough⟩
      · simp
      · rename_i hout
        exact absurd hout (hrec dep st hreg hst)

/-- With the fuel covering the registered names not yet in progress, `visit`
ends with a result or an error. -/
theorem visit_fuel (b : SimpleBundler) :
    ∀ (fuel : Nat) (name : String) (st : ResolveState),
      name ∈ JsMap.keys b.modules → FuelOk b fuel st →
      visit b fuel name st ≠ .outOfFuel := by
  intro fuel
  induction fuel with
  | zero =>
    intro name st _ hst
    have h1 := hst.length_le
    have h2 := hst.enough
    omega
  | succ fuel ih =>
    intro name st hreg hst
    simp only [visit]
    split
    · simp
    · rename_i hnotvisiting
      split
      · simp
      · have hnv : name ∉ st.visiting := fun hm =>
          hnotvisiting ((JsSet.has_iff _ _).mpr hm)
        have hc : st.visiting.contains name = false := by simpa using hnv
        have hok : FuelOk b fuel { st with visiting := JsSet.add st.visiting name } := by
          refine ⟨?_, ?_, ?_⟩
          · simp only [JsSet.add, hc, Bool.false_eq_true, if_false]
            exact List.Nodup.append hst.nodup (List.nodup_singleton _) (by simpa using hnv)
          · intro x hx
            rcases (JsSet.mem_add _ _ _).mp hx with hx | rfl
            · exact hst.registered x hx
            · exact hreg
          · have := hst.enough
            simp only [JsSet.add, hc, Bool.false_eq_true, if_false, List.length_append,
              List.length_singleton]
            omega
        have hdeps := visitDeps_fuel b fuel (visit b fuel) (visit_visiting b fuel) ih
          (depsOf b name) _ hok
        split
        · simp
        · simp
        · rename_i hout
          exact absurd hout hdeps

theorem visitAll_fuel (b : SimpleBundler) (fuel : Nat) :
    ∀ (names : List String) (st : ResolveState),
      (∀ n ∈ names, n ∈ JsMap.keys b.modules) → FuelOk b fuel st →
      visitAll b fuel names st ≠ .outOfFuel := by
  intro names
  induction names with
  | nil => intro st _ _; simp [visitAll]
  | cons name rest ih =>
    intro st hnames hst
    simp only [visitAll]
    split
    · rename_i st2 hst2
      have hvis := visit_visiting b fuel name st st2 hst2
      exact ih st2 (fun n hn => hnames n (List.mem_cons_of_mem _ hn))
        ⟨hvis ▸ hst.nodup, hvis ▸ hst.registered, hvis ▸ hst.enough⟩
    · simp
    · rename_i hout
      exact absurd hout (visit_fuel b fuel name st (hnames name (List.mem_cons_self _ _)) hst)

/-- The bound on the recursion is never hit: `resolveDependencies` ends with a
list or with an error. -/
theorem resolveDependencies_fuel (b : SimpleBundler) :
    resolveDependencies b ≠ .outOfFuel := by
  have h := visitAll_fuel b (b.modules.length + 1) (JsMap.keys b.modules)
    { visited := [], visiting := [], sorted := [] } (fun _ hn => hn)
    ⟨List.nodup_nil, fun _ hx => by simp at hx, by simp⟩
  unfold resolveDependencies
  split
  · simp
  · simp
  · rename_i hout
    exact absurd hout h

end SimpleBundler

/-! ## The registry, the resolver and `bundle`: the properties -/

namespace JsMap

variable {α : Type}

theorem get_set_self (m : JsMap α) (k : String) (v : α) : get (set m k v) k = some v := by
  induction m with
  | nil => simp [set, get]
  | cons e rest ih =>
    obtain ⟨k1, v1⟩ := e
    by_cases h : k1 = k
    · simp [set, get, h]
    · simp [set, get, h, ih]

theorem keys_set_of_has (m : JsMap α) (k : String) (v : α) (h : has m k = true) :
    keys (set m k v) = keys m := by
  induction m with
  | nil => simp [has] at h
  | cons e rest ih =>
    obtain ⟨k1, v1⟩ := e
    by_cases hk : k1 = k
    · simp [set, keys, hk]
    · have hrest : has rest k = true := by
        simp only [has, List.any_cons, Bool.or_eq_true, beq_iff_eq] at h
        rcases h with h | h
        · exact absurd h hk
        · simpa [has] using h
      have := ih hrest
      simp only [keys] at this
      simp [set, keys, hk, this]

end JsMap

namespace SimpleBundler

/-- C1: whenever `resolveDependencies` returns normally, every module of the
returned list, at whatever index it stands, has each name of its declared
dependency list at a strictly smaller index of the returned list. -/
theorem resolveDependencies_topological (b : SimpleBundler) (sorted : List String)
    (h : resolveDependencies b = .ok sorted) :
    ∀ (j : Nat) (m : String), sorted[j]? = some m →
      ∀ d ∈ depsOf b m, ∃ i : Nat, i < j ∧ sorted[i]? = some d :=
  (resolveDependencies_post b sorted h).2.1

/-- The demonstration registry returns `utils`, `math`, `main`, and that
order has every dependency before its dependent. -/
theorem resolveDependencies_topological_witness :
    resolveDependencies demoBundler = .ok ["utils", "math", "main"] ∧
    ∀ (j : Nat) (m : String), ["utils", "math", "main"][j]? = some m →
      ∀ d ∈ depsOf demoBundler m,
        ∃ i : Nat, i < j ∧ ["utils", "math", "main"][i]? = some d :=
  ⟨by decide, resolveDependencies_topological demoBundler _ (by decide)⟩

/-- C2, as stated, fails: with `A` depending on `B` and `B` on `A`, the error
thrown carries the text `循环依赖检测: A`, in which `B` does not occur, so it
carries no cycle path `[A, B, A]`. -/
theorem cycle_error_has_no_path :
    resolveDependencies cycleBundler = .thrown ⟨"循环依赖检测: A"⟩ ∧
    ¬ JsError.mentions ⟨"循环依赖检测: A"⟩ "B" := by
  decide

/-- C2, amended: with `a` registered first with dependencies `[b]` and `b`
registered with dependencies `[a]`, `resolveDependencies` throws the
circular-dependency error built from the single name `a`, the module met
again while in progress. -/
theorem cycle_error_names_repeated_module (a b codeA codeB : String) (hab : a ≠ b) :
    resolveDependencies (addModule (addModule new a codeA [b]) b codeB [a])
      = .thrown (circularError a) ∧
    (circularError a).message = "循环依赖检测: " ++ a := by
  have hba : b ≠ a := fun e => hab e.symm
  refine ⟨?_, rfl⟩
  simp [resolveDependencies, visitAll, visit, visitDeps, addModule, new, JsMap.set,
    JsMap.keys, JsMap.has, JsMap.get, depsOf, JsSet.has, JsSet.add, hab, hba]

/-- The amended C2 at the names `A` and `B`. -/
theorem cycle_error_names_repeated_module_witness :
    "A" ≠ "B" ∧
    resolveDependencies (addModule (addModule new "A" "a" ["B"]) "B" "b" ["A"])
      = .thrown (circularError "A") ∧
    (circularError "A").message = "循环依赖检测: " ++ "A" :=
  ⟨by decide, cycle_error_names_repeated_module "A" "B" "a" "b" (by decide)⟩

/-- C3, as stated, fails: with `A` depending on the unregistered `B`, the
error thrown carries the text `找不到依赖模块: B`, in which the referencing
module `A` does not occur. -/
theorem missing_error_omits_referrer :
    resolveDependencies danglingBundler = .thrown ⟨"找不到依赖模块: B"⟩ ∧
    JsError.mentions ⟨"找不到依赖模块: B"⟩ "B" ∧
    ¬ JsError.mentions ⟨"找不到依赖模块: B"⟩ "A" := by
  decide

/-- C3, amended: with `a` registered with dependencies `[b]` and `b` not
registered, `resolveDependencies` throws the missing-dependency error built
from the missing id `b` alone. -/
theorem missing_error_names_dependency (a b codeA : String) (hab : a ≠ b) :
    resolveDependencies (addModule new a codeA [b]) = .thrown (missingError b) ∧
    (missingError b).message = "找不到依赖模块: " ++ b := by
  refine ⟨?_, rfl⟩
  simp [resolveDependencies, visitAll, visit, visitDeps, addModule, new, JsMap.set,
    JsMap.keys, JsMap.has, JsMap.get, depsOf, JsSet.has, JsSet.add, hab]

/-- The amended C3 at the names `A` and `B`. -/
theorem missing_error_names_dependency_witness :
    "A" ≠ "B" ∧
    resolveDependencies (addModule new "A" "a" ["B"]) = .thrown (missingError "B") ∧
    (missingError "B").message = "找不到依赖模块: " ++ "B" :=
  ⟨by decide, missing_error_names_dependency "A" "B" "a" (by decide)⟩

/-- C4, as stated, fails: the module `orphan` is not the entry `main` and is
not reached from it, and the returned order contains it. -/
theorem orphan_is_in_build_order :
    resolveDependencies orphanBundler = .ok ["main", "orphan"] ∧
    "orphan" ∈ ["main", "orphan"] ∧
    ¬ Reachable orphanBundler entryName "orphan" := by
  refine ⟨by decide, by decide, ?_⟩
  intro h
  rcases Relation.ReflTransGen.cases_head h with h | ⟨c, hc, _⟩
  · exact absurd h (by decide)
  · have hnil : depsOf orphanBundler entryName = [] := by decide
    unfold DependsOn at hc
    rw [hnil] at hc
    exact absurd hc (List.not_mem_nil c)

/-- C4, amended: the order returned by `resolveDependencies` contains every
registered module, reachable from the entry module or not. -/
theorem resolveDependencies_has_every_module (b : SimpleBundler) (sorted : List String)
    (h : resolveDependencies b = .ok sorted) :
    ∀ n : String, JsMap.has b.modules n = true → n ∈ sorted := fun n hn =>
  (resolveDependencies_post b sorted h).2.2 n ((JsMap.has_iff_mem_keys _ _).mp hn)

/-- The amended C4 at the registry with the unreferenced module. -/
theorem resolveDependencies_has_every_module_witness :
    resolveDependencies orphanBundler = .ok ["main", "orphan"] ∧
    ∀ n : String, JsMap.has orphanBundler.modules n = true → n ∈ ["main", "orphan"] :=
  ⟨by decide, resolveDependencies_has_every_module orphanBundler _ (by decide)⟩

/-- C5, as stated, fails: after a second `addModule` under the id `a`, the
registry holds the second source text and dependency list, not the first. -/
theorem addModule_twice_keeps_second :
    JsMap.get (addModule (addModule new "a" "first" ["x"]) "a" "second" ["y"]).modules "a"
      = some "second" ∧
    JsMap.get (addModule (addModule new "a" "first" ["x"]) "a" "second" ["y"]).dependencies "a"
      = some ["y"] ∧
    ¬ (JsMap.get (addModule (addModule new "a" "first" ["x"]) "a" "second" ["y"]).modules "a"
      = some "first") := by
  decide

/-- C5, amended: `addModule` under an id that is already registered does not
fail and overwrites: afterwards the registry holds the new source text and
the new dependency list for that id, and the registered ids and their order
are as before. -/
theorem addModule_overwrites (b : SimpleBundler) (name code : String) (deps : List String)
    (h : JsMap.has b.modules name = true) :
    JsMap.get (addModule b name code deps).modules name = some code ∧
    JsMap.get (addModule b name code deps).dependencies name = some deps ∧
    JsMap.keys (addModule b name code deps).modules = JsMap.keys b.modules :=
  ⟨JsMap.get_set_self _ _ _, JsMap.get_set_self _ _ _, JsMap.keys_set_of_has _ _ _ h⟩

/-- The amended C5 at a registry that already holds the id `a`. -/
theorem addModule_overwrites_witness :
    JsMap.has (addModule new "a" "first" ["x"]).modules "a" = true ∧
    JsMap.get (addModule (addModule new "a" "first" ["x"]) "a" "second" ["y"]).modules "a"
      = some "second" ∧
    JsMap.get (addModule (addModule new "a" "first" ["x"]) "a" "second" ["y"]).dependencies "a"
      = some ["y"] ∧
    JsMap.keys (addModule (addModule new "a" "first" ["x"]) "a" "second" ["y"]).modules
      = JsMap.keys (addModule new "a" "first" ["x"]).modules :=
  ⟨by decide, addModule_overwrites (addModule new "a" "first" ["x"]) "a" "second" ["y"]
    (by decide)⟩

/-- C6: when the resolver throws, `bundle` returns `null`, writes no module
definition, and the text read by `getOutput` is the one stored before the
call (the bundler is left as it was). -/
theorem bundle_failure_returns_null (replace : String → String → String → String)
    (b : SimpleBundler) (e : JsError) (h : resolveDependencies b = .thrown e) :
    ∃ r : BundleResult, bundle replace b = some r ∧ r.returned = none ∧
      r.emitted = [] ∧ r.bundler = b ∧ getOutput r.bundler = getOutput b := by
  refine ⟨{ returned := none, bundler := b, transformCalls := [], emitted := [] },
    ?_, rfl, rfl, rfl, rfl⟩
  simp [bundle, h]

/-- The claim C6 at the registry with the cycle `A`, `B`. -/
theorem bundle_failure_returns_null_witness :
    resolveDependencies cycleBundler = .thrown (circularError "A") ∧
    ∃ r : BundleResult, bundle (fun _ _ s => s) cycleBundler = some r ∧ r.returned = none ∧
      r.emitted = [] ∧ r.bundler = cycleBundler ∧
      getOutput r.bundler = getOutput cycleBundler :=
  ⟨by decide, bundle_failure_returns_null _ cycleBundler (circularError "A") (by decide)⟩

theorem emitModules_names (replace : String → String → String → String) (b : SimpleBundler) :
    ∀ (names : List String) (es es1 : EmitState),
      emitModules replace b names es = (es1, none) →
      es1.transformCalls.map Prod.snd = es.transformCalls.map Prod.snd ++ names ∧
      es1.emitted.map Prod.fst = es.emitted.map Prod.fst ++ names := by
  intro names
  induction names with
  | nil =>
    intro es es1 h
    simp only [emitModules, Prod.mk.injEq, and_true] at h
    subst h
    simp
  | cons name rest ih =>
    intro es es1 h
    simp only [emitModules] at h
    split at h
    · simp at h
    · obtain ⟨h1, h2⟩ := ih _ _ h
      simp only [List.map_append, List.map_cons, List.map_nil] at h1 h2
      simp [h1, h2]

theorem emitModules_text (replace : String → String → String → String) (b : SimpleBundler) :
    ∀ (names : List String) (es es1 : EmitState),
      emitModules replace b names es = (es1, none) →
      ∃ added, es1.emitted = es.emitted ++ added ∧
        es1.bundled = es.bundled ++ concatDefinitions added := by
  intro names
  induction names with
  | nil =>
    intro es es1 h
    simp only [emitModules, Prod.mk.injEq, and_true] at h
    subst h
    exact ⟨[], by simp, by simp [concatDefinitions]⟩
  | cons name rest ih =>
    intro es es1 h
    simp only [emitModules] at h
    split at h
    · simp at h
    · rename_i transformed _
      obtain ⟨added, h1, h2⟩ := ih _ _ h
      refine ⟨(name, transformed) :: added, ?_, ?_⟩
      · rw [h1]; simp
      · rw [h2]; simp [concatDefinitions, String.append_assoc]

theorem filter_eq_self_of_nodup (l : List String) (hn : l.Nodup) (x : String) (hx : x ∈ l)
    (p : String → Bool) (hp : ∀ y, p y = decide (y = x)) : l.filter p = [x] := by
  induction l with
  | nil => simp at hx
  | cons y rest ih =>
    obtain ⟨hy, hrest⟩ := List.nodup_cons.mp hn
    by_cases hyx : y = x
    · subst hyx
      have hnone : rest.filter p = [] := by
        apply List.filter_eq_nil_iff.mpr
        intro z hz
        rw [hp]
        simp only [decide_eq_true_eq]
        intro e
        exact hy (e ▸ hz)
      simp [List.filter, hp, hnone]
    · have hx2 : x ∈ rest := by
        rcases List.mem_cons.mp hx with h | h
        · exact absurd h.symm hyx
        · exact h
      simp [List.filter, hp, hyx, ih hrest hx2]

theorem emitModules_calls (replace : String → String → String → String) (b : SimpleBundler) :
    ∀ (names : List String) (es es1 : EmitState),
      emitModules replace b names es = (es1, none) →
      es1.transformCalls
        = es.transformCalls ++ names.map (fun name => (JsMap.get b.modules name, name)) ∧
      es1.emitted.map (fun e => (Except.ok e.2 : Except JsError String))
        = es.emitted.map (fun e => (Except.ok e.2 : Except JsError String))
          ++ names.map (fun name => transform replace (JsMap.get b.modules name) name) := by
  intro names
  induction names with
  | nil =>
    intro es es1 h
    simp only [emitModules, Prod.mk.injEq, and_true] at h
    subst h
    simp
  | cons name rest ih =>
    intro es es1 h
    simp only [emitModules] at h
    split at h
    · simp at h
    · rename_i transformed htr
      obtain ⟨h1, h2⟩ := ih _ _ h
      simp only [List.map_append, List.map_cons, List.map_nil] at h1 h2
      simp [h1, h2, htr]

/-- C7: in a `bundle` call that returns a text, the calls of `transform` are,
in the resolved order and with no id twice, one call per module with the code
registered for it; the body written into the text for a module is what that
call returned, the text is the header, these definitions and the loader, and
so `transform` is called exactly once for each module whose definition is
written into the text, whatever the number of modules that list it as a
dependency, and for no other module. -/
theorem bundle_transforms_once (replace : String → String → String → String)
    (b : SimpleBundler) (r : BundleResult) (text : String)
    (h : bundle replace b = some r) (hs : r.returned = some text) :
    ∃ sorted : List String, resolveDependencies b = .ok sorted ∧ sorted.Nodup ∧
      r.transformCalls = sorted.map (fun name => (JsMap.get b.modules name, name)) ∧
      r.emitted.map Prod.fst = sorted ∧
      r.emitted.map (fun e => (Except.ok e.2 : Except JsError String))
        = sorted.map (fun name => transform replace (JsMap.get b.modules name) name) ∧
      text = bundleHeader ++ concatDefinitions r.emitted ++ loaderText ∧
      ∀ name : String,
        (name ∈ r.emitted.map Prod.fst →
          (r.transformCalls.map Prod.snd).count name = 1 ∧
          r.transformCalls.filter (fun call => decide (call.2 = name))
            = [(JsMap.get b.modules name, name)]) ∧
        (name ∉ r.emitted.map Prod.fst →
          (r.transformCalls.map Prod.snd).count name = 0) := by
  unfold bundle at h
  split at h
  · simp at h
  · simp only [Option.some.injEq] at h
    subst h
    simp at hs
  · rename_i sorted hsorted
    have hnodup := (resolveDependencies_post b sorted hsorted).1
    split at h
    · simp only [Option.some.injEq] at h
      subst h
      simp at hs
    · rename_i es hes
      simp only [Option.some.injEq] at h
      subst h
      simp only [Option.some.injEq] at hs
      obtain ⟨h1, h2⟩ := emitModules_names replace b sorted _ _ hes
      obtain ⟨h3, h4⟩ := emitModules_calls replace b sorted _ _ hes
      obtain ⟨added, h5, h6⟩ := emitModules_text replace b sorted _ _ hes
      simp only [List.map_nil, List.nil_append] at h1 h2 h3 h4 h5
      refine ⟨sorted, hsorted, hnodup, h3, h2, h4, ?_, ?_⟩
      · rw [← hs, h6, h5]
      · intro name
        simp only [h1, h2]
        refine ⟨fun hm => ⟨List.count_eq_one_of_mem hnodup hm, ?_⟩,
          fun hm => List.count_eq_zero_of_not_mem hm⟩
        rw [h3, List.filter_map]
        have hf : sorted.filter
            ((fun call : Option String × String => decide (call.2 = name))
              ∘ fun name => (JsMap.get b.modules name, name))
            = [name] := filter_eq_self_of_nodup sorted hnodup name hm _ (fun _ => rfl)
        rw [hf]
        rfl

theorem diamond_bundle_isSome :
    (bundle (fun _ _ s => s) diamondBundler).isSome = true := by decide

theorem diamond_returned_isSome :
    ((bundle (fun _ _ s => s) diamondBundler).get diamond_bundle_isSome).returned.isSome
      = true := by decide

theorem diamond_emitted :
    ((bundle (fun _ _ s => s) diamondBundler).get diamond_bundle_isSome).emitted.map Prod.fst
      = ["shared", "left", "right", "main"] := by decide

/-- The claim C7 at the registry where `left` and `right` both depend on
`shared`. -/
theorem bundle_transforms_once_witness :
    ∃ r : BundleResult, ∃ text : String,
      bundle (fun _ _ s => s) diamondBundler = some r ∧ r.returned = some text ∧
      r.emitted.map Prod.fst = ["shared", "left", "right", "main"] ∧
      ∃ sorted : List String, resolveDependencies diamondBundler = .ok sorted ∧
        sorted.Nodup ∧
        r.transformCalls
          = sorted.map (fun name => (JsMap.get diamondBundler.modules name, name)) ∧
        r.emitted.map Prod.fst = sorted ∧
        r.emitted.map (fun e => (Except.ok e.2 : Except JsError String))
          = sorted.map (fun name =>
              transform (fun _ _ s => s) (JsMap.get diamondBundler.modules name) name) ∧
        text = bundleHeader ++ concatDefinitions r.emitted ++ loaderText ∧
        ∀ name : String,
          (name ∈ r.emitted.map Prod.fst →
            (r.transformCalls.map Prod.snd).count name = 1 ∧
            r.transformCalls.filter (fun call => decide (call.2 = name))
              = [(JsMap.get diamondBundler.modules name, name)]) ∧
          (name ∉ r.emitted.map Prod.fst →
            (r.transformCalls.map Prod.snd).count name = 0) :=
  ⟨_, _, (Option.some_get diamond_bundle_isSome).symm,
    (Option.some_get diamond_returned_isSome).symm, diamond_emitted,
    bundle_transforms_once (fun _ _ s => s) diamondBundler _ _
      (Option.some_get diamond_bundle_isSome).symm
      (Option.some_get diamond_returned_isSome).symm⟩

end SimpleBundler

/-! ## Properties of the emitted loader -/

namespace JsMap

variable {α : Type}

theorem get_set_ne (m : JsMap α) (k k1 : String) (v : α) (h : k1 ≠ k) :
    get (set m k v) k1 = get m k1 := by
  induction m with
  | nil => simp [set, get, Ne.symm h]
  | cons e rest ih =>
    obtain ⟨k2, v2⟩ := e
    by_cases h2 : k2 = k
    · subst h2
      simp [set, get, Ne.symm h]
    · by_cases h3 : k2 = k1
      · subst h3
        simp [set, get, h2]
      · simp [set, get, h2, h3, ih]

theorem get_eq_none_iff (m : JsMap α) (k : String) : get m k = none ↔ k ∉ keys m := by
  induction m with
  | nil => simp [get, keys]
  | cons e rest ih =>
    obtain ⟨k2, v2⟩ := e
    by_cases h2 : k2 = k
    · simp [get, keys, h2]
    · have h3 : ¬ k = k2 := fun e => h2 e.symm
      simp only [keys] at ih
      simp [get, keys, h2, h3, ih]

theorem keys_set_of_not_mem (m : JsMap α) (k : String) (v : α) (h : k ∉ keys m) :
    keys (set m k v) = keys m ++ [k] := by
  induction m with
  | nil => simp [set, keys]
  | cons e rest ih =>
    obtain ⟨k2, v2⟩ := e
    have h2 : ¬ k2 = k := by
      intro e; apply h; simp [keys, e]
    have hrest : k ∉ keys rest := by
      intro hm; apply h; simp only [keys] at hm; simp [keys]; right; simpa using hm
    have := ih hrest
    simp only [keys] at this
    simp [set, keys, h2, this]

theorem mem_of_get {m : JsMap α} {k : String} {v : α} (h : get m k = some v) :
    (k, v) ∈ m := by
  induction m with
  | nil => simp [get] at h
  | cons e rest ih =>
    obtain ⟨k2, v2⟩ := e
    by_cases h2 : k2 = k
    · simp only [get, h2, if_true, Option.some.injEq] at h
      simp [h2, h]
    · simp only [get, h2, if_false] at h
      exact List.mem_cons_of_mem _ (ih h)

theorem mem_keys_of_get {m : JsMap α} {k : String} {v : α} (h : get m k = some v) :
    k ∈ keys m := by
  by_contra hk
  rw [(get_eq_none_iff m k).mpr hk] at h
  exact absurd h (by simp)

end JsMap

namespace Loader

theorem LeavesCache.body {modules : JsMap (List Instr)} (hm : LeavesCache modules)
    {name : String} {body : List Instr} (h : JsMap.get modules name = some body) :
    ∀ i ∈ body, Instr.writesCache i = false :=
  hm (name, body) (JsMap.mem_of_get h)

theorem cacheRead_miss {s : Loader} {k : String} (h : (cacheRead s k).truthy = false) :
    JsMap.get s.cache k = none ∧ k ∉ objectPrototypeKeys := by
  unfold cacheRead at h
  cases hg : JsMap.get s.cache k with
  | some a => rw [hg] at h; simp [JsValue.truthy] at h
  | none =>
    rw [hg] at h
    refine ⟨rfl, ?_⟩
    intro hk
    simp [hk, JsValue.truthy] at h

theorem cacheRead_congr {s s1 : Loader} (h : s1.cache = s.cache) (k : String) :
    cacheRead s1 k = cacheRead s k := by
  simp [cacheRead, h]

theorem cacheRead_set_self (s : Loader) (cache : JsMap Nat) (k : String) (a : Nat)
    (h : s.cache = JsMap.set cache k a) : cacheRead s k = .record a := by
  simp [cacheRead, h, JsMap.get_set_self]

theorem cacheRead_set_ne (s s1 : Loader) (k k1 : String) (a : Nat)
    (h : s1.cache = JsMap.set s.cache k a) (hne : k1 ≠ k) :
    cacheRead s1 k1 = cacheRead s k1 := by
  simp [cacheRead, h, JsMap.get_set_ne _ _ _ _ hne]

theorem Wf.of_eq {s s1 : Loader} (hw : Wf s) (hc : s1.cache = s.cache)
    (he : s1.executed = s.executed) (hr : s1.returned = s.returned) : Wf s1 := by
  refine ⟨hc ▸ hw.keys_nodup, he ▸ hw.executed_nodup, ?_, ?_⟩
  · intro x hx
    rw [cacheRead_congr hc]
    exact hw.executed_cached x (he ▸ hx)
  · intro p hp
    rw [cacheRead_congr hc]
    exact hw.returned_cached p (hr ▸ hp)

theorem Ext.self (s : Loader) : Ext s s :=
  ⟨fun _ _ => rfl, ⟨[], by simp⟩, ⟨[], by simp⟩, ⟨[], by simp⟩⟩

theorem Ext.of_fields {s s1 : Loader} (hc : s1.cache = s.cache)
    (he : s1.executed = s.executed) (hr : s1.returned = s.returned) : Ext s s1 :=
  ⟨fun k _ => cacheRead_congr hc k, ⟨[], by simp [hc]⟩, ⟨[], by simp [he]⟩,
    ⟨[], by simp [hr]⟩⟩

theorem Ext.trans {s0 s1 s2 : Loader} (h1 : Ext s0 s1) (h2 : Ext s1 s2) : Ext s0 s2 := by
  refine ⟨?_, ?_, ?_, ?_⟩
  · intro k hk
    have e1 := h1.stable k hk
    rw [h2.stable k (by rw [e1]; exact hk), e1]
  · obtain ⟨a1, e1⟩ := h1.keys_grow
    obtain ⟨a2, e2⟩ := h2.keys_grow
    exact ⟨a1 ++ a2, by rw [e2, e1, List.append_assoc]⟩
  · obtain ⟨a1, e1⟩ := h1.executed_grow
    obtain ⟨a2, e2⟩ := h2.executed_grow
    exact ⟨a1 ++ a2, by rw [e2, e1, List.append_assoc]⟩
  · obtain ⟨a1, e1⟩ := h1.returned_grow
    obtain ⟨a2, e2⟩ := h2.returned_grow
    exact ⟨a1 ++ a2, by rw [e2, e1, List.append_assoc]⟩

/-- Adding the cache entry of a module that has none, with or without the
start of its body, keeps the invariant and extends the state. -/
theorem Wf.addEntry {s t : Loader} (hw : Wf s) (name : String) (a : Nat)
    (hmiss : (cacheRead s name).truthy = false)
    (hc : t.cache = JsMap.set s.cache name a)
    (he : t.executed = s.executed ∨ t.executed = s.executed ++ [name])
    (hr : t.returned = s.returned) : Wf t ∧ Ext s t := by
  obtain ⟨hnone, _⟩ := cacheRead_miss hmiss
  have hkey : name ∉ JsMap.keys s.cache := (JsMap.get_eq_none_iff _ _).mp hnone
  have hself : cacheRead t name = .record a := cacheRead_set_self _ s.cache name _ hc
  have hne : ∀ k, k ≠ name → cacheRead t k = cacheRead s k :=
    fun k hk => cacheRead_set_ne s _ name k _ hc hk
  have hnotexec : name ∉ s.executed := by
    intro hm
    have := hw.executed_cached name hm
    rw [hmiss] at this
    exact absurd this (by simp)
  have hstable : ∀ k, (cacheRead s k).truthy = true → cacheRead t k = cacheRead s k := by
    intro k hk
    apply hne
    intro e
    rw [e, hmiss] at hk
    exact absurd hk (by simp)
  refine ⟨⟨?_, ?_, ?_, ?_⟩, ⟨hstable, ?_, ?_, ⟨[], by simp [hr]⟩⟩⟩
  · rw [hc, JsMap.keys_set_of_not_mem _ _ _ hkey]
    exact List.Nodup.append hw.keys_nodup (List.nodup_singleton _) (by simpa using hkey)
  · rcases he with he | he
    · rw [he]; exact hw.executed_nodup
    · rw [he]
      exact List.Nodup.append hw.executed_nodup (List.nodup_singleton _)
        (by simpa using hnotexec)
  · intro x hx
    by_cases hxn : x = name
    · rw [hxn, hself]; rfl
    · rw [hne x hxn]
      rcases he with he | he
      · exact hw.executed_cached x (he ▸ hx)
      · rw [he] at hx
        rcases List.mem_append.mp hx with h | h
        · exact hw.executed_cached x h
        · exact absurd (List.mem_singleton.mp h) hxn
  · intro p hp
    rw [hr] at hp
    obtain ⟨h1, h2⟩ := hw.returned_cached p hp
    rw [hstable p.1 (by rw [h1]; exact h2)]
    exact ⟨h1, h2⟩
  · exact ⟨[name], by rw [hc, JsMap.keys_set_of_not_mem _ _ _ hkey]⟩
  · rcases he with he | he
    · exact ⟨[], by simp [he]⟩
    · exact ⟨[name], he⟩

/-- Recording a returned call that returned the truthy `cache[name]` keeps
the invariant and extends the state. -/
theorem Wf.logReturn {s t : Loader} (hw : Wf s) (name : String)
    (ht : (cacheRead s name).truthy = true)
    (hc : t.cache = s.cache) (he : t.executed = s.executed)
    (hr : t.returned = s.returned ++ [(name, cacheRead s name)]) : Wf t ∧ Ext s t := by
  refine ⟨⟨hc ▸ hw.keys_nodup, he ▸ hw.executed_nodup, ?_, ?_⟩,
    ⟨fun k _ => cacheRead_congr hc k, ⟨[], by simp [hc]⟩, ⟨[], by simp [he]⟩,
      ⟨_, hr⟩⟩⟩
  · intro x hx
    rw [cacheRead_congr hc]
    exact hw.executed_cached x (he ▸ hx)
  · intro p hp
    rw [hr] at hp
    rw [cacheRead_congr hc]
    rcases List.mem_append.mp hp with h | h
    · exact hw.returned_cached p h
    · rw [List.mem_singleton.mp h]
      exact ⟨rfl, ht⟩

theorem Wf.frame {s : Loader} (hw : Wf s) (heap : List JsObject) (observed : List JsValue) :
    Wf { s with heap := heap, observed := observed } :=
  hw.of_eq rfl rfl rfl

theorem Ext.heapOnly (s : Loader) (heap : List JsObject) (observed : List JsValue) :
    Ext s { s with heap := heap, observed := observed } :=
  Ext.of_fields rfl rfl rfl

theorem Wf.outer {s : Loader} (hw : Wf s) (heap : List JsObject)
    (outer : Option JsValue) : Wf { s with heap := heap, outerModule := outer } :=
  hw.of_eq rfl rfl rfl

theorem Ext.outerOnly (s : Loader) (heap : List JsObject) (outer : Option JsValue) :
    Ext s { s with heap := heap, outerModule := outer } :=
  Ext.of_fields rfl rfl rfl

/-- A body keeps the invariant and extends the state, provided the `require`
it was handed does. -/
theorem runBody_post (requireRec : String → Loader → LoadRun JsValue)
    (hrec : ∀ name s, Wf s → ∀ s1, stateAfter (requireRec name s) = some s1 →
      Wf s1 ∧ Ext s s1) :
    ∀ (body : List Instr) (f : Frame) (s : Loader),
      (∀ i ∈ body, Instr.writesCache i = false) → Wf s →
      ∀ s1, stateAfter (runBody requireRec body f s) = some s1 → Wf s1 ∧ Ext s s1 := by
  intro body
  induction body with
  | nil =>
    intro f s _ hw s1 h
    simp only [runBody, stateAfter, Option.some.injEq] at h
    subst h
    exact ⟨hw, Ext.self s⟩
  | cons i rest ih =>
    intro f s hb hw s1 h
    have hrest : ∀ i ∈ rest, Instr.writesCache i = false :=
      fun i hi => hb i (List.mem_cons_of_mem _ hi)
    cases i with
    | setExport key value =>
      simp only [runBody] at h
      obtain ⟨h1, h2⟩ := ih _ _ hrest (hw.frame _ _) s1 h
      exact ⟨h1, (Ext.heapOnly s _ _).trans h2⟩
    | assignModuleExports fields =>
      simp only [runBody] at h
      split at h
      · simp only [stateAfter, Option.some.injEq] at h
        subst h
        exact ⟨hw, Ext.self s⟩
      · obtain ⟨h1, h2⟩ := ih _ _ hrest (hw.outer _ _) s1 h
        exact ⟨h1, (Ext.outerOnly s _ _).trans h2⟩
    | assignArgumentExports fields =>
      simp only [runBody] at h
      obtain ⟨h1, h2⟩ := ih _ _ hrest (hw.frame _ _) s1 h
      exact ⟨h1, (Ext.heapOnly s _ _).trans h2⟩
    | requireAs x name =>
      simp only [runBody] at h
      split at h
      · rename_i v s2 hreq
        obtain ⟨w2, e2⟩ := hrec name s hw s2 (by rw [hreq]; rfl)
        obtain ⟨h1, h2⟩ := ih _ _ hrest w2 s1 h
        exact ⟨h1, e2.trans h2⟩
      · rename_i e s2 hreq
        simp only [stateAfter, Option.some.injEq] at h
        subst h
        exact hrec name s hw s2 (by rw [hreq]; rfl)
      · simp [stateAfter] at h
    | readMember x key =>
      simp only [runBody] at h
      split at h
      · obtain ⟨h1, h2⟩ := ih _ _ hrest (hw.frame _ _) s1 h
        exact ⟨h1, (Ext.heapOnly s _ _).trans h2⟩
      · obtain ⟨h1, h2⟩ := ih _ _ hrest (hw.frame _ _) s1 h
        exact ⟨h1, (Ext.heapOnly s _ _).trans h2⟩
      · simp only [stateAfter, Option.some.injEq] at h
        subst h
        exact ⟨hw, Ext.self s⟩
    | throwNew message =>
      simp only [runBody, stateAfter, Option.some.injEq] at h
      subst h
      exact ⟨hw, Ext.self s⟩
    | assignCache name fields =>
      exact absurd (hb _ (List.mem_cons_self _ _)) (by simp [Instr.writesCache])
    | deleteCache name =>
      exact absurd (hb _ (List.mem_cons_self _ _)) (by simp [Instr.writesCache])

/-- A call of `require` keeps the invariant, extends the state, and leaves a
truthy `cache[name]`. -/
theorem require_post (modules : JsMap (List Instr)) (hm : LeavesCache modules) :
    ∀ (fuel : Nat) (name : String) (s : Loader), Wf s →
      ∀ s1, stateAfter (require modules fuel name s) = some s1 →
        Wf s1 ∧ Ext s s1 ∧ (cacheRead s1 name).truthy = true := by
  intro fuel
  induction fuel with
  | zero => intro name s _ s1 h; simp [require, stateAfter] at h
  | succ fuel ih =>
    intro name s hw s1 h
    simp only [require] at h
    split at h
    · rename_i hit
      simp only [stateAfter, Option.some.injEq] at h
      subst h
      obtain ⟨h1, h2⟩ := hw.logReturn name hit
        (t := { s with returned := s.returned ++ [(name, cacheRead s name)] }) rfl rfl rfl
      exact ⟨h1, h2, by rw [cacheRead_congr (s := s) rfl]; exact hit⟩
    · rename_i hmiss
      have hmiss1 : (cacheRead s name).truthy = false := by simpa using hmiss
      split at h
      · simp only [stateAfter, Option.some.injEq] at h
        subst h
        obtain ⟨h1, h2⟩ := hw.addEntry name s.heap.length hmiss1
          (t := { s with heap := s.heap ++ [[]], cache := JsMap.set s.cache name s.heap.length })
          rfl (Or.inl rfl) rfl
        exact ⟨h1, h2, by rw [cacheRead_set_self _ s.cache name s.heap.length rfl]; rfl⟩
      · rename_i body hbody
        obtain ⟨w0, e0⟩ := hw.addEntry name s.heap.length hmiss1
          (t := enter s name) rfl (Or.inr rfl) rfl
        have hself : cacheRead (enter s name) name = .record s.heap.length :=
          cacheRead_set_self _ s.cache name _ rfl
        have hbodypost := runBody_post (require modules fuel)
          (fun n t ht t1 h1 => ⟨(ih n t ht t1 h1).1, (ih n t ht t1 h1).2.1⟩)
          body (entryFrame s) (enter s name) (hm.body hbody) w0
        cases hrun : runBody (require modules fuel) body (entryFrame s) (enter s name) with
        | ok u s2 =>
          rw [hrun] at h
          obtain ⟨w2, e2⟩ := hbodypost s2 (by rw [hrun]; rfl)
          have hcr : cacheRead s2 name = .record s.heap.length := by
            rw [e2.stable name (by rw [hself]; rfl), hself]
          have ht2 : (cacheRead s2 name).truthy = true := by rw [hcr]; rfl
          simp only [finish, stateAfter, Option.some.injEq] at h
          subst h
          obtain ⟨h1, h2⟩ := w2.logReturn name ht2
            (t := { s2 with returned := s2.returned ++ [(name, cacheRead s2 name)] })
            rfl rfl rfl
          exact ⟨h1, e0.trans (e2.trans h2), by rw [cacheRead_congr (s := s2) rfl]; exact ht2⟩
        | thrown e s2 =>
          rw [hrun] at h
          obtain ⟨w2, e2⟩ := hbodypost s2 (by rw [hrun]; rfl)
          simp only [finish, stateAfter, Option.some.injEq] at h
          subst h
          have hcr : cacheRead s2 name = .record s.heap.length := by
            rw [e2.stable name (by rw [hself]; rfl), hself]
          exact ⟨w2, e0.trans e2, by rw [hcr]; rfl⟩
        | outOfFuel =>
          rw [hrun] at h
          simp [finish, stateAfter] at h

/-! ### No cache entry is ever replaced, from any state -/

theorem Stable.andThen {s0 s1 s2 : Loader} (h1 : Stable s0 s1) (h2 : Stable s1 s2) :
    Stable s0 s2 := by
  intro k hk
  have e1 := h1 k hk
  rw [h2 k (by rw [e1]; exact hk), e1]

theorem Stable.of_cache_eq {s t : Loader} (hc : t.cache = s.cache) : Stable s t :=
  fun k _ => cacheRead_congr hc k

theorem Stable.sameCache (s : Loader) (heap : List JsObject) (observed : List JsValue) :
    Stable s { s with heap := heap, observed := observed } :=
  Stable.of_cache_eq rfl

theorem Stable.sameCacheOuter (s : Loader) (heap : List JsObject)
    (outer : Option JsValue) : Stable s { s with heap := heap, outerModule := outer } :=
  Stable.of_cache_eq rfl

theorem Stable.newEntry {s t : Loader} (name : String) (a : Nat)
    (hmiss : (cacheRead s name).truthy = false)
    (hc : t.cache = JsMap.set s.cache name a) : Stable s t := by
  intro k hk
  apply cacheRead_set_ne s _ name k _ hc
  intro e
  rw [e, hmiss] at hk
  exact absurd hk (by simp)

theorem runBody_stable (requireRec : String → Loader → LoadRun JsValue)
    (hrec : ∀ name s s1, stateAfter (requireRec name s) = some s1 → Stable s s1) :
    ∀ (body : List Instr) (f : Frame) (s s1 : Loader),
      (∀ i ∈ body, Instr.writesCache i = false) →
      stateAfter (runBody requireRec body f s) = some s1 → Stable s s1 := by
  intro body
  induction body with
  | nil =>
    intro f s s1 _ h
    simp only [runBody, stateAfter, Option.some.injEq] at h
    subst h
    exact Stable.of_cache_eq rfl
  | cons i rest ih =>
    intro f s s1 hb h
    have hrest : ∀ i ∈ rest, Instr.writesCache i = false :=
      fun i hi => hb i (List.mem_cons_of_mem _ hi)
    cases i with
    | setExport key value =>
      simp only [runBody] at h
      exact (Stable.sameCache s _ _).andThen (ih _ _ s1 hrest h)
    | assignModuleExports fields =>
      simp only [runBody] at h
      split at h
      · simp only [stateAfter, Option.some.injEq] at h
        subst h
        exact Stable.of_cache_eq rfl
      · exact (Stable.sameCacheOuter s _ _).andThen (ih _ _ s1 hrest h)
    | assignArgumentExports fields =>
      simp only [runBody] at h
      exact (Stable.sameCache s _ _).andThen (ih _ _ s1 hrest h)
    | requireAs x name =>
      simp only [runBody] at h
      split at h
      · rename_i v s2 hreq
        exact Stable.andThen (hrec name s s2 (by rw [hreq]; rfl)) (ih _ _ s1 hrest h)
      · rename_i e s2 hreq
        simp only [stateAfter, Option.some.injEq] at h
        subst h
        exact hrec name s s2 (by rw [hreq]; rfl)
      · simp [stateAfter] at h
    | readMember x key =>
      simp only [runBody] at h
      split at h
      · exact (Stable.sameCache s _ _).andThen (ih _ _ s1 hrest h)
      · exact (Stable.sameCache s _ _).andThen (ih _ _ s1 hrest h)
      · simp only [stateAfter, Option.some.injEq] at h
        subst h
        exact Stable.of_cache_eq rfl
    | throwNew message =>
      simp only [runBody, stateAfter, Option.some.injEq] at h
      subst h
      exact Stable.of_cache_eq rfl
    | assignCache name fields =>
      exact absurd (hb _ (List.mem_cons_self _ _)) (by simp [Instr.writesCache])
    | deleteCache name =>
      exact absurd (hb _ (List.mem_cons_self _ _)) (by simp [Instr.writesCache])

theorem finish_stable (name : String) (r : LoadRun Unit) (s s1 : Loader)
    (hr : ∀ t, stateAfter r = some t → Stable s t)
    (h : stateAfter (finish name r) = some s1) : Stable s s1 := by
  cases r with
  | ok u t =>
    simp only [finish, stateAfter, Option.some.injEq] at h
    subst h
    exact Stable.andThen (hr t rfl) (Stable.of_cache_eq rfl)
  | thrown e t =>
    simp only [finish, stateAfter, Option.some.injEq] at h
    subst h
    exact hr t rfl
  | outOfFuel => simp [finish, stateAfter] at h

/-- From any state, a call of `require` changes no truthy `cache[k]`, when no
body writes to `cache`. -/
theorem require_stable (modules : JsMap (List Instr)) (hm : LeavesCache modules) :
    ∀ (fuel : Nat) (name : String) (s s1 : Loader),
      stateAfter (require modules fuel name s) = some s1 → Stable s s1 := by
  intro fuel
  induction fuel with
  | zero => intro name s s1 h; simp [require, stateAfter] at h
  | succ fuel ih =>
    intro name s s1 h
    simp only [require] at h
    split at h
    · simp only [stateAfter, Option.some.injEq] at h
      subst h
      exact Stable.of_cache_eq rfl
    · rename_i hmiss
      have hmiss1 : (cacheRead s name).truthy = false := by simpa using hmiss
      split at h
      · simp only [stateAfter, Option.some.injEq] at h
        subst h
        exact Stable.newEntry name s.heap.length hmiss1 rfl
      · rename_i body hbody
        have h0 : Stable s (enter s name) := Stable.newEntry name s.heap.length hmiss1 rfl
        exact Stable.andThen h0 (finish_stable name _ _ s1
          (fun t ht => runBody_stable (require modules fuel) (ih) body _ _ t
            (hm.body hbody) ht) h)

theorem cacheRead_record_iff (s : Loader) (k : String) (a : Nat) :
    cacheRead s k = .record a ↔ JsMap.get s.cache k = some a := by
  unfold cacheRead
  cases hg : JsMap.get s.cache k with
  | some b => simp
  | none =>
    by_cases hk : k ∈ objectPrototypeKeys
    · simp [hk]
    · simp [hk]

/-! ### The fuel of the loader is enough -/

theorem cachedModules_le (modules : JsMap (List Instr)) {s : Loader} (hw : Wf s) :
    cachedModules modules s ≤ modules.length := by
  unfold cachedModules
  have hnd : ((JsMap.keys s.cache).filter
      (fun k => decide (k ∈ JsMap.keys modules))).Nodup := hw.keys_nodup.filter _
  have hsub : (JsMap.keys s.cache).filter (fun k => decide (k ∈ JsMap.keys modules))
      ⊆ JsMap.keys modules := by
    intro x hx
    simpa using (List.mem_filter.mp hx).2
  have := (List.subperm_of_subset hnd hsub).length_le
  simpa [JsMap.keys] using this

theorem cachedModules_mono (modules : JsMap (List Instr)) {s s1 : Loader} (h : Ext s s1) :
    cachedModules modules s ≤ cachedModules modules s1 := by
  obtain ⟨added, e⟩ := h.keys_grow
  unfold cachedModules
  rw [e, List.filter_append, List.length_append]
  omega

theorem cachedModules_enter (modules : JsMap (List Instr)) (s : Loader) (name : String)
    (hmiss : (cacheRead s name).truthy = false) (hreg : name ∈ JsMap.keys modules) :
    cachedModules modules (enter s name) = cachedModules modules s + 1 := by
  obtain ⟨hnone, _⟩ := cacheRead_miss hmiss
  have hkey : name ∉ JsMap.keys s.cache := (JsMap.get_eq_none_iff _ _).mp hnone
  unfold cachedModules
  show ((JsMap.keys (JsMap.set s.cache name s.heap.length)).filter _).length = _
  rw [JsMap.keys_set_of_not_mem _ _ _ hkey, List.filter_append, List.length_append]
  simp [hreg]

theorem FuelCovers.mono {modules : JsMap (List Instr)} {fuel : Nat} {s s1 : Loader}
    (h : FuelCovers modules fuel s) (he : Ext s s1) : FuelCovers modules fuel s1 := by
  have := cachedModules_mono modules he
  unfold FuelCovers at h ⊢
  omega

theorem runBody_fuel (modules : JsMap (List Instr)) (fuel : Nat)
    (requireRec : String → Loader → LoadRun JsValue)
    (hpost : ∀ name s, Wf s → ∀ s1, stateAfter (requireRec name s) = some s1 →
      Wf s1 ∧ Ext s s1)
    (hrec : ∀ name s, Wf s → FuelCovers modules fuel s → requireRec name s ≠ .outOfFuel) :
    ∀ (body : List Instr) (f : Frame) (s : Loader),
      (∀ i ∈ body, Instr.writesCache i = false) → Wf s → FuelCovers modules fuel s →
      runBody requireRec body f s ≠ .outOfFuel := by
  intro body
  induction body with
  | nil => intro f s _ _ _; simp [runBody]
  | cons i rest ih =>
    intro f s hb hw hf
    have hrest : ∀ i ∈ rest, Instr.writesCache i = false :=
      fun i hi => hb i (List.mem_cons_of_mem _ hi)
    cases i with
    | setExport key value =>
      simp only [runBody]
      exact ih _ _ hrest (hw.frame _ _) (hf.mono (Ext.heapOnly s _ _))
    | assignModuleExports fields =>
      simp only [runBody]
      split
      · simp
      · exact ih _ _ hrest (hw.outer _ _) (hf.mono (Ext.outerOnly s _ _))
    | assignArgumentExports fields =>
      simp only [runBody]
      exact ih _ _ hrest (hw.frame _ _) (hf.mono (Ext.heapOnly s _ _))
    | requireAs x name =>
      simp only [runBody]
      split
      · rename_i v s2 hreq
        obtain ⟨w2, e2⟩ := hpost name s hw s2 (by rw [hreq]; rfl)
        exact ih _ _ hrest w2 (hf.mono e2)
      · simp
      · rename_i hout
        exact absurd hout (hrec name s hw hf)
    | readMember x key =>
      simp only [runBody]
      split
      · exact ih _ _ hrest (hw.frame _ _) (hf.mono (Ext.heapOnly s _ _))
      · exact ih _ _ hrest (hw.frame _ _) (hf.mono (Ext.heapOnly s _ _))
      · simp
    | throwNew message => simp [runBody]
    | assignCache name fields =>
      exact absurd (hb _ (List.mem_cons_self _ _)) (by simp [Instr.writesCache])
    | deleteCache name =>
      exact absurd (hb _ (List.mem_cons_self _ _)) (by simp [Instr.writesCache])

/-- With the fuel covering the modules not yet cached, `require` ends with a
value or an error. -/
theorem require_fuel (modules : JsMap (List Instr)) (hm : LeavesCache modules) :
    ∀ (fuel : Nat) (name : String) (s : Loader), Wf s → FuelCovers modules fuel s →
      require modules fuel name s ≠ .outOfFuel := by
  intro fuel
  induction fuel with
  | zero =>
    intro name s hw hf
    have := cachedModules_le modules hw
    unfold FuelCovers at hf
    omega
  | succ fuel ih =>
    intro name s hw hf
    simp only [require]
    split
    · simp
    · rename_i hmiss
      have hmiss1 : (cacheRead s name).truthy = false := by simpa using hmiss
      split
      · simp
      · rename_i body hbody
        obtain ⟨w0, e0⟩ := hw.addEntry name s.heap.length hmiss1
          (t := enter s name) rfl (Or.inr rfl) rfl
        have hf0 : FuelCovers modules fuel (enter s name) := by
          have := cachedModules_enter modules s name hmiss1 (JsMap.mem_keys_of_get hbody)
          unfold FuelCovers at hf ⊢
          omega
        have hb := runBody_fuel modules fuel (require modules fuel)
          (fun n t ht t1 h1 => ⟨(require_post modules hm fuel n t ht t1 h1).1,
            (require_post modules hm fuel n t ht t1 h1).2.1⟩)
          ih body (entryFrame s) (enter s name) (hm.body hbody) w0 hf0
        cases hrun : runBody (require modules fuel) body (entryFrame s) (enter s name) with
        | ok u t => simp [finish]
        | thrown e t => simp [finish]
        | outOfFuel => exact absurd hrun hb

theorem wf_init : Wf init :=
  ⟨by simp [init, JsMap.keys], by simp [init], fun x hx => by simp [init] at hx,
    fun p hp => by simp [init] at hp⟩

theorem fuelCovers_init (modules : JsMap (List Instr)) (fuel : Nat)
    (h : modules.length + 1 ≤ fuel) : FuelCovers modules fuel init := by
  unfold FuelCovers
  omega

/-- Repeated calls keep the invariant, extend the state and never run out of
fuel. -/
theorem requireTimes_post (modules : JsMap (List Instr)) (hm : LeavesCache modules)
    (fuel : Nat) (name : String) :
    ∀ (n : Nat) (s : Loader), Wf s → FuelCovers modules fuel s →
      ∃ s1, requireTimes modules fuel name n s = some s1 ∧ Wf s1 ∧ Ext s s1 := by
  intro n
  induction n with
  | zero => intro s hw _; exact ⟨s, rfl, hw, Ext.self s⟩
  | succ n ih =>
    intro s hw hf
    simp only [requireTimes]
    cases hst : stateAfter (require modules fuel name s) with
    | none =>
      exfalso
      have := require_fuel modules hm fuel name s hw hf
      cases hr : require modules fuel name s with
      | ok v t => rw [hr] at hst; simp [stateAfter] at hst
      | thrown e t => rw [hr] at hst; simp [stateAfter] at hst
      | outOfFuel => exact this hr
    | some s2 =>
      obtain ⟨w2, e2, _⟩ := require_post modules hm fuel name s hw s2 hst
      obtain ⟨s3, h3, w3, e3⟩ := ih s2 w2 (hf.mono e2)
      exact ⟨s3, h3, w3, e2.trans e3⟩

/-- The first call for a module that has a body starts the body and leaves
the record allocated for it in the cache. -/
theorem require_first (modules : JsMap (List Instr)) (hm : LeavesCache modules)
    (fuel : Nat) (name : String)
    (body : List Instr) (s s1 : Loader) (hw : Wf s)
    (hmiss : (cacheRead s name).truthy = false)
    (hbody : JsMap.get modules name = some body)
    (h : stateAfter (require modules fuel name s) = some s1) :
    name ∈ s1.executed ∧ cacheRead s1 name = .record s.heap.length := by
  cases fuel with
  | zero => simp [require, stateAfter] at h
  | succ fuel =>
    obtain ⟨w0, e0⟩ := hw.addEntry name s.heap.length hmiss
      (t := enter s name) rfl (Or.inr rfl) rfl
    have hself : cacheRead (enter s name) name = .record s.heap.length :=
      cacheRead_set_self _ s.cache name _ rfl
    have hin : name ∈ (enter s name).executed := by simp [enter]
    simp only [require, hmiss, Bool.false_eq_true, if_false, hbody] at h
    have hbodypost := runBody_post (require modules fuel)
      (fun n t ht t1 h1 => ⟨(require_post modules hm fuel n t ht t1 h1).1,
        (require_post modules hm fuel n t ht t1 h1).2.1⟩)
      body (entryFrame s) (enter s name) (hm.body hbody) w0
    have key : ∀ t, Ext (enter s name) t →
        name ∈ t.executed ∧ cacheRead t name = .record s.heap.length := by
      intro t et
      obtain ⟨added, ea⟩ := et.executed_grow
      refine ⟨by rw [ea]; exact List.mem_append_left _ hin, ?_⟩
      rw [et.stable name (by rw [hself]; rfl), hself]
    cases hrun : runBody (require modules fuel) body (entryFrame s) (enter s name) with
    | ok u s2 =>
      rw [hrun] at h
      obtain ⟨_, e2⟩ := hbodypost s2 (by rw [hrun]; rfl)
      simp only [finish, stateAfter, Option.some.injEq] at h
      subst h
      obtain ⟨k1, k2⟩ := key s2 e2
      exact ⟨k1, by rw [cacheRead_congr (s := s2) rfl]; exact k2⟩
    | thrown e s2 =>
      rw [hrun] at h
      obtain ⟨_, e2⟩ := hbodypost s2 (by rw [hrun]; rfl)
      simp only [finish, stateAfter, Option.some.injEq] at h
      subst h
      exact key s2 e2
    | outOfFuel =>
      rw [hrun] at h
      simp [finish, stateAfter] at h

/-- At-most-once evaluation away from the keys of `Object.prototype`, for
bodies that do not write to `cache`: from a
state of a running bundle in which `name` has no cache entry, `n ≥ 1` calls
of `require(name)`, with the nested calls they cause, start the body of
`name` exactly once, and every call of `require(name)` that returns, returns
the record allocated by the first one. -/
theorem requireTimes_once (modules : JsMap (List Instr)) (hm : LeavesCache modules)
    (fuel n : Nat) (name : String)
    (body : List Instr) (s : Loader) (hw : Wf s) (hf : FuelCovers modules fuel s)
    (hmiss : (cacheRead s name).truthy = false)
    (hbody : JsMap.get modules name = some body) (hn : 1 ≤ n) :
    ∃ s1, requireTimes modules fuel name n s = some s1 ∧
      s1.executed.count name = 1 ∧
      ∀ v, (name, v) ∈ s1.returned → v = .record s.heap.length := by
  obtain ⟨m, rfl⟩ : ∃ m, n = m + 1 := ⟨n - 1, by omega⟩
  simp only [requireTimes]
  cases hst : stateAfter (require modules fuel name s) with
  | none =>
    exfalso
    have := require_fuel modules hm fuel name s hw hf
    cases hr : require modules fuel name s with
    | ok v t => rw [hr] at hst; simp [stateAfter] at hst
    | thrown e t => rw [hr] at hst; simp [stateAfter] at hst
    | outOfFuel => exact this hr
  | some s2 =>
    obtain ⟨w2, e2, _⟩ := require_post modules hm fuel name s hw s2 hst
    obtain ⟨hex, hcr⟩ := require_first modules hm fuel name body s s2 hw hmiss hbody hst
    obtain ⟨s3, h3, w3, e3⟩ := requireTimes_post modules hm fuel name m s2 w2 (hf.mono e2)
    refine ⟨s3, h3, ?_, ?_⟩
    · obtain ⟨added, ea⟩ := e3.executed_grow
      exact List.count_eq_one_of_mem w3.executed_nodup
        (by rw [ea]; exact List.mem_append_left _ hex)
    · intro v hv
      have h1 := (w3.returned_cached (name, v) hv).1
      have h2 : cacheRead s3 name = .record s.heap.length := by
        rw [e3.stable name (by rw [hcr]; rfl), hcr]
      exact h1.symm.trans h2

end Loader

/-! ## The emitted loader: the properties claimed -/

namespace Loader

/-- C8 fails at the module id `constructor`: the table defines a body for it,
and two calls of `require("constructor")` from the start of the bundle never
start that body. Each call returns the member that `cache` inherits from
`Object.prototype`, no exports record is allocated and no cache entry is
made. -/
theorem require_constructor_never_runs_body :
    JsMap.get constructorModules "constructor"
      = some [Instr.setExport "answer" (JsValue.number 42)] ∧
    ∃ s, requireTimes constructorModules 3 "constructor" 2 init = some s ∧
      s.executed.count "constructor" = 0 ∧ s.heap = [] ∧ s.cache = [] ∧
      s.returned = [("constructor", JsValue.inherited "constructor"),
                    ("constructor", JsValue.inherited "constructor")] := by
  refine ⟨by decide, ⟨{ init with returned := [("constructor", JsValue.inherited "constructor"),
    ("constructor", JsValue.inherited "constructor")] }, by decide, by decide, rfl, rfl, rfl⟩⟩

/-- C9: with `A` assigning `val = 1` and then requiring `B`, and `B` requiring
`A` and reading `val`, `require("A")` returns for every fuel of at least 3,
each body runs once, and `B` reads `1`; with `A` requiring `B` before the
assignment, `B` reads `undefined`. -/
theorem cyclic_pair_reads_live_record (fuel : Nat) :
    (∃ s, require cycleAssignFirst (fuel + 3) "A" init = .ok (.record 0) s ∧
      s.observed = [JsValue.number 1] ∧ s.executed = ["A", "B"]) ∧
    (∃ s, require cycleRequireFirst (fuel + 3) "A" init = .ok (.record 0) s ∧
      s.observed = [JsValue.undefined] ∧ s.executed = ["A", "B"]) :=
  ⟨⟨_, rfl, rfl, rfl⟩, ⟨_, rfl, rfl, rfl⟩⟩

/-- C10, as stated, fails: the body of `main` is
`this.a = 1; cache['main'] = { b: 2 };`. The body starts with the record at
address 0 in the cache entry of `main`; when it has finished, the entry holds
the record at address 1, and that other record is what `require("main")`
returns. -/
theorem body_replaces_cache_entry :
    JsMap.get replacingModules "main"
      = some [Instr.setExport "a" (.number 1), Instr.assignCache "main" [("b", .number 2)]] ∧
    JsMap.get (enter init "main").cache "main" = some 0 ∧
    ∀ fuel : Nat,
      ∃ s, require replacingModules (fuel + 1) "main" init = .ok (.record 1) s ∧
        JsMap.get s.cache "main" = some 1 ∧
        s.heap = [[("a", .number 1)], [("b", .number 2)]] ∧
        s.executed = ["main"] :=
  ⟨rfl, rfl, fun _ => ⟨_, rfl, rfl, rfl, rfl⟩⟩

/-- C10, amended: a call of `require(id)` that finds no truthy `cache[id]`,
which no key of `Object.prototype` allows, starts the body in the state
`enter s id`, where the cache entry of `id` holds a record that did not exist
before and is empty; when no body of the table writes to `cache`, then
however the body ends, the cache entry of `id` afterwards is that same
record, and it is the value that `require(id)` returns. -/
theorem cache_entry_kept_unless_written (modules : JsMap (List Instr))
    (hm : LeavesCache modules) (fuel : Nat)
    (id : String) (body : List Instr) (s : Loader)
    (hfirst : (cacheRead s id).truthy = false)
    (hbody : JsMap.get modules id = some body) :
    id ∉ objectPrototypeKeys ∧
    (s.heap[s.heap.length]? = none ∧
      (enter s id).heap[s.heap.length]? = some [] ∧
      JsMap.get (enter s id).cache id = some s.heap.length) ∧
    require modules (fuel + 1) id s
      = finish id (runBody (require modules fuel) body (entryFrame s) (enter s id)) ∧
    (∀ s1, stateAfter (runBody (require modules fuel) body (entryFrame s) (enter s id))
        = some s1 → JsMap.get s1.cache id = some s.heap.length) ∧
    (∀ v s1, require modules (fuel + 1) id s = .ok v s1 →
      v = .record s.heap.length ∧ JsMap.get s1.cache id = some s.heap.length) := by
  have hself : cacheRead (enter s id) id = .record s.heap.length :=
    cacheRead_set_self _ s.cache id _ rfl
  have hreq : require modules (fuel + 1) id s
      = finish id (runBody (require modules fuel) body (entryFrame s) (enter s id)) := by
    simp only [require, hfirst, Bool.false_eq_true, if_false, hbody]
  have hkept : ∀ s1,
      stateAfter (runBody (require modules fuel) body (entryFrame s) (enter s id)) = some s1 →
      cacheRead s1 id = .record s.heap.length := by
    intro s1 h1
    have hst := runBody_stable (require modules fuel) (require_stable modules hm fuel)
      body (entryFrame s) (enter s id) s1 (hm.body hbody) h1
    rw [hst id (by rw [hself]; rfl), hself]
  refine ⟨(cacheRead_miss hfirst).2,
    ⟨by simp, by simp [enter], JsMap.get_set_self _ _ _⟩, hreq,
    fun s1 h1 => (cacheRead_record_iff _ _ _).mp (hkept s1 h1), ?_⟩
  intro v s1 h
  rw [hreq] at h
  cases hrun : runBody (require modules fuel) body (entryFrame s) (enter s id) with
  | ok u s2 =>
    rw [hrun] at h
    simp only [finish, LoadRun.ok.injEq] at h
    obtain ⟨hv, hs⟩ := h
    have h2 := hkept s2 (by rw [hrun]; rfl)
    subst hs
    exact ⟨by rw [← hv, h2], (cacheRead_record_iff s2 _ _).mp h2⟩
  | thrown e s2 => rw [hrun] at h; simp [finish] at h
  | outOfFuel => rw [hrun] at h; simp [finish] at h

/-- The amended C10 at the first `require("A")` of the cyclic pair. -/
theorem cache_entry_kept_unless_written_witness :
    LeavesCache cycleAssignFirst ∧
    (cacheRead init "A").truthy = false ∧
    JsMap.get cycleAssignFirst "A"
      = some [Instr.setExport "val" (JsValue.number 1), Instr.requireAs "b" "B"] ∧
    ("A" ∉ objectPrototypeKeys ∧
    (init.heap[init.heap.length]? = none ∧
      (enter init "A").heap[init.heap.length]? = some [] ∧
      JsMap.get (enter init "A").cache "A" = some init.heap.length) ∧
    require cycleAssignFirst (2 + 1) "A" init
      = finish "A" (runBody (require cycleAssignFirst 2)
          [Instr.setExport "val" (JsValue.number 1), Instr.requireAs "b" "B"]
          (entryFrame init) (enter init "A")) ∧
    (∀ s1, stateAfter (runBody (require cycleAssignFirst 2)
          [Instr.setExport "val" (JsValue.number 1), Instr.requireAs "b" "B"]
          (entryFrame init) (enter init "A"))
        = some s1 → JsMap.get s1.cache "A" = some init.heap.length) ∧
    (∀ v s1, require cycleAssignFirst (2 + 1) "A" init = .ok v s1 →
      v = .record init.heap.length ∧ JsMap.get s1.cache "A" = some init.heap.length)) :=
  ⟨by decide, by decide, by decide,
    cache_entry_kept_unless_written cycleAssignFirst (by decide) 2 "A"
      [Instr.setExport "val" (JsValue.number 1), Instr.requireAs "b" "B"] init
      (by decide) (by decide)⟩

/-- The at-most-once theorem at the cyclic pair: three calls of `require("A")`
from the start of the bundle. -/
theorem requireTimes_once_witness :
    LeavesCache cycleAssignFirst ∧ Wf init ∧ FuelCovers cycleAssignFirst 3 init ∧
    (cacheRead init "A").truthy = false ∧
    JsMap.get cycleAssignFirst "A"
      = some [Instr.setExport "val" (JsValue.number 1), Instr.requireAs "b" "B"] ∧
    1 ≤ 3 ∧
    ∃ s1, requireTimes cycleAssignFirst 3 "A" 3 init = some s1 ∧
      s1.executed.count "A" = 1 ∧
      ∀ v, ("A", v) ∈ s1.returned → v = .record init.heap.length :=
  ⟨by decide, wf_init, fuelCovers_init _ _ (by decide), by decide, by decide, by decide,
    requireTimes_once cycleAssignFirst (by decide) 3 3 "A"
      [Instr.setExport "val" (JsValue.number 1), Instr.requireAs "b" "B"] init wf_init
      (fuelCovers_init _ _ (by decide)) (by decide) (by decide) (by decide)⟩

end Loader

namespace Loader

/-- C11 fails on two modules shaped like those of the demonstration, in text
that `transform` leaves as it is: `utils` is
`module.exports = { add: function(a, b) { return a + b; } };` and `main`
requires `utils` and reads `utils.add`. The emitted wrapper declares no
parameters, so `module` is the name bound around the emitted text. Where it
is bound, the assigned record lands at address 2 in that outer object, while
`require("utils")` returns the record at address 1, which is empty, and
`main` reads `undefined`; where it is not bound, the body of `utils` raises a
`ReferenceError` and `require("utils")` returns nothing. When `utils`
reaches the `module` object of `require` as `arguments[0]`, the assigned
record is again at address 2 and `require("utils")` returns the empty record
at address 1. -/
theorem require_never_returns_assigned_record (fuel : Nat) (outer : JsValue) :
    (∃ s, require exportingModules (fuel + 2) "main" (initIn (some outer))
        = .ok (.record 0) s ∧
      s.returned = [("utils", .record 1), ("main", .record 0)] ∧
      s.heap[1]? = some [] ∧
      s.heap[2]? = some [("add", .closure "function(a, b) \x7b return a + b; \x7d")] ∧
      s.outerModule = some (.record 2) ∧
      s.observed = [JsValue.undefined]) ∧
    (∃ s, require exportingModules (fuel + 2) "main" (initIn none)
        = .thrown moduleNotDefinedError s ∧
      s.executed = ["main", "utils"] ∧ s.returned = [] ∧
      JsMap.get s.cache "utils" = some 1 ∧ s.heap[1]? = some []) ∧
    (∃ s, require exportingByArgument (fuel + 2) "main" (initIn (some outer))
        = .ok (.record 0) s ∧
      s.returned = [("utils", .record 1), ("main", .record 0)] ∧
      s.heap[1]? = some [] ∧
      s.heap[2]? = some [("add", .closure "function(a, b) \x7b return a + b; \x7d")] ∧
      s.outerModule = some outer ∧
      s.observed = [JsValue.undefined]) :=
  ⟨⟨_, rfl, rfl, rfl, rfl, rfl, rfl⟩, ⟨_, rfl, rfl, rfl, rfl, rfl⟩,
    ⟨_, rfl, rfl, rfl, rfl, rfl, rfl⟩⟩

end Loader

/-! ## The emitted text, the delivery of failures and the success of the resolver -/

namespace SimpleBundler

theorem visitDeps_registered (b : SimpleBundler)
    (visitRec : String → ResolveState → Run ResolveState)
    (hrec : ∀ name st st1, visitRec name st = .ok st1 → name ∈ JsMap.keys b.modules →
      AllRegistered b st → AllRegistered b st1) :
    ∀ (deps : List String) (st st1 : ResolveState),
      visitDeps b visitRec deps st = .ok st1 → AllRegistered b st → AllRegistered b st1 := by
  intro deps
  induction deps with
  | nil =>
    intro st st1 h hst
    simp only [visitDeps, Run.ok.injEq] at h
    subst h; exact hst
  | cons dep rest ih =>
    intro st st1 h hst
    simp only [visitDeps] at h
    split at h
    · exact absurd h (by simp)
    · rename_i hhas
      have hreg : dep ∈ JsMap.keys b.modules :=
        (JsMap.has_iff_mem_keys _ _).mp (by simpa using hhas)
      split at h
      · rename_i st2 hst2
        exact ih st2 st1 h (hrec dep st st2 hst2 hreg hst)
      · exact absurd h (by simp)
      · exact absurd h (by simp)

/-- A successful `visit` of a registered module adds only registered modules
to `sorted`. -/
theorem visit_registered (b : SimpleBundler) :
    ∀ (fuel : Nat) (name : String) (st st1 : ResolveState),
      visit b fuel name st = .ok st1 → name ∈ JsMap.keys b.modules →
      AllRegistered b st → AllRegistered b st1 := by
  intro fuel
  induction fuel with
  | zero => intro name st st1 h; simp [visit] at h
  | succ fuel ih =>
    intro name st st1 h hreg hst
    simp only [visit] at h
    split at h
    · exact absurd h (by simp)
    · split at h
      · simp only [Run.ok.injEq] at h
        subst h; exact hst
      · split at h
        · rename_i st2 hst2
          simp only [Run.ok.injEq] at h
          subst h
          have h2 : AllRegistered b st2 :=
            visitDeps_registered b (visit b fuel) ih _ _ _ hst2 hst
          intro x hx
          rcases List.mem_append.mp hx with hx | hx
          · exact h2 x hx
          · rw [List.mem_singleton.mp hx]; exact hreg
        · exact absurd h (by simp)
        · exact absurd h (by simp)

theorem visitAll_registered (b : SimpleBundler) (fuel : Nat) :
    ∀ (names : List String) (st st1 : ResolveState),
      visitAll b fuel names st = .ok st1 → (∀ n ∈ names, n ∈ JsMap.keys b.modules) →
      AllRegistered b st → AllRegistered b st1 := by
  intro names
  induction names with
  | nil =>
    intro st st1 h _ hst
    simp only [visitAll, Run.ok.injEq] at h
    subst h; exact hst
  | cons name rest ih =>
    intro st st1 h hnames hst
    simp only [visitAll] at h
    split at h
    · rename_i st2 hst2
      exact ih st2 st1 h (fun n hn => hnames n (List.mem_cons_of_mem _ hn))
        (visit_registered b fuel name st st2 hst2 (hnames name (List.mem_cons_self _ _)) hst)
    · exact absurd h (by simp)
    · exact absurd h (by simp)

/-- The list returned by `resolveDependencies` holds registered modules only. -/
theorem resolveDependencies_registered (b : SimpleBundler) (sorted : List String)
    (h : resolveDependencies b = .ok sorted) :
    ∀ n ∈ sorted, JsMap.has b.modules n = true := by
  unfold resolveDependencies at h
  split at h
  · rename_i st hst
    simp only [Run.ok.injEq] at h
    subst h
    intro n hn
    exact (JsMap.has_iff_mem_keys _ _).mpr
      (visitAll_registered b _ _ _ _ hst (fun _ hk => hk) (fun _ hx => by simp at hx) n hn)
  · exact absurd h (by simp)
  · exact absurd h (by simp)

/-! ### No error on a closed acyclic registry -/

theorem visitDeps_no_throw (b : SimpleBundler) (hc : Closed b) (name : String)
    (hname : JsMap.has b.modules name = true)
    (visitRec : String → ResolveState → Run ResolveState)
    (hv : ∀ d st st1, visitRec d st = .ok st1 → st1.visiting = st.visiting)
    (hrec : ∀ d st, JsMap.has b.modules d = true →
      (∀ x ∈ st.visiting, Relation.TransGen (DependsOn b) x d) →
      ∀ e, visitRec d st ≠ .thrown e) :
    ∀ (deps : List String), (∀ d ∈ deps, d ∈ depsOf b name) →
      ∀ (st : ResolveState),
        (∀ x ∈ st.visiting, Relation.ReflTransGen (DependsOn b) x name) →
        ∀ e, visitDeps b visitRec deps st ≠ .thrown e := by
  intro deps
  induction deps with
  | nil => intro _ st _ e; simp [visitDeps]
  | cons dep rest ih =>
    intro hdeps st hst e
    have hdep : dep ∈ depsOf b name := hdeps dep (List.mem_cons_self _ _)
    have hhas : JsMap.has b.modules dep = true := hc name hname dep hdep
    simp only [visitDeps, hhas, Bool.not_true, Bool.false_eq_true, if_false]
    split
    · rename_i st2 hst2
      have hvis := hv dep st st2 hst2
      exact ih (fun d hd => hdeps d (List.mem_cons_of_mem _ hd)) st2 (hvis ▸ hst) e
    · rename_i e2 hthrown
      exact absurd hthrown
        (hrec dep st hhas (fun x hx => Relation.TransGen.tail' (hst x hx) hdep) e2)
    · simp

/-- On a closed acyclic registry, `visit` of a registered module on which
every module in progress depends throws nothing. -/
theorem visit_no_throw (b : SimpleBundler) (hc : Closed b) (ha : Acyclic b) :
    ∀ (fuel : Nat) (name : String) (st : ResolveState),
      JsMap.has b.modules name = true →
      (∀ x ∈ st.visiting, Relation.TransGen (DependsOn b) x name) →
      ∀ e, visit b fuel name st ≠ .thrown e := by
  intro fuel
  induction fuel with
  | zero => intro name st _ _ e; simp [visit]
  | succ fuel ih =>
    intro name st hname hst e
    simp only [visit]
    split
    · rename_i hvisiting
      exact absurd (hst name ((JsSet.has_iff _ _).mp hvisiting)) (ha name hname)
    · split
      · simp
      · have hdeps := visitDeps_no_throw b hc name hname (visit b fuel)
          (visit_visiting b fuel) ih (depsOf b name) (fun _ hd => hd)
          { st with visiting := JsSet.add st.visiting name }
          (by
            intro x hx
            rcases (JsSet.mem_add _ _ _).mp hx with hx | rfl
            · exact (hst x hx).to_reflTransGen
            · exact Relation.ReflTransGen.refl)
        split
        · simp
        · rename_i e2 hthrown
          exact absurd hthrown (hdeps e2)
        · simp

theorem visitAll_no_throw (b : SimpleBundler) (hc : Closed b) (ha : Acyclic b) (fuel : Nat) :
    ∀ (names : List String) (st : ResolveState),
      (∀ n ∈ names, JsMap.has b.modules n = true) → st.visiting = [] →
      ∀ e, visitAll b fuel names st ≠ .thrown e := by
  intro names
  induction names with
  | nil => intro st _ _ e; simp [visitAll]
  | cons name rest ih =>
    intro st hnames hst e
    simp only [visitAll]
    split
    · rename_i st2 hst2
      have hvis := visit_visiting b fuel name st st2 hst2
      exact ih st2 (fun n hn => hnames n (List.mem_cons_of_mem _ hn)) (by rw [hvis, hst]) e
    · rename_i e2 hthrown
      exact absurd hthrown (visit_no_throw b hc ha fuel name st
        (hnames name (List.mem_cons_self _ _)) (by rw [hst]; intro x hx; simp at hx) e2)
    · simp

/-- In an order with every dependency before its dependent, a module that
reaches another through one or more edges stands after it. -/
theorem depsBefore_transGen (b : SimpleBundler) (sorted : List String)
    (h : DepsBefore b sorted) (x y : String)
    (hxy : Relation.TransGen (DependsOn b) x y) :
    ∀ j : Nat, sorted[j]? = some x → ∃ i : Nat, i < j ∧ sorted[i]? = some y := by
  induction hxy with
  | single hedge => intro j hj; exact h j x hj _ hedge
  | tail _ hedge ih =>
    intro j hj
    obtain ⟨i, hij, hi⟩ := ih j hj
    obtain ⟨k, hki, hk⟩ := h i _ hi _ hedge
    exact ⟨k, by omega, hk⟩

theorem depsBefore_acyclic (b : SimpleBundler) (sorted : List String)
    (h : DepsBefore b sorted) (m : String)
    (hm : Relation.TransGen (DependsOn b) m m) :
    ∀ j : Nat, sorted[j]? ≠ some m := by
  intro j
  induction j using Nat.strong_induction_on with
  | _ j ih =>
    intro hj
    obtain ⟨i, hij, hi⟩ := depsBefore_transGen b sorted h m m hm j hj
    exact ih i hij hi

theorem loaderText_eq :
    loaderText = loaderFunctionText ++ entryCallText entryName := by
  simp only [loaderText, loaderFunctionText, entryCallText, entryName, String.append_assoc]
  rfl

/-- C12, as stated, fails: the registry holds the one module `app`; the build
succeeds, its text ends with the call of `require` on `main`, and the only
module that the text defines is `app`. -/
theorem bundle_without_main_requires_main :
    (bundle (fun _ _ s => s) noMainBundler).map (fun r => r.returned.isSome) = some true ∧
    (bundle (fun _ _ s => s) noMainBundler).map (fun r => r.emitted.map Prod.fst)
      = some ["app"] ∧
    "main" ∉ ["app"] ∧
    (bundle (fun _ _ s => s) noMainBundler).map (fun r => r.returned)
      = some (some (bundleHeader ++ concatDefinitions [("app", "start()")]
          ++ (loaderFunctionText ++ entryCallText "main"))) := by
  refine ⟨by decide, by decide, by decide, ?_⟩
  simp only [bundle, emitModules, transform, loaderText_eq, entryName, concatDefinitions,
    String.append_empty, String.append_assoc,
    show resolveDependencies noMainBundler = .ok ["app"] by decide,
    show JsMap.get noMainBundler.modules "app" = some "start()" by decide]
  rfl

/-- Ids and code are written into the text as they are: with the engine that
leaves the code alone, the one module `a` of `splicedBundler` closes its own
definition, calls `require`, and opens a definition of `main`, all in the
top-level code of the text. -/
theorem bundle_splices_code :
    (bundle (fun _ _ s => s) splicedBundler).map (fun r => r.returned)
      = some (some (bundleHeader ++
          ("  modules[\x27a\x27] = function() \x7b\n" ++
           "    \x7d; require(\x27a\x27); modules[\x27main\x27] = function() \x7b\n" ++
           "  \x7d;\n\n") ++
          (loaderFunctionText ++ entryCallText "main"))) := by
  simp only [bundle, emitModules, transform, loaderText_eq, entryName, moduleDefinition,
    String.append_assoc,
    show resolveDependencies splicedBundler = .ok ["a"] by decide,
    show JsMap.get splicedBundler.modules "a"
      = some "\x7d; require(\x27a\x27); modules[\x27main\x27] = function() \x7b" by decide]
  rfl

/-- C12, amended: the text of every build that succeeds is, in this order,
the header, one definition for each registered module in the resolved order
(the id and the transformed code written as they are), the declaration of
`require`, and the closing lines, which end with the call of `require` on the
literal id `main`; the bundler writes a definition under the id `main`
exactly when a module named `main` is registered. -/
theorem bundle_text_ends_with_main (replace : String → String → String → String)
    (b : SimpleBundler) (r : BundleResult) (text : String)
    (h : bundle replace b = some r) (hs : r.returned = some text) :
    (∃ sorted : List String, resolveDependencies b = .ok sorted ∧
      r.emitted.map Prod.fst = sorted ∧
      r.emitted.map (fun e => (Except.ok e.2 : Except JsError String))
        = sorted.map (fun name => transform replace (JsMap.get b.modules name) name)) ∧
    text = bundleHeader ++ concatDefinitions r.emitted
      ++ (loaderFunctionText ++ entryCallText entryName) ∧
    (∃ before : String, text = before ++ "  require(\x27main\x27);\n\x7d)();") ∧
    entryName = "main" ∧
    (entryName ∈ r.emitted.map Prod.fst ↔ JsMap.has b.modules entryName = true) := by
  unfold bundle at h
  split at h
  · simp at h
  · simp only [Option.some.injEq] at h
    subst h
    simp at hs
  · rename_i sorted hsorted
    split at h
    · simp only [Option.some.injEq] at h
      subst h
      simp at hs
    · rename_i es hes
      simp only [Option.some.injEq] at h
      subst h
      simp only [Option.some.injEq] at hs
      obtain ⟨added, h1, h2⟩ := emitModules_text replace b sorted _ _ hes
      obtain ⟨_, h4⟩ := emitModules_names replace b sorted _ _ hes
      obtain ⟨_, h5⟩ := emitModules_calls replace b sorted _ _ hes
      simp only [List.nil_append] at h1
      simp only [List.map_nil, List.nil_append] at h4 h5
      have htext : text = bundleHeader ++ concatDefinitions es.emitted
          ++ (loaderFunctionText ++ entryCallText entryName) := by
        rw [← hs, h2, h1, loaderText_eq]
      refine ⟨⟨sorted, hsorted, h4, h5⟩, htext, ?_, rfl, ?_⟩
      · refine ⟨bundleHeader ++ concatDefinitions es.emitted
          ++ (loaderFunctionText ++ "  \n  // 启动入口模块\n"), ?_⟩
        rw [htext]
        simp only [entryCallText, entryName, String.append_assoc]
        rfl
      · simp only [h4]
        exact ⟨fun hm => resolveDependencies_registered b sorted hsorted _ hm,
          fun hm => (resolveDependencies_post b sorted hsorted).2.2 _
            ((JsMap.has_iff_mem_keys _ _).mp hm)⟩

theorem demo_bundle_isSome :
    (bundle (fun _ _ s => s) demoBundler).isSome = true := by decide

theorem demo_returned_isSome :
    ((bundle (fun _ _ s => s) demoBundler).get demo_bundle_isSome).returned.isSome
      = true := by decide

/-- The amended C12 at the registry of the demonstration. -/
theorem bundle_text_ends_with_main_witness :
    ∃ r : BundleResult, ∃ text : String,
      bundle (fun _ _ s => s) demoBundler = some r ∧ r.returned = some text ∧
      ((∃ sorted : List String, resolveDependencies demoBundler = .ok sorted ∧
        r.emitted.map Prod.fst = sorted ∧
        r.emitted.map (fun e => (Except.ok e.2 : Except JsError String))
          = sorted.map (fun name =>
              transform (fun _ _ s => s) (JsMap.get demoBundler.modules name) name)) ∧
      text = bundleHeader ++ concatDefinitions r.emitted
        ++ (loaderFunctionText ++ entryCallText entryName) ∧
      (∃ before : String, text = before ++ "  require(\x27main\x27);\n\x7d)();") ∧
      entryName = "main" ∧
      (entryName ∈ r.emitted.map Prod.fst ↔ JsMap.has demoBundler.modules entryName = true)) :=
  ⟨_, _, (Option.some_get demo_bundle_isSome).symm,
    (Option.some_get demo_returned_isSome).symm,
    bundle_text_ends_with_main (fun _ _ s => s) demoBundler _ _
      (Option.some_get demo_bundle_isSome).symm
      (Option.some_get demo_returned_isSome).symm⟩

/-- C19, as stated, fails: a build that fails on a circular dependency and a
build that fails on a missing dependency, two different errors, hand the same
value `null` to the caller. -/
theorem failures_return_the_same_null :
    resolveDependencies cycleBundler = .thrown (circularError "A") ∧
    resolveDependencies danglingBundler = .thrown (missingError "B") ∧
    circularError "A" ≠ missingError "B" ∧
    (bundle (fun _ _ s => s) cycleBundler).map (fun r => r.returned) = some none ∧
    (bundle (fun _ _ s => s) danglingBundler).map (fun r => r.returned) = some none := by
  refine ⟨by decide, by decide, ?_, by decide, by decide⟩
  intro h
  have hm := congrArg (fun e => decide (JsError.mentions e "B")) h
  revert hm
  decide

/-- C19, amended: every failure of the resolver is delivered to the caller of
`bundle` as `null`, whatever the error: two failed builds return the same
value, which carries neither the kind of the error nor an id. -/
theorem bundle_failures_indistinguishable (replace : String → String → String → String)
    (b1 b2 : SimpleBundler) (e1 e2 : JsError)
    (h1 : resolveDependencies b1 = .thrown e1) (h2 : resolveDependencies b2 = .thrown e2) :
    (bundle replace b1).map (fun r => r.returned) = some none ∧
    (bundle replace b2).map (fun r => r.returned) = some none ∧
    (bundle replace b1).map (fun r => r.returned)
      = (bundle replace b2).map (fun r => r.returned) := by
  simp [bundle, h1, h2]

/-- The amended C19 at the cyclic registry and the registry with the missing
module. -/
theorem bundle_failures_indistinguishable_witness :
    resolveDependencies cycleBundler = .thrown (circularError "A") ∧
    resolveDependencies danglingBundler = .thrown (missingError "B") ∧
    ((bundle (fun _ _ s => s) cycleBundler).map (fun r => r.returned) = some none ∧
    (bundle (fun _ _ s => s) danglingBundler).map (fun r => r.returned) = some none ∧
    (bundle (fun _ _ s => s) cycleBundler).map (fun r => r.returned)
      = (bundle (fun _ _ s => s) danglingBundler).map (fun r => r.returned)) :=
  ⟨by decide, by decide,
    bundle_failures_indistinguishable (fun _ _ s => s) cycleBundler danglingBundler
      (circularError "A") (missingError "B") (by decide) (by decide)⟩

/-- With a call stack that is deep enough, `resolveDependencies` returns a
list exactly when every name in the dependency list of a registered module
is registered and no registered module reaches itself through declared
dependency edges (a module that lists itself does); in every other case it
throws an error. -/
theorem resolveDependencies_ok_iff_of_deep_stack (b : SimpleBundler) :
    ((∃ sorted, resolveDependencies b = .ok sorted) ↔ (Closed b ∧ Acyclic b)) ∧
    (¬ (Closed b ∧ Acyclic b) → ∃ e, resolveDependencies b = .thrown e) ∧
    (∀ m, JsMap.has b.modules m = true → m ∈ depsOf b m →
      ∃ e, resolveDependencies b = .thrown e) := by
  have hiff : (∃ sorted, resolveDependencies b = .ok sorted) ↔ (Closed b ∧ Acyclic b) := by
    constructor
    · rintro ⟨sorted, h⟩
      obtain ⟨_, hbefore, hall⟩ := resolveDependencies_post b sorted h
      have hreg := resolveDependencies_registered b sorted h
      constructor
      · intro m hm d hd
        obtain ⟨j, hj⟩ := List.getElem?_of_mem (hall m ((JsMap.has_iff_mem_keys _ _).mp hm))
        obtain ⟨i, _, hi⟩ := hbefore j m hj d hd
        exact hreg d (List.getElem?_mem hi)
      · intro m hm hcycle
        obtain ⟨j, hj⟩ := List.getElem?_of_mem (hall m ((JsMap.has_iff_mem_keys _ _).mp hm))
        exact depsBefore_acyclic b sorted hbefore m hcycle j hj
    · rintro ⟨hc, ha⟩
      have hno := visitAll_no_throw b hc ha (b.modules.length + 1) (JsMap.keys b.modules)
        { visited := [], visiting := [], sorted := [] }
        (fun n hn => (JsMap.has_iff_mem_keys _ _).mpr hn) rfl
      have hfuel := resolveDependencies_fuel b
      unfold resolveDependencies at hfuel ⊢
      split
      · rename_i st _
        exact ⟨st.sorted, rfl⟩
      · rename_i e hthrown
        exact absurd hthrown (hno e)
      · rename_i hout
        rw [hout] at hfuel
        exact absurd rfl hfuel
  have hthrow : ¬ (Closed b ∧ Acyclic b) → ∃ e, resolveDependencies b = .thrown e := by
    intro hnot
    cases hr : resolveDependencies b with
    | ok sorted => exact absurd (hiff.mp ⟨sorted, hr⟩) hnot
    | thrown e => exact ⟨e, rfl⟩
    | outOfFuel => exact absurd hr (resolveDependencies_fuel b)
  exact ⟨hiff, hthrow, fun m hm hself =>
    hthrow (fun hca => hca.2 m hm (Relation.TransGen.single hself))⟩

theorem cycleBundler_not_acyclic : ¬ (Closed cycleBundler ∧ Acyclic cycleBundler) := by
  rintro ⟨_, ha⟩
  have h1 : DependsOn cycleBundler "A" "B" := by
    show "B" ∈ depsOf cycleBundler "A"
    decide
  have h2 : DependsOn cycleBundler "B" "A" := by
    show "A" ∈ depsOf cycleBundler "B"
    decide
  exact ha "A" (by decide) (Relation.TransGen.tail (Relation.TransGen.single h1) h2)

end SimpleBundler

/-! ## `TreeShaker`: the properties -/

namespace JsMap

variable {α : Type}

theorem set_of_not_mem (m : JsMap α) (k : String) (v : α) (h : k ∉ keys m) :
    set m k v = m ++ [(k, v)] := by
  induction m with
  | nil => simp [set]
  | cons e rest ih =>
    obtain ⟨k2, v2⟩ := e
    have h2 : ¬ k2 = k := by
      intro e; apply h; simp [keys, e]
    have hrest : k ∉ keys rest := by
      intro hm; apply h; simp only [keys] at hm; simp [keys]; right; simpa using hm
    simp [set, h2, ih hrest]

theorem keys_nodup_set (m : JsMap α) (k : String) (v : α) (h : (keys m).Nodup) :
    (keys (set m k v)).Nodup := by
  by_cases hk : k ∈ keys m
  · rw [keys_set_of_has m k v ((has_iff_mem_keys m k).mpr hk)]
    exact h
  · rw [keys_set_of_not_mem m k v hk]
    exact List.Nodup.append h (List.nodup_singleton _) (by simpa using hk)

end JsMap

namespace TreeShaker

theorem retain_fst (t : TreeShaker) (p q : String × ModuleInfo) (h : retain t p = some q) :
    q.1 = p.1 := by
  unfold retain at h
  split at h
  · simp only [Option.some.injEq] at h
    rw [← h]
  · simp at h

/-- On entries with distinct keys that are not yet in `result`, the loop of
`shake` appends what it keeps of each entry, in order. -/
theorem shakeLoop_eq (t : TreeShaker) :
    ∀ (entries : List (String × ModuleInfo)) (result : JsMap ModuleInfo),
      (JsMap.keys entries).Nodup →
      (∀ k ∈ JsMap.keys entries, k ∉ JsMap.keys result) →
      shakeLoop t entries result = result ++ entries.filterMap (retain t) := by
  intro entries
  induction entries with
  | nil => intro result _ _; simp [shakeLoop]
  | cons e rest ih =>
    intro result hnd hdisj
    obtain ⟨name, info⟩ := e
    have hnd2 : name ∉ JsMap.keys rest ∧ (JsMap.keys rest).Nodup := by
      simpa [JsMap.keys] using hnd
    have hname : name ∉ JsMap.keys result := hdisj name (by simp [JsMap.keys])
    have hrest : ∀ k ∈ JsMap.keys rest, k ∉ JsMap.keys result := fun k hk =>
      hdisj k (by simp only [JsMap.keys] at hk; simp [JsMap.keys]; right; simpa using hk)
    by_cases hkeep : (usedExportsInModule t name info).length > 0
    · simp only [shakeLoop, hkeep, if_true, List.filterMap_cons, retain]
      rw [JsMap.set_of_not_mem _ _ _ hname, ih _ hnd2.2]
      · simp
      · intro k hk
        have hne : k ≠ name := fun e => hnd2.1 (e ▸ hk)
        have := hrest k hk
        simp only [JsMap.keys, List.map_append, List.map_cons, List.map_nil,
          List.mem_append, List.mem_singleton, not_or]
        exact ⟨by simpa [JsMap.keys] using this, hne⟩
    · simp only [shakeLoop, hkeep, if_false, List.filterMap_cons, retain]
      exact ih result hnd2.2 hrest

theorem shake_eq (t : TreeShaker) (h : (JsMap.keys t.modules).Nodup) :
    shake t = t.modules.filterMap (retain t) := by
  unfold shake
  rw [shakeLoop_eq t t.modules [] h (fun _ _ => by simp [JsMap.keys])]
  simp

theorem run_snoc (calls : List Call) (c : Call) : run (calls ++ [c]) = step (run calls) c := by
  simp [run, List.foldl_append]

/-- After any sequence of calls the keys of `this.modules` are distinct. -/
theorem run_keys_nodup (calls : List Call) : (JsMap.keys (run calls).modules).Nodup := by
  induction calls using List.reverseRecOn with
  | nil => simp [run, new, JsMap.keys]
  | append_singleton l c ih =>
    rw [run_snoc]
    cases c with
    | addModule name exports code => exact JsMap.keys_nodup_set _ _ _ ih
    | markUsed m e => exact ih

theorem shake_run (calls : List Call) :
    shake (run calls) = (run calls).modules.filterMap (retain (run calls)) :=
  shake_eq _ (run_keys_nodup calls)

/-- What `result.get(k)` is after `shake`, over entries with distinct keys. -/
theorem get_filterMap_retain (t : TreeShaker) :
    ∀ (m : JsMap ModuleInfo) (k : String), (JsMap.keys m).Nodup →
      JsMap.get (m.filterMap (retain t)) k
        = (JsMap.get m k).bind (fun info => (retain t (k, info)).map Prod.snd) := by
  intro m
  induction m with
  | nil => intro k _; simp [JsMap.get]
  | cons e rest ih =>
    intro k hnd
    obtain ⟨k1, v1⟩ := e
    have hnd2 : k1 ∉ JsMap.keys rest ∧ (JsMap.keys rest).Nodup := by
      simpa [JsMap.keys] using hnd
    by_cases hk : k1 = k
    · subst hk
      have hnone : JsMap.get rest k1 = none := (JsMap.get_eq_none_iff _ _).mpr hnd2.1
      cases hr : retain t (k1, v1) with
      | none =>
        simp [List.filterMap_cons, hr, JsMap.get, ih k1 hnd2.2, hnone]
      | some q =>
        have hq := retain_fst t _ _ hr
        obtain ⟨q1, q2⟩ := q
        simp only at hq
        subst hq
        simp [List.filterMap_cons, hr, JsMap.get]
    · cases hr : retain t (k1, v1) with
      | none =>
        simp [List.filterMap_cons, hr, JsMap.get, hk, ih k hnd2.2]
      | some q =>
        have hq := retain_fst t _ _ hr
        obtain ⟨q1, q2⟩ := q
        simp only at hq
        subst hq
        simp [List.filterMap_cons, hr, JsMap.get, hk, ih k hnd2.2]

theorem keys_filterMap_retain (t : TreeShaker) (m : JsMap ModuleInfo) :
    JsMap.keys (m.filterMap (retain t))
      = JsMap.keys (m.filter (fun p => decide ((usedExportsInModule t p.1 p.2).length > 0))) := by
  induction m with
  | nil => simp [JsMap.keys]
  | cons e rest ih =>
    obtain ⟨k1, v1⟩ := e
    simp only [JsMap.keys] at ih
    by_cases hkeep : (usedExportsInModule t k1 v1).length > 0
    · simp [JsMap.keys, List.filterMap_cons, List.filter_cons, retain, hkeep, ih]
    · simp [JsMap.keys, List.filterMap_cons, List.filter_cons, retain, hkeep, ih]

/-- The result of `shake` has a key exactly for the registered modules that
have a declared export whose key is in `usedExports`, and stores for it the
declared exports whose key is in `usedExports`. -/
theorem get_shake_run (calls : List Call) (m : String) :
    JsMap.get (shake (run calls)) m
      = (JsMap.get (run calls).modules m).bind
          (fun info => (retain (run calls) (m, info)).map Prod.snd) := by
  rw [shake_run]
  exact get_filterMap_retain _ _ _ (run_keys_nodup calls)

theorem has_iff_get_isSome {α : Type} (m : JsMap α) (k : String) :
    JsMap.has m k = true ↔ (JsMap.get m k).isSome = true := by
  rw [JsMap.has_iff_mem_keys]
  cases hg : JsMap.get m k with
  | none => simpa using (JsMap.get_eq_none_iff m k).mp hg
  | some v => simpa using JsMap.mem_keys_of_get hg

theorem run_modules (calls : List Call) : (run calls).modules = modulesOf (addsOf calls) := by
  induction calls using List.reverseRecOn with
  | nil => simp [run, new, modulesOf, addsOf]
  | append_singleton l c ih =>
    rw [run_snoc]
    cases c with
    | addModule name exports code =>
      simp [step, addModule, ih, modulesOf, addsOf, List.filterMap_append, List.foldl_append]
    | markUsed m e =>
      simp [step, markUsed, ih, modulesOf, addsOf, List.filterMap_append]

theorem mem_usedExports_run (calls : List Call) (k : String) :
    k ∈ (run calls).usedExports ↔ ∃ p ∈ marksOf calls, exportKey p.1 p.2 = k := by
  induction calls using List.reverseRecOn with
  | nil => simp [run, new, marksOf]
  | append_singleton l c ih =>
    rw [run_snoc]
    cases c with
    | addModule name exports code =>
      simp only [step, addModule, marksOf, List.filterMap_append, List.filterMap_cons,
        List.filterMap_nil, List.append_nil]
      exact ih
    | markUsed m e =>
      simp only [step, markUsed, JsSet.mem_add, ih, marksOf, List.filterMap_append,
        List.filterMap_cons, List.filterMap_nil, List.mem_append, List.mem_singleton]
      constructor
      · rintro (⟨p, hp, hk⟩ | hk)
        · exact ⟨p, Or.inl hp, hk⟩
        · exact ⟨(m, e), Or.inr rfl, hk.symm⟩
      · rintro ⟨p, hp | hp, hk⟩
        · exact Or.inl ⟨p, hp, hk⟩
        · right; rw [← hk, hp]

theorem usedExportsInModule_congr (t1 t2 : TreeShaker)
    (h : ∀ k, k ∈ t1.usedExports ↔ k ∈ t2.usedExports) (name : String) (info : ModuleInfo) :
    usedExportsInModule t1 name info = usedExportsInModule t2 name info := by
  unfold usedExportsInModule
  apply List.filter_congr
  intro x _
  have := h (exportKey name x)
  rw [← JsSet.has_iff, ← JsSet.has_iff] at this
  exact Bool.eq_iff_iff.mpr this

theorem shakeLoop_congr (t1 t2 : TreeShaker)
    (h : ∀ k, k ∈ t1.usedExports ↔ k ∈ t2.usedExports) :
    ∀ (entries : List (String × ModuleInfo)) (result : JsMap ModuleInfo),
      shakeLoop t1 entries result = shakeLoop t2 entries result := by
  intro entries
  induction entries with
  | nil => intro result; simp [shakeLoop]
  | cons e rest ih =>
    intro result
    obtain ⟨name, info⟩ := e
    simp only [shakeLoop, usedExportsInModule_congr t1 t2 h name info, ih]

end TreeShaker

namespace TreeShaker

theorem exportKey_data (m e : String) : (exportKey m e).data = m.data ++ '.' :: e.data := by
  simp [exportKey, String.data_append]

theorem exportKey_entry_ne_used (x e : String) : exportKey "entry" x ≠ exportKey "used" e := by
  intro h
  have hd := congrArg String.data h
  have h1 : "entry".data = ['e', 'n', 't', 'r', 'y'] := rfl
  have h2 : "used".data = ['u', 's', 'e', 'd'] := rfl
  rw [exportKey_data, exportKey_data, h1, h2] at hd
  simp at hd

theorem exportKey_unused_ne_used (x e : String) :
    exportKey "unused" x ≠ exportKey "used" e := by
  intro h
  have hd := congrArg String.data h
  have h1 : "unused".data = ['u', 'n', 'u', 's', 'e', 'd'] := rfl
  have h2 : "used".data = ['u', 's', 'e', 'd'] := rfl
  rw [exportKey_data, exportKey_data, h1, h2] at hd
  simp at hd

end TreeShaker

namespace TreeShaker

theorem retain_isSome_iff (t : TreeShaker) (m : String) (info : ModuleInfo) :
    (retain t (m, info)).isSome = true ↔
      ∃ e ∈ info.exports, exportKey m e ∈ t.usedExports := by
  unfold retain
  by_cases hkeep : (usedExportsInModule t m info).length > 0
  · simp only [hkeep, if_true, Option.isSome_some, true_iff]
    obtain ⟨e, he⟩ := List.exists_mem_of_length_pos hkeep
    obtain ⟨h1, h2⟩ := List.mem_filter.mp he
    exact ⟨e, h1, (JsSet.has_iff _ _).mp h2⟩
  · simp only [hkeep, if_false, Option.isSome_none, Bool.false_eq_true, false_iff]
    rintro ⟨e, h1, h2⟩
    apply hkeep
    exact List.length_pos_of_mem (List.mem_filter.mpr ⟨h1, (JsSet.has_iff _ _).mpr h2⟩)

/-- A registered module is a key of the result of `shake` exactly when one of
its declared exports has its key in `usedExports`. -/
theorem has_shake_run_iff (calls : List Call) (m : String) (info : ModuleInfo)
    (h : JsMap.get (run calls).modules m = some info) :
    JsMap.has (shake (run calls)) m = true ↔
      ∃ e ∈ info.exports, exportKey m e ∈ (run calls).usedExports := by
  rw [has_iff_get_isSome, get_shake_run, h]
  simp only [Option.some_bind, Option.isSome_map']
  exact retain_isSome_iff _ _ _

theorem has_shake_run_registered (calls : List Call) (m : String)
    (h : JsMap.has (shake (run calls)) m = true) :
    ∃ info, JsMap.get (run calls).modules m = some info := by
  rw [has_iff_get_isSome, get_shake_run] at h
  cases hg : JsMap.get (run calls).modules m with
  | none => rw [hg] at h; simp at h
  | some info => exact ⟨info, rfl⟩

/-- C13, as stated, fails: with `entry`, `used` and `unused` registered and
only the export `helper` of `used` marked used, the result of `shake` holds
`used` alone; `entry` is not in it. -/
theorem shake_drops_entry :
    JsMap.keys (shake (run entryCalls)) = ["used"] ∧ "entry" ∉ ["used"] := by
  decide

/-- C13, amended: with `entry`, `used` and `unused` registered, whatever
their exports and code, and only one declared export of `used` marked used,
`shake` returns a result whose only key is `used`: it contains neither
`unused` nor `entry`. -/
theorem shake_keeps_used_only (entryExports usedNames unusedExports : List String)
    (c1 c2 c3 e : String) (he : e ∈ usedNames) :
    JsMap.keys (shake (run [.addModule "entry" entryExports c1,
      .addModule "used" usedNames c2, .addModule "unused" unusedExports c3,
      .markUsed "used" e])) = ["used"] := by
  rw [shake_run, keys_filterMap_retain]
  have hrun : run [.addModule "entry" entryExports c1, .addModule "used" usedNames c2,
      .addModule "unused" unusedExports c3, .markUsed "used" e]
      = { usedExports := [exportKey "used" e]
          modules := [("entry", { exports := entryExports, code := c1 }),
            ("used", { exports := usedNames, code := c2 }),
            ("unused", { exports := unusedExports, code := c3 })] } := by
    simp [run, step, addModule, markUsed, new, JsMap.set, JsSet.add]
  rw [hrun]
  have h1 : usedExportsInModule
      { usedExports := [exportKey "used" e]
        modules := [("entry", { exports := entryExports, code := c1 }),
          ("used", { exports := usedNames, code := c2 }),
          ("unused", { exports := unusedExports, code := c3 })] }
      "entry" { exports := entryExports, code := c1 } = [] := by
    simp only [usedExportsInModule, List.filter_eq_nil_iff, JsSet.has_iff, List.mem_singleton]
    intro x _
    exact exportKey_entry_ne_used x e
  have h3 : usedExportsInModule
      { usedExports := [exportKey "used" e]
        modules := [("entry", { exports := entryExports, code := c1 }),
          ("used", { exports := usedNames, code := c2 }),
          ("unused", { exports := unusedExports, code := c3 })] }
      "unused" { exports := unusedExports, code := c3 } = [] := by
    simp only [usedExportsInModule, List.filter_eq_nil_iff, JsSet.has_iff, List.mem_singleton]
    intro x _
    exact exportKey_unused_ne_used x e
  have h2 : (usedExportsInModule
      { usedExports := [exportKey "used" e]
        modules := [("entry", { exports := entryExports, code := c1 }),
          ("used", { exports := usedNames, code := c2 }),
          ("unused", { exports := unusedExports, code := c3 })] }
      "used" { exports := usedNames, code := c2 }).length > 0 := by
    apply List.length_pos_of_mem (a := e)
    simp only [usedExportsInModule, List.mem_filter, JsSet.has_iff, List.mem_singleton]
    exact ⟨he, trivial⟩
  simp [JsMap.keys, List.filter_cons, h1, h2, h3]

/-- The amended C13 at the export lists of the scenario. -/
theorem shake_keeps_used_only_witness :
    "helper" ∈ ["helper"] ∧
    JsMap.keys (shake (run [.addModule "entry" ["start"] "import helper",
      .addModule "used" ["helper"] "helper code", .addModule "unused" ["extra"] "extra code",
      .markUsed "used" "helper"])) = ["used"] :=
  ⟨by decide, shake_keeps_used_only ["start"] ["helper"] ["extra"] "import helper"
    "helper code" "extra code" "helper" (by decide)⟩

/-- C14, as stated, fails: `addModule` takes a name, the exports and the code
and nothing else; the module `polyfill`, whose code has a top-level side
effect, has no export marked used and is absent from the result of `shake`. -/
theorem shake_drops_side_effect_module :
    JsMap.get (run sideEffectCalls).modules "polyfill"
      = some { exports := ["install"], code := "globalThis.ready = true;" } ∧
    JsMap.keys (shake (run sideEffectCalls)) = ["used"] ∧
    JsMap.has (shake (run sideEffectCalls)) "polyfill" = false := by
  decide

/-- C14, amended: the shaker holds no declaration of side effects. After any
sequence of calls, a registered module is retained by `shake` exactly when at
least one of its declared exports is marked used, whatever its code; a
module with top-level side effects and no export marked used is dropped. -/
theorem shake_retains_iff_export_used (calls : List Call) (m : String) (info : ModuleInfo)
    (h : JsMap.get (run calls).modules m = some info) :
    (JsMap.has (shake (run calls)) m = true ↔
      ∃ e ∈ info.exports, exportKey m e ∈ (run calls).usedExports) ∧
    ((∀ e ∈ info.exports, exportKey m e ∉ (run calls).usedExports) →
      JsMap.has (shake (run calls)) m = false) := by
  have hiff := has_shake_run_iff calls m info h
  refine ⟨hiff, ?_⟩
  intro hnone
  cases hh : JsMap.has (shake (run calls)) m with
  | false => rfl
  | true =>
    obtain ⟨e, he, hk⟩ := hiff.mp hh
    exact absurd hk (hnone e he)

/-- The amended C14 at the module `polyfill`. -/
theorem shake_retains_iff_export_used_witness :
    JsMap.get (run sideEffectCalls).modules "polyfill"
      = some { exports := ["install"], code := "globalThis.ready = true;" } ∧
    ((JsMap.has (shake (run sideEffectCalls)) "polyfill" = true ↔
      ∃ e ∈ ["install"], exportKey "polyfill" e ∈ (run sideEffectCalls).usedExports) ∧
    ((∀ e ∈ ["install"], exportKey "polyfill" e ∉ (run sideEffectCalls).usedExports) →
      JsMap.has (shake (run sideEffectCalls)) "polyfill" = false)) :=
  ⟨by decide, shake_retains_iff_export_used sideEffectCalls "polyfill"
    { exports := ["install"], code := "globalThis.ready = true;" } (by decide)⟩

/-- C15 fails at the module `lodash.fp`: it is registered, no `markUsed` call
names it, and the call `markUsed("lodash", "fp.map")` builds the key
`lodash.fp.map`, which is also the key of the export `map` of `lodash.fp`;
`shake` retains `lodash.fp`. -/
theorem shake_retains_unmarked_module :
    JsMap.has (run collidingCalls).modules "lodash.fp" = true ∧
    marksOf collidingCalls = [("lodash", "fp.map")] ∧
    exportKey "lodash" "fp.map" = exportKey "lodash.fp" "map" ∧
    JsMap.keys (shake (run collidingCalls)) = ["lodash.fp"] := by
  decide

theorem append_cons_inj_left {α : Type} (c : α) :
    ∀ (a b x y : List α), c ∉ a → c ∉ b → a ++ c :: x = b ++ c :: y → a = b := by
  intro a
  induction a with
  | nil =>
    intro b x y _ hb h
    cases b with
    | nil => rfl
    | cons b0 bs =>
      simp only [List.nil_append, List.cons_append, List.cons.injEq] at h
      exact absurd (by rw [h.1]; simp) hb
  | cons a0 as ih =>
    intro b x y ha hb h
    cases b with
    | nil =>
      simp only [List.nil_append, List.cons_append, List.cons.injEq] at h
      exact absurd (by rw [← h.1]; simp) ha
    | cons b0 bs =>
      simp only [List.cons_append, List.cons.injEq] at h
      rw [h.1, ih bs x y (fun hm => ha (List.mem_cons_of_mem _ hm))
        (fun hm => hb (List.mem_cons_of_mem _ hm)) h.2]

/-- Between module names without a dot, equal keys mean the same module. -/
theorem exportKey_module_inj (m1 m2 e1 e2 : String) (h1 : '.' ∉ m1.data)
    (h2 : '.' ∉ m2.data) (h : exportKey m1 e1 = exportKey m2 e2) : m1 = m2 := by
  have hd := congrArg String.data h
  rw [exportKey_data, exportKey_data] at hd
  exact String.ext (append_cons_inj_left '.' _ _ _ _ h1 h2 hd)

/-- Away from names with a dot, a module that no `markUsed` call named is
absent from the result of `shake`. -/
theorem shake_drops_unmarked_without_dots (calls : List Call) (m : String)
    (hm : '.' ∉ m.data) (hcalls : ∀ p ∈ marksOf calls, '.' ∉ p.1.data)
    (hun : ∀ e, (m, e) ∉ marksOf calls) :
    JsMap.has (shake (run calls)) m = false := by
  cases hh : JsMap.has (shake (run calls)) m with
  | false => rfl
  | true =>
    obtain ⟨info, hinfo⟩ := has_shake_run_registered calls m hh
    obtain ⟨e, _, hk⟩ := (has_shake_run_iff calls m info hinfo).mp hh
    obtain ⟨p, hp, hpk⟩ := (mem_usedExports_run calls _).mp hk
    have hpm : p.1 = m := exportKey_module_inj _ _ _ _ (hcalls p hp) hm hpk
    exact absurd (by rw [← hpm]; exact hp) (hun p.2)

/-- C16: after any sequence of calls, if `markUsed(m, e)` was called for an
export `e` that the registered module `m` declares, the result of `shake`
contains `m` and the export list recorded for `m` contains `e`; and the
export list recorded for any module of the result is a non-empty sub-list of
the exports that the module declares, in the order of the declaration. -/
theorem shake_records_marked_exports (calls : List Call) (m e : String) (info : ModuleInfo)
    (hinfo : JsMap.get (run calls).modules m = some info) (he : e ∈ info.exports)
    (hmark : (m, e) ∈ marksOf calls) :
    (∃ kept, JsMap.get (shake (run calls)) m = some kept ∧ e ∈ kept.exports) ∧
    (∀ m2 kept2, JsMap.get (shake (run calls)) m2 = some kept2 →
      ∃ info2, JsMap.get (run calls).modules m2 = some info2 ∧
        kept2.exports ≠ [] ∧ kept2.exports.Sublist info2.exports) := by
  constructor
  · have hkey : exportKey m e ∈ (run calls).usedExports :=
      (mem_usedExports_run calls _).mpr ⟨(m, e), hmark, rfl⟩
    have hmem : e ∈ usedExportsInModule (run calls) m info :=
      List.mem_filter.mpr ⟨he, (JsSet.has_iff _ _).mpr hkey⟩
    have hpos : (usedExportsInModule (run calls) m info).length > 0 :=
      List.length_pos_of_mem hmem
    rw [get_shake_run, hinfo]
    simp only [Option.some_bind, retain, hpos, if_true, Option.map_some']
    exact ⟨_, rfl, hmem⟩
  · intro m2 kept2 hget
    rw [get_shake_run] at hget
    cases hg : JsMap.get (run calls).modules m2 with
    | none => rw [hg] at hget; simp at hget
    | some info2 =>
      rw [hg] at hget
      simp only [Option.some_bind, retain] at hget
      split at hget
      · rename_i hpos
        simp only [Option.map_some', Option.some.injEq] at hget
        subst hget
        exact ⟨info2, rfl, List.ne_nil_of_length_pos hpos, List.filter_sublist _⟩
      · simp at hget

/-- The claim C16 at the demonstration: `markUsed("lodash", "map")`. -/
theorem shake_records_marked_exports_witness :
    JsMap.get (run demoCalls).modules "lodash"
      = some { exports := ["map", "filter", "reduce", "find", "forEach"]
               code := "lodash完整代码..." } ∧
    "map" ∈ ["map", "filter", "reduce", "find", "forEach"] ∧
    ("lodash", "map") ∈ marksOf demoCalls ∧
    ((∃ kept, JsMap.get (shake (run demoCalls)) "lodash" = some kept ∧
        "map" ∈ kept.exports) ∧
    (∀ m2 kept2, JsMap.get (shake (run demoCalls)) m2 = some kept2 →
      ∃ info2, JsMap.get (run demoCalls).modules m2 = some info2 ∧
        kept2.exports ≠ [] ∧ kept2.exports.Sublist info2.exports)) :=
  ⟨by decide, by decide, by decide,
    shake_records_marked_exports demoCalls "lodash" "map"
      { exports := ["map", "filter", "reduce", "find", "forEach"], code := "lodash完整代码..." }
      (by decide) (by decide) (by decide)⟩

/-- C17: the result of `shake` depends only on the registered modules and on
the set of pairs marked used: two sequences of calls with the same
`addModule` calls in the same order and the same set of `markUsed` pairs, in
whatever order and however often repeated, give the same result, keys,
export lists and code. -/
theorem shake_depends_on_marked_set (c1 c2 : List Call) (hadds : addsOf c1 = addsOf c2)
    (hmarks : ∀ p, p ∈ marksOf c1 ↔ p ∈ marksOf c2) :
    shake (run c1) = shake (run c2) := by
  have hused : ∀ k, k ∈ (run c1).usedExports ↔ k ∈ (run c2).usedExports := by
    intro k
    rw [mem_usedExports_run, mem_usedExports_run]
    constructor
    · rintro ⟨p, hp, hk⟩; exact ⟨p, (hmarks p).mp hp, hk⟩
    · rintro ⟨p, hp, hk⟩; exact ⟨p, (hmarks p).mpr hp, hk⟩
  unfold shake
  rw [run_modules c1, run_modules c2, hadds]
  exact shakeLoop_congr _ _ hused _ _

theorem demo_marks_iff (p : String × String) :
    p ∈ marksOf demoCalls ↔ p ∈ marksOf demoCallsReordered := by
  have h1 : marksOf demoCalls
      = [("lodash", "map"), ("lodash", "filter"), ("utils", "debounce")] := by decide
  have h2 : marksOf demoCallsReordered
      = [("utils", "debounce"), ("lodash", "filter"), ("lodash", "map"),
         ("utils", "debounce")] := by decide
  rw [h1, h2]
  simp only [List.mem_cons, List.mem_singleton, List.not_mem_nil, or_false]
  tauto

/-- The claim C17 at the demonstration and at its calls reordered, with one
`markUsed` call repeated. -/
theorem shake_depends_on_marked_set_witness :
    addsOf demoCalls = addsOf demoCallsReordered ∧
    (∀ p, p ∈ marksOf demoCalls ↔ p ∈ marksOf demoCallsReordered) ∧
    shake (run demoCalls) = shake (run demoCallsReordered) :=
  ⟨by decide, demo_marks_iff,
    shake_depends_on_marked_set demoCalls demoCallsReordered (by decide) demo_marks_iff⟩

/-- C18: after any sequence of calls, the keys of the result of `shake` are
the keys of `this.modules`, in their order, with the keys of the modules that
have no used export deleted. -/
theorem shake_keeps_order (calls : List Call) :
    JsMap.keys (shake (run calls))
      = JsMap.keys ((run calls).modules.filter
          (fun p => decide ((usedExportsInModule (run calls) p.1 p.2).length > 0))) ∧
    (JsMap.keys (shake (run calls))).Sublist (JsMap.keys (run calls).modules) := by
  have h : JsMap.keys (shake (run calls))
      = JsMap.keys ((run calls).modules.filter
          (fun p => decide ((usedExportsInModule (run calls) p.1 p.2).length > 0))) := by
    rw [shake_run, keys_filterMap_retain]
  refine ⟨h, ?_⟩
  rw [h]
  exact List.Sublist.map _ (List.filter_sublist _)

end TreeShaker

/-! ## The resolver: permutation, termination, registration order, repeated ids -/

namespace SimpleBundler

/-- C25: whenever `resolveDependencies` returns normally, the returned list
holds every registered module name exactly once and no other name: it is a
permutation of the keys of the registry, whatever the entry module. -/
theorem resolveDependencies_permutation (b : SimpleBundler) (sorted : List String)
    (h : resolveDependencies b = .ok sorted) :
    (∀ n : String, sorted.count n = if JsMap.has b.modules n = true then 1 else 0) ∧
    sorted.Perm (JsMap.keys b.modules).dedup ∧
    ((JsMap.keys b.modules).Nodup → sorted.Perm (JsMap.keys b.modules)) := by
  obtain ⟨hnodup, _, hall⟩ := resolveDependencies_post b sorted h
  have hreg := resolveDependencies_registered b sorted h
  have hmem : ∀ n, n ∈ sorted ↔ JsMap.has b.modules n = true := fun n =>
    ⟨hreg n, fun hn => hall n ((JsMap.has_iff_mem_keys _ _).mp hn)⟩
  have hperm : sorted.Perm (JsMap.keys b.modules).dedup := by
    rw [List.perm_ext_iff_of_nodup hnodup (List.nodup_dedup _)]
    intro a
    rw [List.mem_dedup, hmem, JsMap.has_iff_mem_keys]
  refine ⟨?_, hperm, fun hk => by rw [hk.dedup] at hperm; exact hperm⟩
  intro n
  by_cases hn : JsMap.has b.modules n = true
  · rw [if_pos hn]
    exact List.count_eq_one_of_mem hnodup ((hmem n).mpr hn)
  · rw [if_neg hn]
    exact List.count_eq_zero_of_not_mem (fun hm => hn ((hmem n).mp hm))

/-- The claim C25 at the registry with the unreferenced module. -/
theorem resolveDependencies_permutation_witness :
    resolveDependencies orphanBundler = .ok ["main", "orphan"] ∧
    ((∀ n : String, ["main", "orphan"].count n
        = if JsMap.has orphanBundler.modules n = true then 1 else 0) ∧
    ["main", "orphan"].Perm (JsMap.keys orphanBundler.modules).dedup ∧
    ((JsMap.keys orphanBundler.modules).Nodup →
      ["main", "orphan"].Perm (JsMap.keys orphanBundler.modules))) :=
  ⟨by decide, resolveDependencies_permutation orphanBundler _ (by decide)⟩

/-! ### A larger fuel does not change a run that ended -/

theorem visitDeps_fuel_mono (b : SimpleBundler)
    (r1 r2 : String → ResolveState → Run ResolveState)
    (hr : ∀ d st, r1 d st ≠ .outOfFuel → r2 d st = r1 d st) :
    ∀ (deps : List String) (st : ResolveState),
      visitDeps b r1 deps st ≠ .outOfFuel →
      visitDeps b r2 deps st = visitDeps b r1 deps st := by
  intro deps
  induction deps with
  | nil => intro st _; simp [visitDeps]
  | cons dep rest ih =>
    intro st h
    simp only [visitDeps] at h ⊢
    split
    · rfl
    · rename_i hhas
      simp only [hhas, if_false] at h
      cases h1 : r1 dep st with
      | ok st1 =>
        rw [h1] at h
        rw [hr dep st (by rw [h1]; simp), h1]
        exact ih st1 h
      | thrown e => rw [hr dep st (by rw [h1]; simp), h1]
      | outOfFuel => rw [h1] at h; exact absurd rfl h

/-- A run of `visit` that ended with a result or an error ends the same way
with one more unit of fuel. -/
theorem visit_fuel_succ (b : SimpleBundler) :
    ∀ (fuel : Nat) (name : String) (st : ResolveState),
      visit b fuel name st ≠ .outOfFuel →
      visit b (fuel + 1) name st = visit b fuel name st := by
  intro fuel
  induction fuel with
  | zero => intro name st h; simp [visit] at h
  | succ fuel ih =>
    intro name st h
    rw [visit] at h
    rw [visit.eq_def b (fuel + 1 + 1)]
    simp only
    rw [visit.eq_def b (fuel + 1)]
    simp only
    split
    · rfl
    · rename_i hv1
      simp only [hv1, if_false] at h
      split
      · rfl
      · rename_i hv2
        simp only [hv2, if_false] at h
        have hdeps : visitDeps b (visit b fuel) (depsOf b name)
            { st with visiting := JsSet.add st.visiting name } ≠ .outOfFuel := by
          intro hout
          rw [hout] at h
          exact h rfl
        rw [visitDeps_fuel_mono b (visit b fuel) (visit b (fuel + 1)) ih _ _ hdeps]

theorem visit_fuel_add (b : SimpleBundler) (fuel : Nat) (name : String) (st : ResolveState)
    (h : visit b fuel name st ≠ .outOfFuel) :
    ∀ k : Nat, visit b (fuel + k) name st = visit b fuel name st := by
  intro k
  induction k with
  | zero => rfl
  | succ k ih =>
    rw [← Nat.add_assoc, visit_fuel_succ b (fuel + k) name st (by rw [ih]; exact h), ih]

theorem visitAll_fuel_add (b : SimpleBundler) (fuel k : Nat) :
    ∀ (names : List String) (st : ResolveState),
      visitAll b fuel names st ≠ .outOfFuel →
      visitAll b (fuel + k) names st = visitAll b fuel names st := by
  intro names
  induction names with
  | nil => intro st _; simp [visitAll]
  | cons name rest ih =>
    intro st h
    simp only [visitAll] at h ⊢
    cases h1 : visit b fuel name st with
    | ok st1 =>
      rw [h1] at h
      rw [visit_fuel_add b fuel name st (by rw [h1]; simp) k, h1]
      exact ih st1 h
    | thrown e => rw [visit_fuel_add b fuel name st (by rw [h1]; simp) k, h1]
    | outOfFuel => rw [h1] at h; exact absurd rfl h

/-- C26: `resolveDependencies` terminates on every registry, cyclic, with
self-dependencies, repeated ids or unregistered ids: it ends with a list or
with an error, and no bound on the recursion larger than the number of
registered modules plus one changes how the traversal ends. The recursion is
well-founded because each call that goes on puts a registered module that was
not in progress into the in-progress set (`visit_fuel`). -/
theorem resolveDependencies_terminates (b : SimpleBundler) :
    ((∃ sorted, resolveDependencies b = .ok sorted) ∨
      (∃ e, resolveDependencies b = .thrown e)) ∧
    (∀ fuel : Nat, b.modules.length + 1 ≤ fuel →
      visitAll b fuel (JsMap.keys b.modules) { visited := [], visiting := [], sorted := [] }
        ≠ .outOfFuel ∧
      visitAll b fuel (JsMap.keys b.modules) { visited := [], visiting := [], sorted := [] }
        = visitAll b (b.modules.length + 1) (JsMap.keys b.modules)
            { visited := [], visiting := [], sorted := [] }) := by
  have hbase := visitAll_fuel b (b.modules.length + 1) (JsMap.keys b.modules)
    { visited := [], visiting := [], sorted := [] } (fun _ hn => hn)
    ⟨List.nodup_nil, fun _ hx => by simp at hx, by simp⟩
  constructor
  · cases hr : resolveDependencies b with
    | ok sorted => exact Or.inl ⟨sorted, rfl⟩
    | thrown e => exact Or.inr ⟨e, rfl⟩
    | outOfFuel => exact absurd hr (resolveDependencies_fuel b)
  · intro fuel hfuel
    obtain ⟨k, rfl⟩ : ∃ k, fuel = b.modules.length + 1 + k :=
      ⟨fuel - (b.modules.length + 1), by omega⟩
    have heq := visitAll_fuel_add b (b.modules.length + 1) k (JsMap.keys b.modules)
      { visited := [], visiting := [], sorted := [] } hbase
    exact ⟨by rw [heq]; exact hbase, heq⟩

/-- The claim C26 at the cyclic registry, with fuel 7. -/
theorem resolveDependencies_terminates_witness :
    cycleBundler.modules.length + 1 ≤ 7 ∧
    visitAll cycleBundler 7 (JsMap.keys cycleBundler.modules)
      { visited := [], visiting := [], sorted := [] } ≠ .outOfFuel ∧
    visitAll cycleBundler 7 (JsMap.keys cycleBundler.modules)
      { visited := [], visiting := [], sorted := [] }
      = visitAll cycleBundler (cycleBundler.modules.length + 1)
          (JsMap.keys cycleBundler.modules) { visited := [], visiting := [], sorted := [] } :=
  ⟨by decide, (resolveDependencies_terminates cycleBundler).2 7 (by decide)⟩

/-! ### Registration order -/

theorem visitDeps_all_done (b : SimpleBundler) (fuel : Nat) (st : ResolveState) :
    ∀ (deps : List String), (∀ d ∈ deps, Done b st d) →
      visitDeps b (visit b (fuel + 1)) deps st = .ok st := by
  intro deps
  induction deps with
  | nil => intro _; simp [visitDeps]
  | cons dep rest ih =>
    intro h
    obtain ⟨h1, h2, h3⟩ := h dep (List.mem_cons_self _ _)
    have hv : visit b (fuel + 1) dep st = .ok st := by
      simp [visit, JsSet.has, h2, h3]
    simp only [visitDeps, h1, Bool.not_true, Bool.false_eq_true, if_false, hv]
    exact ih (fun d hd => h d (List.mem_cons_of_mem _ hd))

/-- A module whose dependencies are all visited, visited from the top level,
is appended to `sorted`. -/
theorem visit_ready (b : SimpleBundler) (fuel : Nat) (name : String)
    (visited sorted : List String) (hname : name ∉ visited)
    (hdeps : ∀ d ∈ depsOf b name, JsMap.has b.modules d = true ∧ d ∈ visited) :
    visit b (fuel + 2) name { visited := visited, visiting := [], sorted := sorted }
      = .ok { visited := visited ++ [name], visiting := [], sorted := sorted ++ [name] } := by
  have hc : List.contains visited name = false := by simpa using hname
  have hdone : ∀ d ∈ depsOf b name,
      Done b { visited := visited, visiting := [name], sorted := sorted } d := by
    intro d hd
    obtain ⟨h1, h2⟩ := hdeps d hd
    refine ⟨h1, h2, ?_⟩
    simp only [List.mem_singleton]
    intro e
    exact hname (e ▸ h2)
  have hloop := visitDeps_all_done b fuel
    { visited := visited, visiting := [name], sorted := sorted } (depsOf b name) hdone
  rw [visit.eq_def]
  simp only [JsSet.has, JsSet.add, hc, List.contains_nil, Bool.false_eq_true, if_false,
    List.nil_append, hloop, JsSet.delete]
  simp

theorem visitAll_in_order (b : SimpleBundler) (fuel : Nat) :
    ∀ (rest pre : List String), (pre ++ rest).Nodup → DepsBefore b (pre ++ rest) →
      (∀ x ∈ pre ++ rest, JsMap.has b.modules x = true) →
      visitAll b (fuel + 2) rest { visited := pre, visiting := [], sorted := pre }
        = .ok { visited := pre ++ rest, visiting := [], sorted := pre ++ rest } := by
  intro rest
  induction rest with
  | nil => intro pre _ _ _; simp [visitAll]
  | cons name rest ih =>
    intro pre hnd hord hreg
    have hname : name ∉ pre := by
      intro hm
      have := (List.nodup_append.mp hnd).2.2
      exact this hm (List.mem_cons_self _ _)
    have hdeps : ∀ d ∈ depsOf b name, JsMap.has b.modules d = true ∧ d ∈ pre := by
      intro d hd
      have hj : (pre ++ name :: rest)[pre.length]? = some name := by
        rw [List.getElem?_append_right (Nat.le_refl _)]
        simp
      obtain ⟨i, hi, hget⟩ := hord pre.length name hj d hd
      rw [List.getElem?_append_left hi] at hget
      have hmem : d ∈ pre := List.getElem?_mem hget
      exact ⟨hreg d (List.mem_append_left _ hmem), hmem⟩
    simp only [visitAll, visit_ready b fuel name pre pre hname hdeps]
    have hassoc : pre ++ name :: rest = (pre ++ [name]) ++ rest := by simp
    rw [hassoc] at hnd hord hreg ⊢
    exact ih (pre ++ [name]) hnd hord hreg

/-- C27: when the keys of the registry, in their order, have every
dependency of a module before the module, `resolveDependencies` returns the
keys in their order, which is the order of registration. -/
theorem resolveDependencies_registration_order (b : SimpleBundler)
    (hnd : (JsMap.keys b.modules).Nodup) (hord : DepsBefore b (JsMap.keys b.modules)) :
    resolveDependencies b = .ok (JsMap.keys b.modules) := by
  unfold resolveDependencies
  cases hm : b.modules with
  | nil => simp [JsMap.keys, visitAll]
  | cons e rest =>
    have h := visitAll_in_order b rest.length (JsMap.keys b.modules) [] (by simpa using hnd)
      (by simpa using hord) (fun x hx => (JsMap.has_iff_mem_keys _ _).mpr (by simpa using hx))
    rw [hm] at h
    simp only [List.length_cons, List.nil_append] at h ⊢
    rw [h]

theorem demoBundler_ordered :
    DepsBefore demoBundler (JsMap.keys demoBundler.modules) := by
  have h := (resolveDependencies_post demoBundler ["utils", "math", "main"] (by decide)).2.1
  have hk : JsMap.keys demoBundler.modules = ["utils", "math", "main"] := by decide
  rw [hk]
  exact h

/-- The claim C27 at the registry of the demonstration. -/
theorem resolveDependencies_registration_order_witness :
    (JsMap.keys demoBundler.modules).Nodup ∧
    DepsBefore demoBundler (JsMap.keys demoBundler.modules) ∧
    JsMap.keys demoBundler.modules = ["utils", "math", "main"] ∧
    resolveDependencies demoBundler = .ok (JsMap.keys demoBundler.modules) :=
  ⟨by decide, demoBundler_ordered, by decide,
    resolveDependencies_registration_order demoBundler (by decide) demoBundler_ordered⟩

end SimpleBundler

/-! ### Repeated ids in a dependency list -/

namespace JsMap

variable {α : Type}

theorem set_set (m : JsMap α) (k : String) (v w : α) : set (set m k v) k w = set m k w := by
  induction m with
  | nil => simp [set]
  | cons e rest ih =>
    obtain ⟨k2, v2⟩ := e
    by_cases h : k2 = k
    · simp [set, h]
    · simp [set, h, ih]

end JsMap

namespace SimpleBundler

theorem visitDeps_visited_mono (b : SimpleBundler)
    (visitRec : String → ResolveState → Run ResolveState)
    (hrec : ∀ d st st1, visitRec d st = .ok st1 → ∀ x ∈ st.visited, x ∈ st1.visited) :
    ∀ (deps : List String) (st st1 : ResolveState),
      visitDeps b visitRec deps st = .ok st1 → ∀ x ∈ st.visited, x ∈ st1.visited := by
  intro deps
  induction deps with
  | nil =>
    intro st st1 h
    simp only [visitDeps, Run.ok.injEq] at h
    subst h
    exact fun _ hx => hx
  | cons dep rest ih =>
    intro st st1 h
    simp only [visitDeps] at h
    split at h
    · exact absurd h (by simp)
    · split at h
      · rename_i st2 hst2
        exact fun x hx => ih st2 st1 h x (hrec dep st st2 hst2 x hx)
      · exact absurd h (by simp)
      · exact absurd h (by simp)

/-- A successful `visit` only adds to the visited set, and leaves the module
it visited in that set and out of the in-progress set. -/
theorem visit_done (b : SimpleBundler) :
    ∀ (fuel : Nat) (name : String) (st st1 : ResolveState),
      visit b fuel name st = .ok st1 →
      (∀ x ∈ st.visited, x ∈ st1.visited) ∧ name ∈ st1.visited ∧
        name ∉ st1.visiting := by
  intro fuel
  induction fuel with
  | zero => intro name st st1 h; simp [visit] at h
  | succ fuel ih =>
    intro name st st1 h
    have hvis := visit_visiting b (fuel + 1) name st st1 h
    simp only [visit] at h
    split at h
    · exact absurd h (by simp)
    · rename_i hnotvisiting
      have hnv : name ∉ st1.visiting := by
        rw [hvis]
        exact fun hm => hnotvisiting ((JsSet.has_iff _ _).mpr hm)
      split at h
      · rename_i hvisited
        simp only [Run.ok.injEq] at h
        subst h
        exact ⟨fun _ hx => hx, (JsSet.has_iff _ _).mp hvisited, hnv⟩
      · split at h
        · rename_i st2 hst2
          simp only [Run.ok.injEq] at h
          subst h
          have hmono := visitDeps_visited_mono b (visit b fuel)
            (fun d s s1 hs => (ih d s s1 hs).1) _ _ _ hst2
          refine ⟨?_, (JsSet.mem_add _ _ _).mpr (Or.inr rfl), hnv⟩
          intro x hx
          exact (JsSet.mem_add _ _ _).mpr (Or.inl (hmono x hx))
        · exact absurd h (by simp)
        · exact absurd h (by simp)

theorem visit_of_done (b : SimpleBundler) (fuel : Nat) (st : ResolveState) (d : String)
    (h : Done b st d) : visit b (fuel + 1) d st = .ok st := by
  obtain ⟨_, h2, h3⟩ := h
  simp [visit, JsSet.has, h2, h3]

/-- The loop over a dependency list ends the same way on the list without
the ids already done and without repeats. -/
theorem visitDeps_removeRepeatsFrom (b : SimpleBundler) (fuel : Nat) :
    ∀ (deps seen : List String) (st : ResolveState), (∀ d ∈ seen, Done b st d) →
      visitDeps b (visit b (fuel + 1)) (removeRepeatsFrom seen deps) st
        = visitDeps b (visit b (fuel + 1)) deps st := by
  intro deps
  induction deps with
  | nil => intro seen st _; simp [removeRepeatsFrom]
  | cons dep rest ih =>
    intro seen st hseen
    by_cases hd : dep ∈ seen
    · have hdone := hseen dep hd
      simp only [removeRepeatsFrom, hd, if_true, visitDeps, hdone.1, Bool.not_true,
        Bool.false_eq_true, if_false, visit_of_done b fuel st dep hdone]
      exact ih seen st hseen
    · simp only [removeRepeatsFrom, hd, if_false, visitDeps]
      split
      · rfl
      · rename_i hhas
        have hreg : JsMap.has b.modules dep = true := by simpa using hhas
        cases hv : visit b (fuel + 1) dep st with
        | ok st1 =>
          simp only
          have hvis := visit_visiting b (fuel + 1) dep st st1 hv
          obtain ⟨hmono, h2, h3⟩ := visit_done b (fuel + 1) dep st st1 hv
          apply ih (dep :: seen) st1
          intro d hdm
          rcases List.mem_cons.mp hdm with rfl | hdm
          · exact ⟨hreg, h2, h3⟩
          · obtain ⟨k1, k2, k3⟩ := hseen d hdm
            exact ⟨k1, hmono d k2, by rw [hvis]; exact k3⟩
        | thrown e => rfl
        | outOfFuel => rfl

theorem visitDeps_removeRepeats (b : SimpleBundler) (fuel : Nat) (deps : List String)
    (st : ResolveState) :
    visitDeps b (visit b fuel) (removeRepeats deps) st = visitDeps b (visit b fuel) deps st := by
  cases fuel with
  | zero =>
    cases deps with
    | nil => simp [removeRepeats, removeRepeatsFrom]
    | cons d rest => simp [removeRepeats, removeRepeatsFrom, visitDeps, visit]
  | succ fuel =>
    exact visitDeps_removeRepeatsFrom b fuel deps [] st (fun _ hd => by simp at hd)

theorem visitDeps_congr_modules (b1 b2 : SimpleBundler) (hm : b1.modules = b2.modules)
    (visitRec : String → ResolveState → Run ResolveState) :
    ∀ (deps : List String) (st : ResolveState),
      visitDeps b1 visitRec deps st = visitDeps b2 visitRec deps st := by
  intro deps
  induction deps with
  | nil => intro st; simp [visitDeps]
  | cons dep rest ih =>
    intro st
    simp only [visitDeps, hm, ih]

/-- Two registries with the same modules, whose dependency lists are equal up
to the removal of repeats, are visited the same way. -/
theorem visit_congr_repeats (b1 b2 : SimpleBundler) (hm : b1.modules = b2.modules)
    (hdeps : ∀ x, depsOf b1 x = depsOf b2 x ∨ depsOf b1 x = removeRepeats (depsOf b2 x)) :
    ∀ (fuel : Nat) (name : String) (st : ResolveState),
      visit b1 fuel name st = visit b2 fuel name st := by
  intro fuel
  induction fuel with
  | zero => intro name st; simp [visit]
  | succ fuel ih =>
    intro name st
    have hfun : visit b1 fuel = visit b2 fuel := by
      funext n s
      exact ih n s
    have hloop : ∀ s, visitDeps b1 (visit b1 fuel) (depsOf b1 name) s
        = visitDeps b2 (visit b2 fuel) (depsOf b2 name) s := by
      intro s
      rw [hfun, visitDeps_congr_modules b1 b2 hm]
      rcases hdeps name with h | h
      · rw [h]
      · rw [h, visitDeps_removeRepeats]
    simp only [visit, hloop]

theorem visitAll_congr (b1 b2 : SimpleBundler) (fuel : Nat)
    (h : ∀ name st, visit b1 fuel name st = visit b2 fuel name st) :
    ∀ (names : List String) (st : ResolveState),
      visitAll b1 fuel names st = visitAll b2 fuel names st := by
  intro names
  induction names with
  | nil => intro st; simp [visitAll]
  | cons name rest ih =>
    intro st
    simp only [visitAll, h, ih]

theorem resolveDependencies_congr_repeats (b1 b2 : SimpleBundler)
    (hm : b1.modules = b2.modules)
    (hdeps : ∀ x, depsOf b1 x = depsOf b2 x ∨ depsOf b1 x = removeRepeats (depsOf b2 x)) :
    resolveDependencies b1 = resolveDependencies b2 := by
  unfold resolveDependencies
  rw [visitAll_congr b1 b2 _ (visit_congr_repeats b1 b2 hm hdeps _), hm]

theorem depsOf_collapseRepeats (b : SimpleBundler) (m x : String) :
    depsOf (collapseRepeats b m) x = depsOf b x ∨
      depsOf (collapseRepeats b m) x = removeRepeats (depsOf b x) := by
  by_cases hx : x = m
  · subst hx
    right
    simp [depsOf, collapseRepeats, JsMap.get_set_self]
  · left
    simp [depsOf, collapseRepeats, JsMap.get_set_ne _ _ _ _ hx]

/-- C21: repeated ids in a dependency list have no effect. For every registry
and every module, replacing the dependency list of the module by the same
list without repeats, first occurrences kept, leaves the result of
`resolveDependencies` as it was, the returned order or the error thrown; so
does registering a module with the list without repeats in the first place. -/
theorem resolveDependencies_collapseRepeats (b : SimpleBundler) (m : String) :
    resolveDependencies (collapseRepeats b m) = resolveDependencies b ∧
    (∀ (code : String) (deps : List String),
      resolveDependencies (addModule b m code (removeRepeats deps))
        = resolveDependencies (addModule b m code deps)) := by
  refine ⟨resolveDependencies_congr_repeats _ _ rfl (depsOf_collapseRepeats b m), ?_⟩
  intro code deps
  have h : addModule b m code (removeRepeats deps)
      = collapseRepeats (addModule b m code deps) m := by
    simp [collapseRepeats, addModule, depsOf, JsMap.get_set_self, JsMap.set_set]
  rw [h]
  exact resolveDependencies_congr_repeats _ _ rfl (depsOf_collapseRepeats _ m)

/-- The registry in which `main` lists `utils` three times and `math` twice
resolves to the order of the registry without the repeats. -/
theorem repeatedBundler_order :
    removeRepeats ["utils", "math", "utils", "math", "utils"] = ["utils", "math"] ∧
    resolveDependencies repeatedBundler = .ok ["utils", "math", "main"] ∧
    resolveDependencies (collapseRepeats repeatedBundler "main")
      = .ok ["utils", "math", "main"] := by
  decide

end SimpleBundler

/-! ## The loader after an error, and the shaker under more marks -/

namespace Loader

theorem requireAll_stable (modules : JsMap (List Instr)) (hm : LeavesCache modules)
    (fuel : Nat) :
    ∀ (names : List String) (s s1 : Loader),
      requireAll modules fuel names s = some s1 → Stable s s1 := by
  intro names
  induction names with
  | nil =>
    intro s s1 h
    simp only [requireAll, Option.some.injEq] at h
    subst h
    exact Stable.of_cache_eq rfl
  | cons name rest ih =>
    intro s s1 h
    simp only [requireAll] at h
    cases hst : stateAfter (require modules fuel name s) with
    | none => rw [hst] at h; simp at h
    | some s2 =>
      rw [hst] at h
      exact Stable.andThen (require_stable modules hm fuel name s s2 hst) (ih s2 s1 h)

/-- A `require` that finds a truthy `cache[name]` returns it and changes
nothing but the record of returned calls. -/
theorem require_hit (modules : JsMap (List Instr)) (fuel : Nat) (name : String)
    (s : Loader) (v : JsValue) (hv : cacheRead s name = v) (ht : v.truthy = true) :
    require modules (fuel + 1) name s
      = .ok v { s with returned := s.returned ++ [(name, v)] } := by
  subst hv
  simp [require, ht]

/-- A `require` that throws leaves the record it allocated in the cache, when
no body writes to `cache`. -/
theorem require_thrown (modules : JsMap (List Instr)) (hm : LeavesCache modules)
    (fuel : Nat) (name : String)
    (s s1 : Loader) (e : JsError) (h : require modules fuel name s = .thrown e s1) :
    JsMap.get s.cache name = none ∧ cacheRead s1 name = .record s.heap.length ∧
    (JsMap.get modules name = none →
      e = undefinedModuleError ∧ s1.heap[s.heap.length]? = some [] ∧
      s1.executed = s.executed) := by
  cases fuel with
  | zero => simp [require] at h
  | succ fuel =>
    simp only [require] at h
    split at h
    · simp at h
    · rename_i hmiss
      have hmiss1 : (cacheRead s name).truthy = false := by simpa using hmiss
      refine ⟨(cacheRead_miss hmiss1).1, ?_⟩
      split at h
      · rename_i hnone
        simp only [LoadRun.thrown.injEq] at h
        obtain ⟨he, hs⟩ := h
        subst hs
        exact ⟨cacheRead_set_self _ s.cache name _ rfl, fun _ => ⟨he.symm, by simp, rfl⟩⟩
      · rename_i body hbody
        have hself : cacheRead (enter s name) name = .record s.heap.length :=
          cacheRead_set_self _ s.cache name _ rfl
        cases hrun : runBody (require modules fuel) body (entryFrame s) (enter s name) with
        | ok u s2 => rw [hrun] at h; simp [finish] at h
        | outOfFuel => rw [hrun] at h; simp [finish] at h
        | thrown e2 s2 =>
          rw [hrun] at h
          simp only [finish, LoadRun.thrown.injEq] at h
          obtain ⟨_, hs⟩ := h
          subst hs
          have hst := runBody_stable (require modules fuel) (require_stable modules hm fuel)
            body (entryFrame s) (enter s name) s2 (hm.body hbody) (by rw [hrun]; rfl)
          refine ⟨?_, fun hnone => ?_⟩
          · rw [hst name (by rw [hself]; rfl), hself]
          · rw [hnone] at hbody
            exact absurd hbody (by simp)

/-- C28, as stated, fails twice. The body of `bad` in `deletingModules` is
`this.ready = 1; delete cache['bad']; throw new Error('boom');`: the first
`require("bad")` raises and leaves no cache entry, and the second call runs
the body again and raises again. And with the body
`this.ready = 1; throw new Error('boom');` of `failingModules`, the record
that stays in the cache is not empty: it holds the field `ready`. -/
theorem failed_body_runs_again :
    (∃ s1 s2, require deletingModules 2 "bad" init = .thrown ⟨"boom"⟩ s1 ∧
      s1.cache = [] ∧ s1.executed = ["bad"] ∧
      require deletingModules 2 "bad" s1 = .thrown ⟨"boom"⟩ s2 ∧
      s2.executed = ["bad", "bad"] ∧ s2.cache = []) ∧
    require failingModules 3 "bad" init = .thrown ⟨"boom"⟩ failedState ∧
    JsMap.get failedState.cache "bad" = some 0 ∧
    failedState.heap[0]? = some [("ready", .number 1)] :=
  ⟨⟨_, _, rfl, rfl, rfl, rfl, rfl, rfl⟩, rfl, rfl, rfl⟩

/-- C28, amended: when no body of the table writes to `cache` and a call
`require(id)` throws, because the body throws or because no body is defined
under `id`, the record that the call allocated stays in the cache, empty when
no body is defined and otherwise as the body left it; after any further
calls of `require`, every call `require(id)` returns that record, throws
nothing, and changes nothing but the record of returned calls: no body is
run. -/
theorem failed_require_keeps_record (modules : JsMap (List Instr))
    (hm : LeavesCache modules) (fuel : Nat)
    (id : String) (s s1 : Loader) (e : JsError)
    (h : require modules fuel id s = .thrown e s1) :
    JsMap.get s.cache id = none ∧
    JsMap.get s1.cache id = some s.heap.length ∧
    (JsMap.get modules id = none →
      e = undefinedModuleError ∧ s1.heap[s.heap.length]? = some [] ∧
      s1.executed = s.executed) ∧
    (∀ (later : List String) (fuel2 : Nat) (s2 : Loader),
      requireAll modules fuel2 later s1 = some s2 →
      ∀ fuel3 : Nat, require modules (fuel3 + 1) id s2
        = .ok (.record s.heap.length)
            { s2 with returned := s2.returned ++ [(id, .record s.heap.length)] }) := by
  obtain ⟨h1, h2, h3⟩ := require_thrown modules hm fuel id s s1 e h
  refine ⟨h1, (cacheRead_record_iff _ _ _).mp h2, h3, ?_⟩
  intro later fuel2 s2 hlater fuel3
  have hst := requireAll_stable modules hm fuel2 later s1 s2 hlater
  have hread : cacheRead s2 id = .record s.heap.length := by
    rw [hst id (by rw [h2]; rfl), h2]
  exact require_hit modules fuel3 id s2 _ hread rfl

/-- The amended C28 at the module `bad` of `failingModules`, whose body
assigns a field and then throws. -/
theorem failed_require_keeps_record_witness :
    LeavesCache failingModules ∧
    require failingModules 3 "bad" init = .thrown ⟨"boom"⟩ failedState ∧
    (JsMap.get init.cache "bad" = none ∧
    JsMap.get failedState.cache "bad" = some init.heap.length ∧
    (JsMap.get failingModules "bad" = none →
      (⟨"boom"⟩ : JsError) = undefinedModuleError ∧
      failedState.heap[init.heap.length]? = some [] ∧
      failedState.executed = init.executed) ∧
    (∀ (later : List String) (fuel2 : Nat) (s2 : Loader),
      requireAll failingModules fuel2 later failedState = some s2 →
      ∀ fuel3 : Nat, require failingModules (fuel3 + 1) "bad" s2
        = .ok (.record init.heap.length)
            { s2 with returned := s2.returned ++ [("bad", .record init.heap.length)] })) :=
  ⟨by decide, by decide,
    failed_require_keeps_record failingModules (by decide) 3 "bad" init failedState
      ⟨"boom"⟩ (by decide)⟩

end Loader

namespace TreeShaker

theorem readInfo_of_same (heap heap1 : ShakerHeap) (address : Nat) (info : ModuleInfo)
    (h : readInfo heap address = some info)
    (hsame : ∀ (a : Nat) (obj : ShakerObject), heap[a]? = some obj →
      (∀ es, obj ≠ .map es) → heap1[a]? = some obj) :
    readInfo heap1 address = some info := by
  unfold readInfo at h ⊢
  cases h1 : heap[address]? with
  | none => rw [h1] at h; simp at h
  | some obj =>
    rw [h1] at h
    cases obj with
    | moduleInfo exports code =>
      simp only at h
      cases h2 : heap[exports]? with
      | none => rw [h2] at h; simp at h
      | some obj2 =>
        rw [h2] at h
        cases obj2 with
        | array items =>
          simp only [hsame address _ h1 (fun _ hne => by simp at hne),
            hsame exports _ h2 (fun _ hne => by simp at hne)]
          exact h
        | moduleInfo _ _ => simp at h
        | map _ => simp at h
        | set _ => simp at h
    | array _ => simp at h
    | map _ => simp at h
    | set _ => simp at h

theorem readEntries_of_same (heap heap1 : ShakerHeap)
    (hsame : ∀ (a : Nat) (obj : ShakerObject), heap[a]? = some obj →
      (∀ es, obj ≠ .map es) → heap1[a]? = some obj) :
    ∀ (entries : JsMap Nat) (infos : JsMap ModuleInfo),
      readEntries heap entries = some infos → readEntries heap1 entries = some infos := by
  intro entries
  induction entries with
  | nil => intro infos h; exact h
  | cons e rest ih =>
    intro infos h
    obtain ⟨name, address⟩ := e
    simp only [readEntries] at h ⊢
    cases h1 : readInfo heap address with
    | none => rw [h1] at h; simp at h
    | some info =>
      cases h2 : readEntries heap rest with
      | none => rw [h1, h2] at h; simp at h
      | some others =>
        rw [h1, h2] at h
        rw [readInfo_of_same heap heap1 address info h1 hsame, ih others h2]
        exact h

theorem readEntries_set (heap : ShakerHeap) (name : String) (address : Nat)
    (info : ModuleInfo) (hinfo : readInfo heap address = some info) :
    ∀ (entries : JsMap Nat) (infos : JsMap ModuleInfo),
      readEntries heap entries = some infos →
      readEntries heap (JsMap.set entries name address)
        = some (JsMap.set infos name info) := by
  intro entries
  induction entries with
  | nil =>
    intro infos h
    simp only [readEntries, Option.some.injEq] at h
    subst h
    simp [JsMap.set, readEntries, hinfo]
  | cons e rest ih =>
    intro infos h
    obtain ⟨name2, address2⟩ := e
    simp only [readEntries] at h
    cases h1 : readInfo heap address2 with
    | none => rw [h1] at h; simp at h
    | some info2 =>
      cases h2 : readEntries heap rest with
      | none => rw [h1, h2] at h; simp at h
      | some others =>
        rw [h1, h2] at h
        simp only [Option.some.injEq] at h
        subst h
        by_cases hn : name2 = name
        · simp [JsMap.set, hn, readEntries, hinfo, h2]
        · simp [JsMap.set, hn, readEntries, h1, ih others h2]

/-- The loop of `shake` on the heap writes to no object that existed before
the call, and leaves in the map at `result` what the loop of `shake` computes
from the contents. -/
theorem shakeLoopOnHeap_frame (this : Instance) (t : TreeShaker) (result : Nat)
    (before : ShakerHeap) (hresult : before.length ≤ result)
    (hused : before[this.usedExports]? = some (.set t.usedExports)) :
    ∀ (rest : JsMap Nat) (infos : JsMap ModuleInfo) (heap : ShakerHeap)
      (entries : JsMap Nat) (kept : JsMap ModuleInfo),
      readEntries before rest = some infos →
      (∀ a, a < before.length → heap[a]? = before[a]?) →
      heap[result]? = some (.map entries) →
      readEntries heap entries = some kept →
      ∃ heap1 entries1, shakeLoopOnHeap this result rest heap = some heap1 ∧
        (∀ a, a < before.length → heap1[a]? = before[a]?) ∧
        heap1[result]? = some (.map entries1) ∧
        readEntries heap1 entries1 = some (shakeLoop t infos kept) := by
  intro rest
  induction rest with
  | nil =>
    intro infos heap entries kept hrest hframe hres hkept
    simp only [readEntries, Option.some.injEq] at hrest
    subst hrest
    exact ⟨heap, entries, rfl, hframe, hres, hkept⟩
  | cons e rest ih =>
    intro infos heap entries kept hrest hframe hres hkept
    obtain ⟨moduleName, address⟩ := e
    simp only [readEntries] at hrest
    cases h1 : readInfo before address with
    | none => rw [h1] at hrest; simp at hrest
    | some info =>
      cases h2 : readEntries before rest with
      | none => rw [h1, h2] at hrest; simp at hrest
      | some others =>
        rw [h1, h2] at hrest
        simp only [Option.some.injEq] at hrest
        subst hrest
        have hlt : ∀ {a : Nat} {obj : ShakerObject}, before[a]? = some obj →
            a < before.length := by
          intro a obj ha
          by_contra hge
          rw [List.getElem?_eq_none (by omega)] at ha
          simp at ha
        have hreslt : result < heap.length := by
          by_contra hge
          rw [List.getElem?_eq_none (by omega)] at hres
          simp at hres
        unfold readInfo at h1
        cases h3 : before[address]? with
        | none => rw [h3] at h1; simp at h1
        | some obj =>
          rw [h3] at h1
          cases obj with
          | array _ => simp at h1
          | map _ => simp at h1
          | set _ => simp at h1
          | moduleInfo exports code =>
            simp only at h1
            cases h4 : before[exports]? with
            | none => rw [h4] at h1; simp at h1
            | some obj2 =>
              rw [h4] at h1
              cases obj2 with
              | moduleInfo _ _ => simp at h1
              | map _ => simp at h1
              | set _ => simp at h1
              | array items =>
                simp only [Option.some.injEq] at h1
                subst h1
                have g3 : heap[address]? = some (.moduleInfo exports code) := by
                  rw [hframe address (hlt h3), h3]
                have g4 : heap[exports]? = some (.array items) := by
                  rw [hframe exports (hlt h4), h4]
                have g5 : heap[this.usedExports]? = some (.set t.usedExports) := by
                  rw [hframe _ (hlt hused), hused]
                simp only [shakeLoopOnHeap, g3, g4, g5, shakeLoop, usedExportsInModule]
                split
                · rename_i hpos
                  have hr2 : ∀ (x y : ShakerObject),
                      (heap ++ [x] ++ [y])[result]? = some (.map entries) := by
                    intro x y
                    rw [List.getElem?_append_left (by simp; omega),
                      List.getElem?_append_left hreslt, hres]
                  rw [hr2]
                  simp only
                  apply ih
                  · exact h2
                  · intro a ha
                    rw [List.getElem?_set_ne (by omega),
                      List.getElem?_append_left (by simp; omega),
                      List.getElem?_append_left (by omega)]
                    exact hframe a ha
                  · rw [List.getElem?_set_self (by simp; omega)]
                  · apply readEntries_set
                    · unfold readInfo
                      rw [List.getElem?_set_ne (by simp; omega)]
                      simp only [List.length_append, List.length_singleton]
                      rw [List.getElem?_append_right (by simp)]
                      simp only [List.length_append, List.length_singleton, Nat.sub_self,
                        List.getElem?_cons_zero]
                      rw [List.getElem?_set_ne (by omega),
                        List.getElem?_append_left (by simp),
                        List.getElem?_append_right (Nat.le_refl _)]
                      simp
                    · apply readEntries_of_same heap _ _ entries kept hkept
                      intro a obj ha hne
                      have halt : a < heap.length := by
                        by_contra hge
                        rw [List.getElem?_eq_none (by omega)] at ha
                        simp at ha
                      have har : a ≠ result := by
                        intro e
                        rw [e, hres] at ha
                        simp only [Option.some.injEq] at ha
                        exact hne entries ha.symm
                      rw [List.getElem?_set_ne (fun e => har e.symm),
                        List.getElem?_append_left (by simp; omega),
                        List.getElem?_append_left halt]
                      exact ha
                · apply ih
                  · exact h2
                  · intro a ha
                    rw [List.getElem?_append_left (by omega)]
                    exact hframe a ha
                  · rw [List.getElem?_append_left hreslt]
                    exact hres
                  · apply readEntries_of_same heap _ _ entries kept hkept
                    intro a obj ha _
                    have halt : a < heap.length := by
                      by_contra hge
                      rw [List.getElem?_eq_none (by omega)] at ha
                      simp at ha
                    rw [List.getElem?_append_left halt]
                    exact ha

theorem readShaker_of_frame (before heap : ShakerHeap) (this : Instance) (t : TreeShaker)
    (h : readShaker before this = some t)
    (hframe : ∀ a, a < before.length → heap[a]? = before[a]?) :
    readShaker heap this = some t := by
  have hsame : ∀ (a : Nat) (obj : ShakerObject),
      before[a]? = some obj → heap[a]? = some obj := by
    intro a obj ha
    have halt : a < before.length := by
      by_contra hge
      rw [List.getElem?_eq_none (by omega)] at ha
      simp at ha
    rw [hframe a halt, ha]
  unfold readShaker readMap at h ⊢
  cases h1 : before[this.usedExports]? with
  | none => rw [h1] at h; simp at h
  | some obj =>
    cases h2 : before[this.modules]? with
    | none => rw [h1, h2] at h; cases obj <;> simp at h
    | some obj2 =>
      rw [h1, h2] at h
      rw [hsame _ _ h1, hsame _ _ h2]
      cases obj2 with
      | map entries =>
        simp only at h ⊢
        cases h3 : readEntries before entries with
        | none => rw [h3] at h; cases obj <;> simp at h
        | some infos =>
          rw [h3] at h
          rw [readEntries_of_same before heap (fun a o ha _ => hsame a o ha) entries infos h3]
          exact h
      | array _ => cases obj <;> simp at h
      | moduleInfo _ _ => cases obj <;> simp at h
      | set _ => cases obj <;> simp at h

/-- One call of `shake` on the heap, from a heap that holds the shaker `t`. -/
theorem shakeOnHeap_frame (heap : ShakerHeap) (this : Instance) (t : TreeShaker)
    (h : readShaker heap this = some t) :
    ∃ heap1, shakeOnHeap this heap = some (heap.length, heap1) ∧
      (∀ a, a < heap.length → heap1[a]? = heap[a]?) ∧
      readShaker heap1 this = some t ∧
      readMap heap1 heap.length = some (shake t) := by
  have h0 := h
  unfold readShaker readMap at h
  cases h1 : heap[this.usedExports]? with
  | none => rw [h1] at h; simp at h
  | some obj =>
    cases h2 : heap[this.modules]? with
    | none => rw [h1, h2] at h; cases obj <;> simp at h
    | some obj2 =>
      rw [h1, h2] at h
      cases obj2 with
      | array _ => cases obj <;> simp at h
      | moduleInfo _ _ => cases obj <;> simp at h
      | set _ => cases obj <;> simp at h
      | map entries =>
        simp only at h
        cases h3 : readEntries heap entries with
        | none => rw [h3] at h; cases obj <;> simp at h
        | some infos =>
          rw [h3] at h
          cases obj with
          | array _ => simp at h
          | moduleInfo _ _ => simp at h
          | map _ => simp at h
          | set used =>
            simp only [Option.some.injEq] at h
            subst h
            obtain ⟨heap1, entries1, hrun, hframe, hres, hread⟩ :=
              shakeLoopOnHeap_frame this { usedExports := used, modules := infos }
                heap.length heap (Nat.le_refl _) h1 entries infos (heap ++ [.map []]) [] []
                h3 (fun a ha => List.getElem?_append_left ha)
                (by rw [List.getElem?_append_right (Nat.le_refl _)]; simp) rfl
            refine ⟨heap1, ?_, hframe, readShaker_of_frame heap heap1 this _ h0 hframe, ?_⟩
            · simp [shakeOnHeap, h2, hrun]
            · unfold readMap
              rw [hres]
              exact hread

/-- C22: a call of `shake` writes to no object that existed before the call:
the set of exports marked used, the map of registered modules, the records
and the arrays of exports are afterwards what they were, and the map returned
is a new object that holds the pruned modules. A second call therefore finds
the same shaker, returns another new map with the same contents, and leaves
the first result as it was. -/
theorem shake_leaves_state (heap : ShakerHeap) (this : Instance) (t : TreeShaker)
    (h : readShaker heap this = some t) :
    ∃ heap1, shakeOnHeap this heap = some (heap.length, heap1) ∧
      (∀ a, a < heap.length → heap1[a]? = heap[a]?) ∧
      readShaker heap1 this = some t ∧
      readMap heap1 heap.length = some (shake t) ∧
      ∃ heap2, shakeOnHeap this heap1 = some (heap1.length, heap2) ∧
        (∀ a, a < heap.length → heap2[a]? = heap[a]?) ∧
        readShaker heap2 this = some t ∧
        readMap heap2 heap1.length = some (shake t) ∧
        readMap heap2 heap.length = readMap heap1 heap.length := by
  obtain ⟨heap1, hrun, hframe, hshaker, hmap⟩ := shakeOnHeap_frame heap this t h
  obtain ⟨heap2, hrun2, hframe2, hshaker2, hmap2⟩ := shakeOnHeap_frame heap1 this t hshaker
  have hlen : heap.length < heap1.length := by
    by_contra hge
    unfold readMap at hmap
    rw [List.getElem?_eq_none (by omega)] at hmap
    simp at hmap
  refine ⟨heap1, hrun, hframe, hshaker, hmap, heap2, hrun2, ?_, hshaker2, hmap2, ?_⟩
  · intro a ha
    rw [hframe2 a (by omega), hframe a ha]
  · have hsame : ∀ (a : Nat) (obj : ShakerObject),
        heap1[a]? = some obj → heap2[a]? = some obj := by
      intro a obj ha
      have halt : a < heap1.length := by
        by_contra hge
        rw [List.getElem?_eq_none (by omega)] at ha
        simp at ha
      rw [hframe2 a halt, ha]
    rw [hmap]
    unfold readMap at hmap ⊢
    cases h1 : heap1[heap.length]? with
    | none => rw [h1] at hmap; simp at hmap
    | some obj =>
      rw [h1] at hmap
      rw [hsame _ _ h1]
      cases obj with
      | map entries =>
        simp only at hmap ⊢
        exact readEntries_of_same heap1 heap2 (fun a o ha _ => hsame a o ha) entries _ hmap
      | array _ => simp at hmap
      | moduleInfo _ _ => simp at hmap
      | set _ => simp at hmap

/-- The claim C22 at the heap of the demonstration, which holds the shaker
reached by the calls of the demonstration. -/
theorem shake_leaves_state_witness :
    readShaker demoHeap demoInstance = some (run demoCalls) ∧
    ∃ heap1, shakeOnHeap demoInstance demoHeap = some (demoHeap.length, heap1) ∧
      (∀ a, a < demoHeap.length → heap1[a]? = demoHeap[a]?) ∧
      readShaker heap1 demoInstance = some (run demoCalls) ∧
      readMap heap1 demoHeap.length = some (shake (run demoCalls)) ∧
      ∃ heap2, shakeOnHeap demoInstance heap1 = some (heap1.length, heap2) ∧
        (∀ a, a < demoHeap.length → heap2[a]? = demoHeap[a]?) ∧
        readShaker heap2 demoInstance = some (run demoCalls) ∧
        readMap heap2 heap1.length = some (shake (run demoCalls)) ∧
        readMap heap2 demoHeap.length = readMap heap1 demoHeap.length :=
  ⟨by decide, shake_leaves_state demoHeap demoInstance (run demoCalls) (by decide)⟩

theorem usedExportsInModule_mono (t1 t2 : TreeShaker)
    (h : ∀ k, k ∈ t1.usedExports → k ∈ t2.usedExports) (name : String) (info : ModuleInfo) :
    ∀ x ∈ usedExportsInModule t1 name info, x ∈ usedExportsInModule t2 name info := by
  intro x hx
  obtain ⟨h1, h2⟩ := List.mem_filter.mp hx
  exact List.mem_filter.mpr ⟨h1, (JsSet.has_iff _ _).mpr (h _ ((JsSet.has_iff _ _).mp h2))⟩

/-- C29: marking one more export as used prunes nothing. After any sequence
of calls, every module in the result of `shake` is in the result of `shake`
after one more `markUsed` call, and every export recorded for it before is
recorded for it after. -/
theorem markUsed_prunes_nothing (calls : List Call) (m e m0 : String) (kept : ModuleInfo)
    (h : JsMap.get (shake (run calls)) m0 = some kept) :
    ∃ kept2, JsMap.get (shake (markUsed (run calls) m e)) m0 = some kept2 ∧
      ∀ x ∈ kept.exports, x ∈ kept2.exports := by
  have hstep : markUsed (run calls) m e = run (calls ++ [.markUsed m e]) := by
    rw [run_snoc]; rfl
  have hmods : (run (calls ++ [.markUsed m e])).modules = (run calls).modules := by
    rw [run_snoc]; rfl
  have hused : ∀ k, k ∈ (run calls).usedExports →
      k ∈ (run (calls ++ [.markUsed m e])).usedExports := by
    intro k hk
    rw [run_snoc]
    exact (JsSet.mem_add _ _ _).mpr (Or.inl hk)
  rw [hstep, get_shake_run, hmods]
  rw [get_shake_run] at h
  cases hg : JsMap.get (run calls).modules m0 with
  | none => rw [hg] at h; simp at h
  | some info =>
    rw [hg] at h
    simp only [Option.some_bind, retain] at h ⊢
    split at h
    · rename_i hpos
      simp only [Option.map_some', Option.some.injEq] at h
      subst h
      have hmono := usedExportsInModule_mono (run calls) (run (calls ++ [.markUsed m e]))
        hused m0 info
      obtain ⟨x0, hx0⟩ := List.exists_mem_of_length_pos hpos
      have hpos2 :
          (usedExportsInModule (run (calls ++ [.markUsed m e])) m0 info).length > 0 :=
        List.length_pos_of_mem (hmono x0 hx0)
      simp only [hpos2, if_true, Option.map_some']
      exact ⟨_, rfl, hmono⟩
    · simp at h

/-- The claim C29 at the demonstration, with `reduce` of `lodash` marked in
addition. -/
theorem markUsed_prunes_nothing_witness :
    JsMap.get (shake (run demoCalls)) "lodash"
      = some { exports := ["map", "filter"]
               code := generateOptimizedCode "lodash完整代码..." ["map", "filter"] } ∧
    ∃ kept2, JsMap.get (shake (markUsed (run demoCalls) "lodash" "reduce")) "lodash"
        = some kept2 ∧
      ∀ x ∈ ["map", "filter"], x ∈ kept2.exports :=
  ⟨by decide, markUsed_prunes_nothing demoCalls "lodash" "reduce" "lodash"
    { exports := ["map", "filter"]
      code := generateOptimizedCode "lodash完整代码..." ["map", "filter"] } (by decide)⟩

end TreeShaker

/-! ## The resolver on a call stack of a given depth -/

namespace JsMap

variable {α : Type}

theorem get_append_single (m : JsMap α) (k x : String) (v : α) :
    get (m ++ [(k, v)]) x
      = match get m x with
        | some w => some w
        | none => if k = x then some v else none := by
  induction m with
  | nil => simp [get]
  | cons e rest ih =>
    obtain ⟨k2, v2⟩ := e
    by_cases h2 : k2 = x
    · simp [get, h2]
    · simp [get, h2, ih]

end JsMap

namespace SimpleBundler

theorem chainName_injective : Function.Injective chainName := by
  intro i j h
  have h1 : (chainName i).length = (chainName j).length := by rw [h]
  simpa [chainName, String.length] using h1

theorem chainName_not_mem_keys {α : Type} (f : Nat → α) (k j : Nat) (hj : k ≤ j) :
    chainName j ∉ JsMap.keys ((List.range k).map (fun i => (chainName i, f i))) := by
  intro hm
  simp only [JsMap.keys, List.map_map, List.mem_map, List.mem_range, Function.comp] at hm
  obtain ⟨i, hi, he⟩ := hm
  have := chainName_injective he
  omega

theorem get_chainEntries {α : Type} (f : Nat → α) :
    ∀ (k j : Nat), j < k →
      JsMap.get ((List.range k).map (fun i => (chainName i, f i))) (chainName j)
        = some (f j) := by
  intro k
  induction k with
  | zero => intro j hj; omega
  | succ k ih =>
    intro j hj
    rw [List.range_succ, List.map_append, List.map_singleton, JsMap.get_append_single]
    by_cases hjk : j < k
    · rw [ih j hjk]
    · have hjk2 : j = k := by omega
      subst hjk2
      rw [(JsMap.get_eq_none_iff _ _).mpr (chainName_not_mem_keys f j j (Nat.le_refl _))]
      simp

theorem chainUpTo_fields (n : Nat) :
    ∀ k : Nat,
      (chainUpTo n k).modules = (List.range k).map (fun i => (chainName i, "")) ∧
      (chainUpTo n k).dependencies
        = (List.range k).map (fun i => (chainName i, chainDeps n i)) := by
  intro k
  induction k with
  | zero => exact ⟨rfl, rfl⟩
  | succ k ih =>
    obtain ⟨h1, h2⟩ := ih
    simp only [chainUpTo, addModule]
    rw [h1, h2, List.range_succ, List.map_append, List.map_append]
    exact ⟨JsMap.set_of_not_mem _ _ _ (chainName_not_mem_keys _ k k (Nat.le_refl _)),
      JsMap.set_of_not_mem _ _ _ (chainName_not_mem_keys _ k k (Nat.le_refl _))⟩

theorem chainBundler_has (n i : Nat) (hi : i ≤ n) :
    JsMap.has (chainBundler n).modules (chainName i) = true := by
  rw [JsMap.has_iff_mem_keys]
  apply JsMap.mem_keys_of_get
  rw [chainBundler, (chainUpTo_fields n (n + 1)).1]
  exact get_chainEntries (fun _ => "") (n + 1) i (by omega)

theorem chainBundler_depsOf (n i : Nat) (hi : i ≤ n) :
    depsOf (chainBundler n) (chainName i) = chainDeps n i := by
  unfold depsOf
  rw [chainBundler, (chainUpTo_fields n (n + 1)).2,
    get_chainEntries (chainDeps n) (n + 1) i (by omega)]
  rfl

theorem chainBundler_keys (n : Nat) :
    JsMap.keys (chainBundler n).modules = (List.range (n + 1)).map chainName := by
  rw [chainBundler, (chainUpTo_fields n (n + 1)).1]
  simp [JsMap.keys, Function.comp]

theorem chainBundler_registered (n : Nat) (m : String)
    (hm : JsMap.has (chainBundler n).modules m = true) : ∃ i, i ≤ n ∧ m = chainName i := by
  rw [JsMap.has_iff_mem_keys, chainBundler_keys] at hm
  obtain ⟨i, hi, he⟩ := List.mem_map.mp hm
  exact ⟨i, by have := List.mem_range.mp hi; omega, he.symm⟩

theorem chainBundler_edge (n : Nat) (m d : String) (h : DependsOn (chainBundler n) m d) :
    ∃ i, i < n ∧ m = chainName i ∧ d = chainName (i + 1) := by
  unfold DependsOn at h
  by_cases hreg : JsMap.has (chainBundler n).modules m = true
  · obtain ⟨i, hi, rfl⟩ := chainBundler_registered n m hreg
    rw [chainBundler_depsOf n i hi] at h
    unfold chainDeps at h
    split at h
    · rename_i hlt
      exact ⟨i, hlt, rfl, List.mem_singleton.mp h⟩
    · simp at h
  · have hnone : JsMap.get (chainBundler n).dependencies m = none := by
      rw [JsMap.get_eq_none_iff]
      intro hk
      apply hreg
      rw [JsMap.has_iff_mem_keys, chainBundler_keys]
      rw [chainBundler, (chainUpTo_fields n (n + 1)).2] at hk
      simpa [JsMap.keys, Function.comp] using hk
    simp [depsOf, hnone] at h

theorem chainBundler_path (n : Nat) (m d : String)
    (h : Relation.TransGen (DependsOn (chainBundler n)) m d) :
    ∃ i j, i < j ∧ m = chainName i ∧ d = chainName j := by
  induction h with
  | single h1 =>
    obtain ⟨i, _, h2, h3⟩ := chainBundler_edge n _ _ h1
    exact ⟨i, i + 1, by omega, h2, h3⟩
  | tail _ h1 ih =>
    obtain ⟨i, j, hij, h2, h3⟩ := ih
    obtain ⟨k, _, h4, h5⟩ := chainBundler_edge n _ _ h1
    have : j = k := chainName_injective (h3.symm.trans h4)
    exact ⟨i, k + 1, by omega, h2, h5⟩

theorem chainBundler_closed (n : Nat) : Closed (chainBundler n) := by
  intro m _ d hd
  obtain ⟨i, hi, _, h3⟩ := chainBundler_edge n m d hd
  rw [h3]
  exact chainBundler_has n (i + 1) (by omega)

theorem chainBundler_acyclic (n : Nat) : Acyclic (chainBundler n) := by
  intro m _ hcycle
  obtain ⟨i, j, hij, h2, h3⟩ := chainBundler_path n m m hcycle
  have := chainName_injective (h2.symm.trans h3)
  omega

/-- On the chain, an activation of `visit` at position `i` with `k` nested
activations left and `k` modules or more ahead of it runs into the end of the
stack. -/
theorem visit_chain_overflows (n : Nat) :
    ∀ (k i : Nat) (st : ResolveState), i + k ≤ n →
      (∀ j, i ≤ j → chainName j ∉ st.visiting ∧ chainName j ∉ st.visited) →
      visit (chainBundler n) k (chainName i) st = .outOfFuel := by
  intro k
  induction k with
  | zero => intro i st _ _; rfl
  | succ k ih =>
    intro i st hik hst
    have h1 : JsSet.has st.visiting (chainName i) = false := by
      cases hh : JsSet.has st.visiting (chainName i) with
      | false => rfl
      | true => exact absurd ((JsSet.has_iff _ _).mp hh) (hst i (Nat.le_refl _)).1
    have h2 : JsSet.has st.visited (chainName i) = false := by
      cases hh : JsSet.has st.visited (chainName i) with
      | false => rfl
      | true => exact absurd ((JsSet.has_iff _ _).mp hh) (hst i (Nat.le_refl _)).2
    have hd : depsOf (chainBundler n) (chainName i) = [chainName (i + 1)] := by
      rw [chainBundler_depsOf n i (by omega)]
      simp [chainDeps, show i < n by omega]
    have hh := chainBundler_has n (i + 1) (by omega)
    have hrec := ih (i + 1) { st with visiting := JsSet.add st.visiting (chainName i) }
      (by omega) (by
        intro j hj
        refine ⟨?_, (hst j (by omega)).2⟩
        intro hm
        rcases (JsSet.mem_add _ _ _).mp hm with hm | hm
        · exact (hst j (by omega)).1 hm
        · have := chainName_injective hm
          omega)
    simp [visit, h1, h2, hd, visitDeps, hh, hrec]

/-- A traversal that ended on a stack of some depth ends the same way on a
stack that is deep enough. -/
theorem visitAll_of_ended (b : SimpleBundler) (depth : Nat)
    (h : visitAll b depth (JsMap.keys b.modules)
      { visited := [], visiting := [], sorted := [] } ≠ .outOfFuel) :
    visitAll b (b.modules.length + 1) (JsMap.keys b.modules)
        { visited := [], visiting := [], sorted := [] }
      = visitAll b depth (JsMap.keys b.modules)
          { visited := [], visiting := [], sorted := [] } := by
  by_cases hd : depth ≤ b.modules.length + 1
  · obtain ⟨k, hk⟩ : ∃ k, b.modules.length + 1 = depth + k :=
      ⟨b.modules.length + 1 - depth, by omega⟩
    rw [hk]
    exact visitAll_fuel_add b depth k _ _ h
  · obtain ⟨k, hk⟩ : ∃ k, depth = b.modules.length + 1 + k :=
      ⟨depth - (b.modules.length + 1), by omega⟩
    have hbase := visitAll_fuel b (b.modules.length + 1) (JsMap.keys b.modules)
      { visited := [], visiting := [], sorted := [] } (fun _ hn => hn)
      ⟨List.nodup_nil, fun _ hx => by simp at hx, by simp⟩
    rw [hk]
    exact (visitAll_fuel_add b (b.modules.length + 1) k _ _ hbase).symm

/-- On a stack with room for more nested activations than there are
registered modules, the method ends as `resolveDependencies` does. -/
theorem resolveDependenciesOnStack_of_deep (b : SimpleBundler) (depth : Nat)
    (hd : b.modules.length + 1 ≤ depth) :
    resolveDependenciesOnStack depth b = resolveDependencies b := by
  obtain ⟨k, hk⟩ : ∃ k, depth = b.modules.length + 1 + k :=
    ⟨depth - (b.modules.length + 1), by omega⟩
  have hbase := visitAll_fuel b (b.modules.length + 1) (JsMap.keys b.modules)
    { visited := [], visiting := [], sorted := [] } (fun _ hn => hn)
    ⟨List.nodup_nil, fun _ hx => by simp at hx, by simp⟩
  have heq := visitAll_fuel_add b (b.modules.length + 1) k _ _ hbase
  unfold resolveDependenciesOnStack resolveDependencies
  rw [hk, heq]
  split
  · rfl
  · rfl
  · rename_i hout
    exact absurd hout hbase

/-- A list returned on a stack of any depth is the list returned on a stack
that is deep enough. -/
theorem resolveDependencies_of_onStack (b : SimpleBundler) (depth : Nat)
    (sorted : List String) (h : resolveDependenciesOnStack depth b = .ok sorted) :
    resolveDependencies b = .ok sorted := by
  unfold resolveDependenciesOnStack at h
  have hne : visitAll b depth (JsMap.keys b.modules)
      { visited := [], visiting := [], sorted := [] } ≠ .outOfFuel := by
    intro hout
    rw [hout] at h
    simp at h
  unfold resolveDependencies
  rw [visitAll_of_ended b depth hne]
  split at h
  · exact h
  · simp at h
  · simp at h

/-- Whatever the depth of the call stack, the chain with one module more than
the stack affords nested activations of `visit` has every dependency
registered and no cycle, and `resolveDependencies` raises `RangeError` on
it. -/
theorem chain_overflows (depth : Nat) :
    Closed (chainBundler depth) ∧ Acyclic (chainBundler depth) ∧
    (chainBundler depth).modules.length = depth + 1 ∧
    resolveDependenciesOnStack depth (chainBundler depth) = .thrown stackOverflowError := by
  refine ⟨chainBundler_closed depth, chainBundler_acyclic depth, ?_, ?_⟩
  · rw [chainBundler, (chainUpTo_fields depth (depth + 1)).1]
    simp
  · have hv := visit_chain_overflows depth depth 0
      { visited := [], visiting := [], sorted := [] } (by omega)
      (fun j _ => ⟨by simp, by simp⟩)
    unfold resolveDependenciesOnStack
    rw [chainBundler_keys, List.range_succ_eq_map, List.map_cons]
    simp only [visitAll, hv]

/-- C20, as stated, fails: the chain of 5000 modules, each depending on the
next, has every dependency registered and no cycle, and on a call stack that
affords 4999 nested activations of `visit` the method raises `RangeError`;
and so it is for every depth of the stack, with the chain that is one module
longer than the stack is deep. -/
theorem deep_chain_overflows_stack :
    (Closed (chainBundler 4999) ∧ Acyclic (chainBundler 4999) ∧
      (chainBundler 4999).modules.length = 5000 ∧
      resolveDependenciesOnStack 4999 (chainBundler 4999) = .thrown stackOverflowError) ∧
    ∀ depth : Nat,
      Closed (chainBundler depth) ∧ Acyclic (chainBundler depth) ∧
      (chainBundler depth).modules.length = depth + 1 ∧
      resolveDependenciesOnStack depth (chainBundler depth) = .thrown stackOverflowError :=
  ⟨chain_overflows 4999, chain_overflows⟩

/-- C20, amended: on a call stack of any depth, `resolveDependencies` returns
a list only if every name in the dependency list of a registered module is
registered and no registered module reaches itself through declared
dependency edges; when the stack affords more nested activations of `visit`
than there are registered modules, it returns a list exactly in that case;
and in every case in which it does not return a list it raises an error,
also when a module lists itself. -/
theorem resolveDependenciesOnStack_ok_iff (depth : Nat) (b : SimpleBundler) :
    ((∃ sorted, resolveDependenciesOnStack depth b = .ok sorted) →
      Closed b ∧ Acyclic b) ∧
    (b.modules.length + 1 ≤ depth →
      ((∃ sorted, resolveDependenciesOnStack depth b = .ok sorted) ↔
        (Closed b ∧ Acyclic b))) ∧
    ((∃ sorted, resolveDependenciesOnStack depth b = .ok sorted) ∨
      (∃ e, resolveDependenciesOnStack depth b = .thrown e)) ∧
    (¬ (Closed b ∧ Acyclic b) → ∃ e, resolveDependenciesOnStack depth b = .thrown e) ∧
    (∀ m, JsMap.has b.modules m = true → m ∈ depsOf b m →
      ∃ e, resolveDependenciesOnStack depth b = .thrown e) := by
  have honly : (∃ sorted, resolveDependenciesOnStack depth b = .ok sorted) →
      Closed b ∧ Acyclic b := by
    rintro ⟨sorted, h⟩
    exact (resolveDependencies_ok_iff_of_deep_stack b).1.mp
      ⟨sorted, resolveDependencies_of_onStack b depth sorted h⟩
  have hends : (∃ sorted, resolveDependenciesOnStack depth b = .ok sorted) ∨
      (∃ e, resolveDependenciesOnStack depth b = .thrown e) := by
    unfold resolveDependenciesOnStack
    split
    · exact Or.inl ⟨_, rfl⟩
    · exact Or.inr ⟨_, rfl⟩
    · exact Or.inr ⟨_, rfl⟩
  have hthrow : ¬ (Closed b ∧ Acyclic b) →
      ∃ e, resolveDependenciesOnStack depth b = .thrown e := by
    intro hnot
    rcases hends with h | h
    · exact absurd (honly h) hnot
    · exact h
  refine ⟨honly, ?_, hends, hthrow, fun m hm hself =>
    hthrow (fun hca => hca.2 m hm (Relation.TransGen.single hself))⟩
  intro hd
  rw [resolveDependenciesOnStack_of_deep b depth hd]
  exact (resolveDependencies_ok_iff_of_deep_stack b).1

theorem demoBundler_closed_acyclic : Closed demoBundler ∧ Acyclic demoBundler :=
  (resolveDependencies_ok_iff_of_deep_stack demoBundler).1.mp
    ⟨["utils", "math", "main"], by decide⟩

/-- The amended C20 at the registry of the demonstration on a stack of depth
4, and at the registry with the cycle `A`, `B` on a stack of depth 1. -/
theorem resolveDependenciesOnStack_ok_iff_witness :
    demoBundler.modules.length + 1 ≤ 4 ∧ (Closed demoBundler ∧ Acyclic demoBundler) ∧
    (∃ sorted, resolveDependenciesOnStack 4 demoBundler = .ok sorted) ∧
    ¬ (Closed cycleBundler ∧ Acyclic cycleBundler) ∧
    (∃ e, resolveDependenciesOnStack 1 cycleBundler = .thrown e) :=
  ⟨by decide, demoBundler_closed_acyclic,
    ((resolveDependenciesOnStack_ok_iff 4 demoBundler).2.1 (by decide)).mpr
      demoBundler_closed_acyclic,
    cycleBundler_not_acyclic,
    (resolveDependenciesOnStack_ok_iff 1 cycleBundler).2.2.2.1 cycleBundler_not_acyclic⟩

end SimpleBundler

/-! ## The counter, `memoize` and `BankAccount`: the properties -/

namespace CommonJSCounter

/-- C23 fails on the code: `increment`, called on the exports object, ends
with `this.count = count`, so after one call the exported field `count` is 1
and not 0; `getCount()` returns 1. -/
theorem increment_updates_exported_count :
    createCommonJSCounter.exportsCount = 0 ∧
    (increment createCommonJSCounter).1 = 1 ∧
    (increment createCommonJSCounter).2.exportsCount = 1 ∧
    (increment createCommonJSCounter).2.exportsCount ≠ 0 ∧
    getCount (increment createCommonJSCounter).2 = 1 := by
  decide

end CommonJSCounter

namespace Memo

/-- C24 fails on the argument lists `[null]` and `[undefined]`: they have the
same key `[null]`, so after the call on `null` the memoized `x => x === null`
returns the cached `true` on `undefined`, where the function returns
`false`. -/
theorem memoize_confuses_null_and_undefined :
    jsonStringify [.null] = "[null]" ∧ jsonStringify [.undefined] = "[null]" ∧
    callAll (memoize (pureFn isNull) 1) [[.null], [.undefined]] []
      = some ([.boolean true, .boolean true], [("[null]", .boolean true)]) ∧
    isNull [.undefined] = .boolean false := by
  decide

/-- On a coherent cache, a call of the memoized pure function on an argument
list that shares its key only with lists of the same value returns the value
of the function and leaves a coherent cache. -/
theorem memoizeWith_pure (stringify : List JsArg → String) (f : List JsArg → JsArg)
    (fuel : Nat) (args : List JsArg) (cache : JsMap JsArg)
    (hc : Coherent stringify f cache)
    (hkey : ∀ a, stringify a = stringify args → f a = f args) :
    ∃ cache1, memoizeWith stringify (pureFn f) (fuel + 1) args cache = some (f args, cache1) ∧
      Coherent stringify f cache1 := by
  simp only [memoizeWith, pureFn]
  cases hg : JsMap.get cache (stringify args) with
  | some v =>
    have hhas : JsMap.has cache (stringify args) = true :=
      (JsMap.has_iff_mem_keys _ _).mpr (JsMap.mem_keys_of_get hg)
    obtain ⟨a, ha, hv⟩ := hc _ _ hg
    refine ⟨cache, ?_, hc⟩
    simp [hhas, ← hv, hkey a ha]
  | none =>
    have hhas : JsMap.has cache (stringify args) = false := by
      cases hh : JsMap.has cache (stringify args) with
      | false => rfl
      | true =>
        have := (JsMap.get_eq_none_iff _ _).mp hg
        exact absurd ((JsMap.has_iff_mem_keys _ _).mp hh) this
    refine ⟨JsMap.set cache (stringify args) (f args), by simp [hhas], ?_⟩
    intro key v hget
    by_cases hk : key = stringify args
    · subst hk
      rw [JsMap.get_set_self] at hget
      exact ⟨args, rfl, by simpa using hget⟩
    · rw [JsMap.get_set_ne _ _ _ _ hk] at hget
      exact hc key v hget

/-- Away from colliding keys the memoized function refines the function: on
a sequence of argument lists each of which shares its key only with lists of
the same value, every call, first or repeated, returns the value of the
function. -/
theorem callAll_refines (stringify : List JsArg → String) (f : List JsArg → JsArg)
    (fuel : Nat) :
    ∀ (calls : List (List JsArg)) (cache : JsMap JsArg), Coherent stringify f cache →
      (∀ args ∈ calls, ∀ a, stringify a = stringify args → f a = f args) →
      ∃ cache1, callAll (memoizeWith stringify (pureFn f) (fuel + 1)) calls cache
        = some (calls.map f, cache1) := by
  intro calls
  induction calls with
  | nil => intro cache _ _; exact ⟨cache, rfl⟩
  | cons args rest ih =>
    intro cache hc hkey
    obtain ⟨c1, h1, hc1⟩ := memoizeWith_pure stringify f fuel args cache hc
      (hkey args (List.mem_cons_self _ _))
    obtain ⟨c2, h2⟩ := ih c1 hc1 (fun a ha => hkey a (List.mem_cons_of_mem _ ha))
    exact ⟨c2, by simp [callAll, h1, h2]⟩

/-- The memoized `fibonacci` returns 55 for 10 on the first call and, from the
cache it left, on the second call, for every fuel of at least 12. -/
theorem fibonacci_ten (fuel : Nat) :
    ∃ c1, fibonacci (fuel + 12) [.number 10] [] = some (.number 55, c1) ∧
      fibonacci (fuel + 12) [.number 10] c1 = some (.number 55, c1) :=
  ⟨_, rfl, rfl⟩

end Memo

namespace BankAccount

/-- C30 fails at the amount `Infinity`: on an account opened with balance 0,
`deposit(Infinity)` is accepted and so is `withdraw(Infinity)`, which leaves
the balance `Infinity - Infinity`, that is `NaN`; `NaN >= 0` is false. -/
theorem infinite_withdrawal_gives_nan :
    nonNegative (new "12345" (.finite 0)) = true ∧
    deposit (new "12345" (.finite 0)) (.number .posInf)
      = ("Deposited Infinity. New balance: Infinity", new "12345" .posInf) ∧
    withdraw (new "12345" .posInf) (.number .posInf)
      = ("Withdrew Infinity. New balance: NaN", new "12345" .nan) ∧
    (runOps (new "12345" (.finite 0))
      [.deposit (.number .posInf), .withdraw (.number .posInf)]).balance = .nan ∧
    nonNegative (runOps (new "12345" (.finite 0))
      [.deposit (.number .posInf), .withdraw (.number .posInf)]) = false := by
  decide

theorem JsNumber.roundInteger_of_safe (n : Int) (h : n.natAbs ≤ 2 ^ 53) :
    JsNumber.roundInteger n = .finite n := by
  unfold JsNumber.roundInteger
  rw [if_pos h]

set_option exponentiation.threshold 1100 in
/-- Past `2 ^ 53` an accepted deposit need not change the balance by the
amount: on the balance `2 ^ 53`, `deposit(1)` is accepted and leaves the
balance `2 ^ 53`. -/
theorem deposit_rounds :
    (deposit (new "12345" (.finite 9007199254740992)) (.number (.finite 1))).2.balance
      = .finite 9007199254740992 := by
  rfl

/-- On an integer balance, `deposit` of an integer that is not positive is
rejected and leaves the account as it was; `deposit` of a positive integer
adds it to the balance, when the sum is at most `2 ^ 53`. -/
theorem deposit_integer (acc : BankAccount) (b n : Int) (hb : acc.balance = .finite b) :
    (n ≤ 0 → deposit acc (.number (.finite n)) = ("Invalid amount", acc)) ∧
    (0 < n → (b + n).natAbs ≤ 2 ^ 53 →
      (deposit acc (.number (.finite n))).2.balance = .finite (b + n)) := by
  constructor
  · intro hn
    have : ¬ 0 < n := by omega
    simp [deposit, validateAmount, JsNumber.isPositive, this]
  · intro hn hs
    simp [deposit, validateAmount, JsNumber.isPositive, hn, hb, JsNumber.add,
      JsNumber.roundInteger_of_safe _ hs]

/-- On an integer balance, `withdraw` of an integer that is not positive or
exceeds the balance is rejected and leaves the account as it was; otherwise
it subtracts the integer from the balance, when the balance is at most
`2 ^ 53`. -/
theorem withdraw_integer (acc : BankAccount) (b n : Int) (hb : acc.balance = .finite b) :
    (n ≤ 0 ∨ b < n → withdraw acc (.number (.finite n))
      = ("Invalid amount or insufficient funds", acc)) ∧
    (0 < n → n ≤ b → b ≤ 2 ^ 53 →
      (withdraw acc (.number (.finite n))).2.balance = .finite (b - n)) := by
  constructor
  · intro hn
    have : ¬ (0 < n ∧ n ≤ b) := by omega
    simp [withdraw, validateAmount, JsNumber.isPositive, JsNumber.le, hb, this]
  · intro h1 h2 h3
    have hs : (b + -n).natAbs ≤ 2 ^ 53 := by omega
    simp [withdraw, validateAmount, JsNumber.isPositive, JsNumber.le, hb, h1, h2,
      JsNumber.sub, JsNumber.add, JsNumber.neg, JsNumber.roundInteger_of_safe _ hs,
      Int.sub_eq_add_neg]

theorem depositTotal_nonneg : ∀ ops : List Op, 0 ≤ depositTotal ops := by
  intro ops
  induction ops with
  | nil => simp [depositTotal]
  | cons op rest ih =>
    cases op with
    | withdraw a => simpa [depositTotal] using ih
    | deposit a =>
      cases a with
      | other t => simpa [depositTotal] using ih
      | number x =>
        cases x with
        | finite n =>
          simp only [depositTotal]
          split <;> omega
        | posInf => simpa [depositTotal] using ih
        | negInf => simpa [depositTotal] using ih
        | nan => simpa [depositTotal] using ih

theorem depositTotal_append (pre rest : List Op) :
    depositTotal (pre ++ rest) = depositTotal pre + depositTotal rest := by
  induction pre with
  | nil => simp [depositTotal]
  | cons op pre ih =>
    cases op with
    | withdraw a => simpa [depositTotal] using ih
    | deposit a =>
      cases a with
      | other t => simpa [depositTotal] using ih
      | number x =>
        cases x with
        | finite n =>
          have h : depositTotal ((Op.deposit (.number (.finite n)) :: pre) ++ rest)
              = (if 0 < n then n else 0) + depositTotal (pre ++ rest) := rfl
          rw [h, ih]
          simp only [depositTotal]
          split <;> omega
        | posInf => simpa [depositTotal] using ih
        | negInf => simpa [depositTotal] using ih
        | nan => simpa [depositTotal] using ih

/-- With integer amounts, and the initial balance plus the deposits at most
`2 ^ 53`, a balance that starts as a non-negative integer is a non-negative
integer after every sequence of calls, at most the initial balance plus the
deposits. -/
theorem integer_balance_invariant :
    ∀ (ops : List Op) (acc : BankAccount) (b0 : Int), acc.balance = .finite b0 → 0 ≤ b0 →
      (∀ op ∈ ops, Op.isInteger op) → b0 + depositTotal ops ≤ 2 ^ 53 →
      ∃ b, (runOps acc ops).balance = .finite b ∧ 0 ≤ b ∧ b ≤ b0 + depositTotal ops := by
  intro ops
  induction ops with
  | nil => intro acc b0 hb h0 _ _; exact ⟨b0, hb, h0, by simp [depositTotal]⟩
  | cons op rest ih =>
    intro acc b0 hb h0 hint hsafe
    have hrest : ∀ o ∈ rest, Op.isInteger o := fun o ho => hint o (List.mem_cons_of_mem _ ho)
    have hop := hint op (List.mem_cons_self _ _)
    have hnn := depositTotal_nonneg rest
    simp only [runOps, List.foldl_cons]
    cases op with
    | deposit a =>
      cases a with
      | other t =>
        have hsafe2 : b0 + depositTotal rest ≤ 2 ^ 53 := by simpa [depositTotal] using hsafe
        obtain ⟨b, h1, h2, h3⟩ := ih (step acc (.deposit (.other t))) b0
          (by simpa [step, deposit] using hb) h0 hrest hsafe2
        exact ⟨b, h1, h2, by simpa [depositTotal] using h3⟩
      | number x =>
        cases x with
        | finite n =>
          by_cases hn : 0 < n
          · have hsafe2 : b0 + n + depositTotal rest ≤ 2 ^ 53 := by
              simp only [depositTotal, hn, if_true] at hsafe
              omega
            obtain ⟨b, h1, h2, h3⟩ := ih (step acc (.deposit (.number (.finite n)))) (b0 + n)
              ((deposit_integer acc b0 n hb).2 hn (by omega)) (by omega) hrest hsafe2
            exact ⟨b, h1, h2, by simp only [depositTotal, hn, if_true]; omega⟩
          · have hsafe2 : b0 + depositTotal rest ≤ 2 ^ 53 := by
              simp only [depositTotal, hn, if_false] at hsafe
              omega
            obtain ⟨b, h1, h2, h3⟩ := ih (step acc (.deposit (.number (.finite n)))) b0
              (by rw [step, (deposit_integer acc b0 n hb).1 (by omega)]; exact hb) h0 hrest
              hsafe2
            exact ⟨b, h1, h2, by simp only [depositTotal, hn, if_false]; omega⟩
        | posInf => exact absurd hop (by simp [Op.isInteger])
        | negInf => exact absurd hop (by simp [Op.isInteger])
        | nan => exact absurd hop (by simp [Op.isInteger])
    | withdraw a =>
      have hsafe2 : b0 + depositTotal rest ≤ 2 ^ 53 := by simpa [depositTotal] using hsafe
      cases a with
      | other t =>
        obtain ⟨b, h1, h2, h3⟩ := ih (step acc (.withdraw (.other t))) b0
          (by simpa [step, withdraw] using hb) h0 hrest hsafe2
        exact ⟨b, h1, h2, by simpa [depositTotal] using h3⟩
      | number x =>
        cases x with
        | finite n =>
          by_cases hn : 0 < n ∧ n ≤ b0
          · obtain ⟨b, h1, h2, h3⟩ := ih (step acc (.withdraw (.number (.finite n)))) (b0 - n)
              ((withdraw_integer acc b0 n hb).2 hn.1 hn.2 (by omega)) (by omega) hrest
              (by omega)
            exact ⟨b, h1, h2, by simp only [depositTotal]; omega⟩
          · obtain ⟨b, h1, h2, h3⟩ := ih (step acc (.withdraw (.number (.finite n)))) b0
              (by rw [step, (withdraw_integer acc b0 n hb).1 (by omega)]; exact hb) h0 hrest
              hsafe2
            exact ⟨b, h1, h2, by simpa [depositTotal] using h3⟩
        | posInf => exact absurd hop (by simp [Op.isInteger])
        | negInf => exact absurd hop (by simp [Op.isInteger])
        | nan => exact absurd hop (by simp [Op.isInteger])

/-- Within the range where the arithmetic of doubles is exact: when the
initial balance plus the deposits is at most `2 ^ 53`, every balance reached
along a sequence of calls with integer amounts is an integer between 0 and
`2 ^ 53`. -/
theorem safe_integer_balance (pre rest : List Op) (acc : BankAccount) (b0 : Int)
    (hb : acc.balance = .finite b0) (h0 : 0 ≤ b0)
    (hint : ∀ op ∈ pre ++ rest, Op.isInteger op)
    (hsafe : b0 + depositTotal (pre ++ rest) ≤ 2 ^ 53) :
    ∃ b, (runOps acc pre).balance = .finite b ∧ 0 ≤ b ∧ b ≤ 2 ^ 53 := by
  have h4 := depositTotal_append pre rest
  have h5 := depositTotal_nonneg rest
  obtain ⟨b, h1, h2, h3⟩ := integer_balance_invariant pre acc b0 hb h0
    (fun op hop => hint op (List.mem_append_left _ hop)) (by omega)
  exact ⟨b, h1, h2, by omega⟩

end BankAccount
